import Mathlib

/-!
scipipe: process construction, task creation and the run loop.

A shallow embedding of `process.go` (package `scipipe`).

* Go strings are lists of characters (`Str`).
* A Go `map[string]V` is a `GoMap V`: a list of entries whose keys are
  pairwise distinct.  The order of the entries is the order in which one
  `range` loop visits them.
* A channel that a port reads from is the list of the values that are
  delivered on it before it is closed.
* A Go function that can panic and the instantiation of a task, which can
  fail, return an `Option`.
-/

namespace Scipipe

/-- Go `string`. -/
abbrev Str := List Char

/-! ## Go maps -/

/-- The assignment `m[k] = v` on the entries of a map: an existing key keeps
its place and gets the new value, a new key is added. -/
def setEntry {V : Type} (k : Str) (v : V) : List (Str × V) → List (Str × V)
  | [] => [(k, v)]
  | e :: rest => if e.1 = k then (k, v) :: rest else e :: setEntry k v rest

/-- Go `map[string]V`. -/
structure GoMap (V : Type) where
  entries : List (Str × V)
  nodup : (entries.map Prod.fst).Nodup

namespace GoMap

/-- The result of `make(map[string]V)`. -/
def empty {V : Type} : GoMap V := ⟨[], List.nodup_nil⟩

/-- The keys of the map. -/
def keys {V : Type} (m : GoMap V) : List Str := m.entries.map Prod.fst

/-- The lookup `v, ok := m[k]`. -/
def get {V : Type} (m : GoMap V) (k : Str) : Option V := m.entries.lookup k

/-- The assignment `m[k] = v`. -/
def set {V : Type} (m : GoMap V) (k : Str) (v : V) : GoMap V :=
  ⟨setEntry k v m.entries, by
    have hmem : ∀ (l : List (Str × V)) (x : Str),
        x ∈ (setEntry k v l).map Prod.fst → x = k ∨ x ∈ l.map Prod.fst := by
      intro l
      induction l with
      | nil => intro x hx; simpa [setEntry] using hx
      | cons e rest ih =>
        intro x hx
        unfold setEntry at hx
        by_cases h : e.1 = k
        · simp only [h, if_true, List.map_cons, List.mem_cons] at hx
          simp only [List.map_cons, List.mem_cons]
          tauto
        · simp only [h, if_false, List.map_cons, List.mem_cons] at hx
          simp only [List.map_cons, List.mem_cons]
          rcases hx with hx | hx
          · exact Or.inr (Or.inl hx)
          · rcases ih x hx with h1 | h1
            · exact Or.inl h1
            · exact Or.inr (Or.inr h1)
    have hnd : ∀ l : List (Str × V), (l.map Prod.fst).Nodup →
        ((setEntry k v l).map Prod.fst).Nodup := by
      intro l
      induction l with
      | nil => intro _; simp [setEntry]
      | cons e rest ih =>
        intro h
        unfold setEntry
        rw [List.map_cons, List.nodup_cons] at h
        by_cases hk : e.1 = k
        · simp only [hk, if_true, List.map_cons, List.nodup_cons]
          exact ⟨hk ▸ h.1, h.2⟩
        · simp only [hk, if_false, List.map_cons, List.nodup_cons]
          refine ⟨?_, ih h.2⟩
          intro hx
          rcases hmem rest e.1 hx with h1 | h1
          · exact hk h1
          · exact h.1 h1
    exact hnd m.entries m.nodup⟩

/-- Go `len(m)`. -/
def len {V : Type} (m : GoMap V) : Nat := m.entries.length

/-- The map with the same keys whose values are the images of the values
under `f`. -/
def mapValues {V W : Type} (f : V → W) (m : GoMap V) : GoMap W :=
  ⟨m.entries.map (fun e => (e.1, f e.2)), by
    have h : (m.entries.map (fun e => (e.1, f e.2))).map Prod.fst = m.entries.map Prod.fst := by
      rw [List.map_map]
      rfl
    rw [h]
    exact m.nodup⟩

end GoMap

/-- The lookup `v, ok := m[k]` on a map that may be `nil`: a nil map has no
entry. -/
def lookupNil {V : Type} (m : Option (GoMap V)) (k : Str) : Option V :=
  match m with
  | none => none
  | some mp => mp.get k

/-! ## Strings -/

/-- Scan of `strings.Replace(s, old, new, -1)` for a non-empty `old`: the
first argument counts the characters of a match that are still to be
skipped. -/
def replaceFrom (old new : Str) : Nat → Str → Str
  | _, [] => []
  | k + 1, _ :: s => replaceFrom old new k s
  | 0, c :: s =>
    if old.isPrefixOf (c :: s) then new ++ replaceFrom old new (old.length - 1) s
    else c :: replaceFrom old new 0 s

/-- Go `strings.Replace(s, old, new, -1)`: every non-overlapping occurrence of
`old`, scanned from the left, is replaced by `new`; an empty `old` matches
before every character and at the end. -/
def Replace (s old new : Str) : Str :=
  if old = [] then new ++ s.foldr (fun c acc => c :: (new ++ acc)) []
  else replaceFrom old new 0 s

/-! ## The placeholder pattern -/

/-- One element of the result of `FindAllStringSubmatch`: `m[0]`, `m[1]` and
`m[2]`. -/
structure Submatch where
  whole : Str
  typ : Str
  name : Str
  deriving DecidableEq, Repr

/-- First character of a NAME: `[A-Za-z_]`. -/
def isNameStart (c : Char) : Bool := c.isAlpha || c == '_'

/-- Later character of a NAME: `[A-Za-z0-9_]`. -/
def isNameChar (c : Char) : Bool := c.isAlphanum || c == '_'

/-- The kind of a placeholder and the text after its colon: `o`, `os`, `i` or
`p` followed by `:`. -/
def parseKind : Str → Option (Str × Str)
  | 'o' :: ':' :: r => some (['o'], r)
  | 'o' :: 's' :: ':' :: r => some (['o', 's'], r)
  | 'i' :: ':' :: r => some (['i'], r)
  | 'p' :: ':' :: r => some (['p'], r)
  | _ => none

/-- The NAME and the closing brace of a placeholder: the longest run of name
characters, which starts with a letter or an underscore and is followed by
the closing brace. -/
def parseName (r : Str) : Option Str :=
  match r.takeWhile isNameChar, r.dropWhile isNameChar with
  | c :: cs, '}' :: _ => if isNameStart c then some (c :: cs) else none
  | _, _ => none

/-- Modelled from the spec: `getShellCommandPlaceHolderRegex`, which is not in
the source files.  The pattern is `{K:NAME}` with `K` one of `i`, `o`, `os`,
`p` and NAME `[A-Za-z_][A-Za-z0-9_]*`; `matchAt s` is the match of the pattern
at the start of `s`. -/
def matchAt : Str → Option Submatch
  | '{' :: s =>
    match parseKind s with
    | some (typ, r) =>
      match parseName r with
      | some name => some ⟨'{' :: (typ ++ ':' :: (name ++ ['}'])), typ, name⟩
      | none => none
    | none => none
  | _ => none

/-- A piece of a command template: a character outside every placeholder, or
a placeholder. -/
inductive Piece where
  | lit (c : Char)
  | ph (m : Submatch)
  deriving DecidableEq, Repr

/-- Left-to-right scan of a template for the non-overlapping matches of the
placeholder pattern; the first argument counts the characters of a match
that are still to be skipped. -/
def scanFrom : Nat → Str → List Piece
  | _, [] => []
  | k + 1, _ :: s => scanFrom k s
  | 0, c :: s =>
    match matchAt (c :: s) with
    | some m => Piece.ph m :: scanFrom (m.whole.length - 1) s
    | none => Piece.lit c :: scanFrom 0 s

/-- The pieces of a command template. -/
def pieces (cmd : Str) : List Piece := scanFrom 0 cmd

/-- The placeholder of a piece. -/
def Piece.submatch? : Piece → Option Submatch
  | Piece.lit _ => none
  | Piece.ph m => some m

/-- Go `r.FindAllStringSubmatch(cmd, -1)` for the placeholder pattern `r`: the
successive non-overlapping matches, leftmost first. -/
def FindAllStringSubmatch (cmd : Str) : List Submatch :=
  (pieces cmd).filterMap Piece.submatch?

/-! ## `expandCommandParamsAndPaths` -/

/-- One iteration of the loop of `expandCommandParamsAndPaths` over the
matches. -/
def expandStep (params inPaths outPaths : Option (GoMap Str)) (cmdExpr : Str)
    (m : Submatch) : Str :=
  if m.typ = ['p'] then
    match params with
    | some ps =>
      match ps.get m.name with
      | some val => Replace cmdExpr m.whole val
      | none => cmdExpr
    | none => cmdExpr
  else if m.typ = ['i'] then
    match inPaths with
    | some ps =>
      match ps.get m.name with
      | some val => Replace cmdExpr m.whole val
      | none => cmdExpr
    | none => cmdExpr
  else if m.typ = ['o'] ∨ m.typ = ['o', 's'] then
    match outPaths with
    | some ps =>
      match ps.get m.name with
      | some val => Replace cmdExpr m.whole val
      | none => cmdExpr
    | none => cmdExpr
  else cmdExpr

/-- Go `expandCommandParamsAndPaths`. -/
def expandCommandParamsAndPaths (cmd : Str) (params inPaths outPaths : Option (GoMap Str)) :
    Str :=
  (FindAllStringSubmatch cmd).foldl (expandStep params inPaths outPaths) cmd

/-- The static value bound to a placeholder: the entry for its NAME in the map
of its kind (`params` for `p`, `inPaths` for `i`, `outPaths` for `o` and
`os`). -/
def binding (params inPaths outPaths : Option (GoMap Str)) (m : Submatch) : Option Str :=
  if m.typ = ['p'] then lookupNil params m.name
  else if m.typ = ['i'] then lookupNil inPaths m.name
  else if m.typ = ['o'] ∨ m.typ = ['o', 's'] then lookupNil outPaths m.name
  else none

/-- The text a piece stands for after substitution: a bound placeholder gives
its value, everything else is left as it was. -/
def substPiece (params inPaths outPaths : Option (GoMap Str)) : Piece → Str
  | Piece.lit c => [c]
  | Piece.ph m =>
    match binding params inPaths outPaths m with
    | some val => val
    | none => m.whole

/-- The substitution the specification describes: every bound placeholder of
`cmd` is replaced, once and at the same time, by its value. -/
def simultaneousSubstitution (cmd : Str) (params inPaths outPaths : Option (GoMap Str)) :
    Str :=
  ((pieces cmd).map (substPiece params inPaths outPaths)).flatten

/-! ## Ports, targets, tasks and processes -/

/-- Modelled from the spec: `FileTarget`, which is not in the source files: the
final `path` of a file and whether it is produced through a FIFO. -/
structure FileTarget where
  path : Str
  doStream : Bool
  deriving DecidableEq, Repr

/-- Go `(*FileTarget).GetPath`. -/
def FileTarget.GetPath (ft : FileTarget) : Str := ft.path

/-- Modelled from the spec: the staging path of a target, which is not in the
source files: `tempPath = path + ".tmp"`. -/
def FileTarget.GetTempPath (ft : FileTarget) : Str := ft.path ++ ".tmp".toList

/-- Modelled from the spec: `FilePort`, which is not in the source files: a
`connected` flag and a channel of file targets.  `Chan` lists the targets
that are delivered on the channel before it is closed. -/
structure FilePort where
  connected : Bool
  Chan : List FileTarget
  deriving DecidableEq, Repr

/-- Modelled from the spec: `ParamPort`, which is not in the source files: a
`connected` flag and a channel of strings.  `Chan` lists the strings that are
delivered on the channel before it is closed. -/
structure ParamPort where
  connected : Bool
  Chan : List Str
  deriving DecidableEq, Repr

/-- Go `(*FilePort).IsConnected`. -/
def FilePort.IsConnected (port : FilePort) : Bool := port.connected

/-- Go `(*ParamPort).IsConnected`. -/
def ParamPort.IsConnected (port : ParamPort) : Bool := port.connected

/-- Modelled from the spec: `NewFilePort`, which is not in the source files: a
port that is not connected yet. -/
def NewFilePort : FilePort := ⟨false, []⟩

/-- Modelled from the spec: `NewParamPort`, which is not in the source files: a
port that is not connected yet. -/
def NewParamPort : ParamPort := ⟨false, []⟩

/-- Modelled from the spec: `SciTask`, which is not in the source files: the
raw command template, the command after the substitution of its placeholders,
the resolved input targets, the output targets and the parameters.
`CustomExecute` names the hook of the process, if one is set. -/
structure SciTask where
  Name : Str
  Command : Str
  ResolvedCommand : Str
  InTargets : GoMap FileTarget
  OutTargets : GoMap FileTarget
  Params : GoMap Str
  CustomExecute : Option Nat

/-- Go `SciProcess`.  A path formatter is a function of the task, `none` where
the Go function panics; `CustomExecute` names the hook, if one is set. -/
structure SciProcess where
  Name : Str
  CommandPattern : Str
  Prepend : Str
  Spawn : Bool
  In : GoMap FilePort
  Out : GoMap FilePort
  OutPortsDoStream : GoMap Bool
  OutPortsDoGlob : GoMap Bool
  PathFormatters : GoMap (SciTask → Option Str)
  ParamPorts : GoMap ParamPort
  CustomExecute : Option Nat

/-- Go `NewSciProcess`. -/
def NewSciProcess (name command : Str) : SciProcess :=
  { Name := name
    CommandPattern := command
    Prepend := []
    Spawn := true
    In := GoMap.empty
    Out := GoMap.empty
    OutPortsDoStream := GoMap.empty
    OutPortsDoGlob := GoMap.empty
    PathFormatters := GoMap.empty
    ParamPorts := GoMap.empty
    CustomExecute := none }

/-- The value of `params[name]` on a map that may be `nil`: the empty string
when there is no entry. -/
def indexNil (params : Option (GoMap Str)) (name : Str) : Str :=
  (lookupNil params name).getD []

/-- One iteration of the loop of `initPortsFromCmdPattern` over the matches.
(A match of the pattern always has its three parts, so the check
`len(m) < 3` never fires.) -/
def initPortsStep (params : Option (GoMap Str)) (p : SciProcess) (m : Submatch) : SciProcess :=
  if m.typ = ['o'] ∨ m.typ = ['o', 's'] then
    let p1 := { p with Out := p.Out.set m.name NewFilePort }
    if m.typ = ['o', 's'] then
      { p1 with OutPortsDoStream := p1.OutPortsDoStream.set m.name true }
    else p1
  else if m.typ = ['i'] then
    { p with In := p.In.set m.name NewFilePort }
  else if m.typ = ['p'] then
    if params.isNone = true ∨ indexNil params m.name = [] then
      { p with ParamPorts := p.ParamPorts.set m.name NewParamPort }
    else p
  else p

/-- Go `(*SciProcess).initPortsFromCmdPattern`. -/
def initPortsFromCmdPattern (p : SciProcess) (cmd : Str) (params : Option (GoMap Str)) :
    SciProcess :=
  (FindAllStringSubmatch cmd).foldl (initPortsStep params) p

/-- Go `NewFromShell` (the set-up of the log is left out). -/
def NewFromShell (name cmd : Str) : SciProcess :=
  initPortsFromCmdPattern (NewSciProcess name cmd) cmd none

/-- Go `ShellExpand`. -/
def ShellExpand (name cmd : Str) (inPaths outPaths params : Option (GoMap Str)) : SciProcess :=
  let cmdExpr := expandCommandParamsAndPaths cmd params inPaths outPaths
  initPortsFromCmdPattern (NewSciProcess name cmdExpr) cmdExpr params

/-- Go `(*SciProcess).IsConnected`: three loops that clear the flag at every
port that is not connected. -/
def SciProcess.IsConnected (proc : SciProcess) : Bool :=
  let c1 := proc.In.entries.foldl
    (fun isConnected e => if !e.2.IsConnected then false else isConnected) true
  let c2 := proc.Out.entries.foldl
    (fun isConnected e => if !e.2.IsConnected then false else isConnected) c1
  proc.ParamPorts.entries.foldl
    (fun isConnected e => if !e.2.IsConnected then false else isConnected) c2

/-- Go `(*SciProcess).SetPathStatic`. -/
def SetPathStatic (p : SciProcess) (outPortName path : Str) : SciProcess :=
  { p with PathFormatters := p.PathFormatters.set outPortName (fun _ => some path) }

/-- The expression `t.InTargets[inPortName].GetPath()` of the formatters of
`SetPathExtend` and `SetPathReplace`.  On a task without that input the map
gives a nil pointer, `GetPath` dereferences it and the formatter panics:
`none`. -/
def inPath (t : SciTask) (inPortName : Str) : Option Str :=
  match t.InTargets.get inPortName with
  | some ft => some ft.GetPath
  | none => none

/-- Go `(*SciProcess).SetPathExtend`. -/
def SetPathExtend (p : SciProcess) (inPortName outPortName extension : Str) : SciProcess :=
  { p with
    PathFormatters := p.PathFormatters.set outPortName
      (fun t =>
        match inPath t inPortName with
        | some path => some (path ++ extension)
        | none => none) }

/-- Go `(*SciProcess).SetPathReplace`. -/
def SetPathReplace (p : SciProcess) (inPortName outPortName old new : Str) : SciProcess :=
  { p with
    PathFormatters := p.PathFormatters.set outPortName
      (fun t =>
        match inPath t inPortName with
        | some path => some (Replace path old new)
        | none => none) }

/-- One call of `SetPathStatic`, `SetPathExtend` or `SetPathReplace`, with its
arguments. -/
inductive PathCall where
  | static (outPortName path : Str)
  | extend (inPortName outPortName extension : Str)
  | replace (inPortName outPortName old new : Str)
  deriving DecidableEq, Repr

/-- The output port name that a call registers a formatter for. -/
def PathCall.outPortName : PathCall → Str
  | PathCall.static o _ => o
  | PathCall.extend _ o _ => o
  | PathCall.replace _ o _ _ => o

/-- The process after a call. -/
def PathCall.apply (p : SciProcess) : PathCall → SciProcess
  | PathCall.static o path => SetPathStatic p o path
  | PathCall.extend i o ext => SetPathExtend p i o ext
  | PathCall.replace i o old new => SetPathReplace p i o old new

/-- The process after a sequence of calls. -/
def applyCalls (p : SciProcess) (calls : List PathCall) : SciProcess :=
  calls.foldl PathCall.apply p

/-- The replacement the specification describes for a non-empty `old`:
`ReplacedAll old new s r` says that `r` is `s` with the occurrences of `old`
replaced by `new`, where the occurrences are found from the left and the
search goes on after each one, so that they do not overlap. -/
inductive ReplacedAll (old new : Str) : Str → Str → Prop where
  | done : ReplacedAll old new [] []
  | occurrence (rest r : Str) :
    ReplacedAll old new rest r → ReplacedAll old new (old ++ rest) (new ++ r)
  | other (c : Char) (s r : Str) :
    (¬ ∃ t, c :: s = old ++ t) → ReplacedAll old new s r → ReplacedAll old new (c :: s) (c :: r)

/-- The process `cat {i:in} > {o:out}` with a static path for `out`, whose
input port is connected to a channel that delivers the targets `a` and `b`
and is then closed, and whose output port is connected. -/
def copyProcess : SciProcess :=
  let p := SetPathStatic (NewFromShell "copy".toList "cat {i:in} > {o:out}".toList)
    "out".toList "o.txt".toList
  { p with
    In := p.In.set "in".toList ⟨true, [⟨"a".toList, false⟩, ⟨"b".toList, false⟩]⟩
    Out := p.Out.set "out".toList ⟨true, []⟩ }

/-- The process `copyProcess` after `SetPathStatic("stray", "s.txt")`: the
name `stray` has a path formatter and is no output port. -/
def strayProcess : SciProcess :=
  SetPathStatic copyProcess "stray".toList "s.txt".toList

/-! ## Task creation -/

/-- Modelled from the spec: the output targets of a task that is being
instantiated, one for every path formatter: the path is the value of the
formatter on the task, and the target streams when the port is flagged in
`outPortsDoStream`.  A formatter that panics stops the instantiation:
`none`. -/
def outTargetsOf (outPortsDoStream : GoMap Bool) (t : SciTask) :
    List (Str × (SciTask → Option Str)) → GoMap FileTarget → Option (GoMap FileTarget)
  | [], acc => some acc
  | (oname, fmt) :: rest, acc =>
    match fmt t with
    | some path =>
      outTargetsOf outPortsDoStream t rest
        (acc.set oname ⟨path, (outPortsDoStream.get oname).getD false⟩)
    | none => none

/-- Modelled from the spec: `NewSciTask`, which is not in the source files.
The task gets the given input targets and parameters and one output target
for every path formatter.  Its command is resolved by the substitution of the
specification: every placeholder of the template is replaced once, `{i:NAME}`
by the path of the input target NAME, `{o:NAME}` and `{os:NAME}` by the
staging path of the output target NAME, `{p:NAME}` by the parameter NAME.
The instantiation fails, `none`, when a path formatter panics and when a
placeholder of the template lacks its binding, which is a fatal error (for an
output placeholder: the port has no path formatter). -/
def NewSciTask (name cmdPat : Str) (inTargets : GoMap FileTarget)
    (outPathFuncs : GoMap (SciTask → Option Str)) (outPortsDoStream : GoMap Bool)
    (params : GoMap Str) (_prepend : Str) : Option SciTask :=
  let t : SciTask := ⟨name, cmdPat, [], inTargets, GoMap.empty, params, none⟩
  match outTargetsOf outPortsDoStream t outPathFuncs.entries GoMap.empty with
  | none => none
  | some outTargets =>
    let ps := some params
    let ins := some (inTargets.mapValues FileTarget.GetPath)
    let outs := some (outTargets.mapValues FileTarget.GetTempPath)
    if (FindAllStringSubmatch cmdPat).all (fun m => (binding ps ins outs m).isSome) then
      some { t with
        OutTargets := outTargets
        ResolvedCommand := simultaneousSubstitution cmdPat ps ins outs }
    else none

/-- The loop shared by `receiveInputs` and `receiveParams`: one receive on
the channel of every port.  A channel that is closed clears the flag; a
value that is received is stored under the name of the port.  The result is
the map of the values, the flag, and the channels after the receives. -/
def receiveAll {V : Type} :
    List (Str × List V) → GoMap V → Bool → GoMap V × Bool × List (Str × List V)
  | [], acc, isOpen => (acc, isOpen, [])
  | (name, []) :: rest, acc, _ =>
    let r := receiveAll rest acc false
    (r.1, r.2.1, (name, []) :: r.2.2)
  | (name, x :: xs) :: rest, acc, isOpen =>
    let r := receiveAll rest (acc.set name x) isOpen
    (r.1, r.2.1, (name, xs) :: r.2.2)

/-- Go `(*SciProcess).receiveInputs`, on the channels of the input ports. -/
def receiveInputs (ins : List (Str × List FileTarget)) :
    GoMap FileTarget × Bool × List (Str × List FileTarget) :=
  receiveAll ins GoMap.empty true

/-- Go `(*SciProcess).receiveParams`, on the channels of the parameter ports. -/
def receiveParams (prms : List (Str × List Str)) :
    GoMap Str × Bool × List (Str × List Str) :=
  receiveAll prms GoMap.empty true

/-- What the goroutine of `createTasks` does before it ends: the tasks that
it sends on the task channel, and whether its loop came to a `break`, after
which the channel is closed (`closed = true`), or was stopped by an
instantiation that failed (`closed = false`). -/
structure TaskStream where
  tasks : List SciTask
  closed : Bool

/-- The loop of the goroutine of `createTasks`, at most `fuel` iterations:
what the goroutine does, or `none` when the iterations do not suffice. -/
def createTasksLoop (p : SciProcess) :
    Nat → List (Str × List FileTarget) → List (Str × List Str) → Option TaskStream
  | 0, _, _ => none
  | fuel + 1, ins, prms =>
    let ri := receiveInputs ins
    let rp := receiveParams prms
    let inPortsOpen := ri.2.1
    let paramPortsOpen := rp.2.1
    if !inPortsOpen && !paramPortsOpen then some ⟨[], true⟩
    else if p.In.len == 0 && !paramPortsOpen then some ⟨[], true⟩
    else if p.ParamPorts.len == 0 && !inPortsOpen then some ⟨[], true⟩
    else
      match NewSciTask p.Name p.CommandPattern ri.1 p.PathFormatters p.OutPortsDoStream
          rp.1 p.Prepend with
      | none => some ⟨[], false⟩
      | some t =>
        let t := if p.CustomExecute.isSome then { t with CustomExecute := p.CustomExecute } else t
        if p.In.len == 0 && p.ParamPorts.len == 0 then some ⟨[t], true⟩
        else
          (createTasksLoop p fuel ri.2.2 rp.2.2).map (fun r => ⟨t :: r.tasks, r.closed⟩)

/-- The channels of the input ports of a process. -/
def inChans (p : SciProcess) : List (Str × List FileTarget) :=
  p.In.entries.map (fun e => (e.1, e.2.Chan))

/-- The channels of the parameter ports of a process. -/
def paramChans (p : SciProcess) : List (Str × List Str) :=
  p.ParamPorts.entries.map (fun e => (e.1, e.2.Chan))

/-- The number of values that are pending on a list of channels. -/
def pendingValues {V : Type} (chans : List (Str × List V)) : Nat :=
  (chans.map (fun e => e.2.length)).sum

/-- Go `(*SciProcess).createTasks`: what the goroutine does that feeds the
returned channel.  The loop is given one iteration for every pending value
and one more. -/
def createTasks (p : SciProcess) : Option TaskStream :=
  createTasksLoop p (pendingValues (inChans p) + pendingValues (paramChans p) + 1)
    (inChans p) (paramChans p)

/-- The task that one iteration of the loop of `createTasks` builds from the
channels as they are at the start of the iteration, `none` when the
instantiation fails. -/
def taskOf (p : SciProcess) (ins : List (Str × List FileTarget))
    (prms : List (Str × List Str)) : Option SciTask :=
  match NewSciTask p.Name p.CommandPattern (receiveInputs ins).1 p.PathFormatters
      p.OutPortsDoStream (receiveParams prms).1 p.Prepend with
  | none => none
  | some t => some (if p.CustomExecute.isSome then { t with CustomExecute := p.CustomExecute } else t)

/-- Whether every channel of the list still has a value to deliver. -/
def allOpen {V : Type} (chans : List (Str × List V)) : Bool :=
  chans.all (fun e => !e.2.isEmpty)

/-- The channels after one value has been taken from each of them. -/
def afterReceive {V : Type} (chans : List (Str × List V)) : List (Str × List V) :=
  chans.map (fun e => (e.1, e.2.tail))

/-- The number of values on the shortest channel of the list. -/
def minPending {V : Type} : List (Str × List V) → Nat
  | [] => 0
  | [e] => e.2.length
  | e :: rest => min e.2.length (minPending rest)

/-- The channels after `k` values have been taken from each of them. -/
def afterReceives {V : Type} (k : Nat) (chans : List (Str × List V)) : List (Str × List V) :=
  chans.map (fun e => (e.1, e.2.drop k))

/-- A process with the input port `a`, on which the targets `x` and `y` are
delivered, and the parameter port `p`, on which the string `v` is delivered;
its command has no placeholder and it has no path formatter. -/
def unevenProcess : SciProcess :=
  { NewSciProcess "uneven".toList "echo".toList with
    In := GoMap.empty.set "a".toList ⟨true, [⟨"x".toList, false⟩, ⟨"y".toList, false⟩]⟩
    ParamPorts := GoMap.empty.set "p".toList ⟨true, ["v".toList]⟩ }

/-- The process `echo {i:in} > {o:out}`, for whose output port no path
formatter is set, and whose input port delivers the target `a`. -/
def unformattedProcess : SciProcess :=
  let p := NewFromShell "fc".toList "echo {i:in} > {o:out}".toList
  { p with In := p.In.set "in".toList ⟨true, [⟨"a".toList, false⟩]⟩ }

/-- The process `paste {i:left} {i:right} -d {p:sep} > {o:out}` with a static
path for `out`: each of its two input ports and its parameter port delivers
two values. -/
def zipProcess : SciProcess :=
  let p := SetPathStatic
    (NewFromShell "zip".toList "paste {i:left} {i:right} -d {p:sep} > {o:out}".toList)
    "out".toList "o.txt".toList
  { p with
    In := (p.In.set "left".toList ⟨true, [⟨"l1".toList, false⟩, ⟨"l2".toList, false⟩]⟩).set
      "right".toList ⟨true, [⟨"r1".toList, false⟩, ⟨"r2".toList, false⟩]⟩
    ParamPorts := p.ParamPorts.set "sep".toList ⟨true, [",".toList, ";".toList]⟩ }

/-- The process `cat {i:in} {p:v} > {o:out}` after
`SetPathExtend("in", "out", ".x")`: its input port delivers the target `a`,
its parameter port the strings `1` and `2`. -/
def extendProcess : SciProcess :=
  let p := SetPathExtend (NewFromShell "cat".toList "cat {i:in} {p:v} > {o:out}".toList)
    "in".toList "out".toList ".x".toList
  { p with
    In := p.In.set "in".toList ⟨true, [⟨"a".toList, false⟩]⟩
    ParamPorts := p.ParamPorts.set "v".toList ⟨true, ["1".toList, "2".toList]⟩ }

/-! ## The run loop -/

/-- What `Run` does that can be observed from outside.  An action names the
task it is done for by the number of the task in the order of creation. -/
inductive Action where
  | createFifos (task : Nat)
  | send (task : Nat) (port : Str) (tgt : FileTarget)
  | goExecute (task : Nat)
  | goSendDone (task : Nat)
  | receiveDone (task : Nat)
  | closePort (port : Str)
  deriving DecidableEq, Repr

/-- How far `Run` is: still running, returned, or stopped by the panic of a
send on a port that `Out` does not have. -/
inductive Status where
  | running
  | returned
  | panicked
  deriving DecidableEq, Repr

/-- The state of one call of `Run`: the tasks that `createTasks` has not
handed over yet, the collected `tasks`, the tasks whose worker has sent its
completion signal (`fired`), the tasks on whose `Done` channel a signal has
been sent (`done`), the number of completion signals received, and the
actions so far. -/
structure RunState where
  pending : List SciTask
  tasks : List SciTask
  fired : List Nat
  done : List Nat
  received : Nat
  actions : List Action
  status : Status

/-- The loop `for oname, otgt := range t.OutTargets` of `Run`, which sends the
targets whose `doStream` flag is `streaming` on the output ports of their
names: the actions, and whether the loop ran to its end (a port that `Out`
does not have is a nil pointer, and the send on it panics).  The targets are
visited in the order of the entries; a task has at most one target for a
port, so the order does not change what is sent on any one port. -/
def sendTargets (out : GoMap FilePort) (streaming : Bool) (task : Nat) :
    List (Str × FileTarget) → List Action × Bool
  | [] => ([], true)
  | (oname, otgt) :: rest =>
    if otgt.doStream = streaming then
      match out.get oname with
      | some _ =>
        let r := sendTargets out streaming task rest
        (Action.send task oname otgt :: r.1, r.2)
      | none => ([], false)
    else sendTargets out streaming task rest

/-- Go `(*SciProcess).closeOutPorts`. -/
def closeOutPorts (p : SciProcess) : List Action :=
  p.Out.entries.map (fun e => Action.closePort e.1)

/-- The task on whose `Done` channel the worker that `Run` launched for the
task `i` sends its completion signal, when `n` tasks have been collected.
`go t.Execute()` binds the task of its iteration, and `Execute` (which is not
in the source files) fires the signal of its task, as the specification says.
The goroutine of the FIFO branch,
`go func() { defer close(t.Done); t.Done <- 1 }()`, reads the variable `t` of
the first loop when it runs, and there is one such variable for the whole
loop: it holds the task that was collected last.  So the signal is sent on
the channel of the task `i` itself only when the goroutine runs before the
next task is collected. -/
def doneChannel (anyFifosExist : Nat → Bool) (n i : Nat) : Nat :=
  if anyFifosExist i then n - 1 else i

/-- What happens while `Run` is running. -/
inductive Event where
  /-- The first loop receives the next task from `createTasks`. -/
  | task
  /-- The worker launched for a collected task sends its completion signal. -/
  | finish (i : Nat)
  /-- The second loop receives the completion signal of its next task. -/
  | await
  /-- The second loop is over and `Run` returns. -/
  | ret
  deriving DecidableEq, Repr

/-- One step of `Run`.  `anyFifosExist i` is the answer of
`t.anyFifosExist()` for the task number `i`.  The deferred `closeOutPorts`
runs when `Run` returns and when it panics.  A send on an output port that
`Out` has is taken to complete: the port is connected, and what is sent on it
is received.  The second loop receives the signal of its next task when one
has been sent on the `Done` channel of that task.  An event that cannot
happen in the state gives `none`; a state in which `Run` is running and only
`none` is left is one in which `Run` is blocked for good. -/
def step (p : SciProcess) (anyFifosExist : Nat → Bool) (s : RunState) :
    Event → Option RunState
  | Event.task =>
    match s.status, s.pending with
    | Status.running, t :: rest =>
      let i := s.tasks.length
      let fifos := if anyFifosExist i then [] else [Action.createFifos i]
      let sent := sendTargets p.Out true i t.OutTargets.entries
      if sent.2 then
        let launch := if anyFifosExist i then Action.goSendDone i else Action.goExecute i
        some { s with
          pending := rest
          tasks := s.tasks ++ [t]
          actions := s.actions ++ fifos ++ sent.1 ++ [launch] }
      else
        some { s with
          pending := rest
          tasks := s.tasks ++ [t]
          actions := s.actions ++ fifos ++ sent.1 ++ closeOutPorts p
          status := Status.panicked }
    | _, _ => none
  | Event.finish i =>
    if s.status = Status.running ∧ i < s.tasks.length ∧ i ∉ s.fired then
      some { s with
        fired := i :: s.fired
        done := doneChannel anyFifosExist s.tasks.length i :: s.done }
    else none
  | Event.await =>
    match s.status, s.pending, s.tasks.drop s.received with
    | Status.running, [], t :: _ =>
      if s.received ∈ s.done then
        let sent := sendTargets p.Out false s.received t.OutTargets.entries
        if sent.2 then
          some { s with
            received := s.received + 1
            actions := s.actions ++ [Action.receiveDone s.received] ++ sent.1 }
        else
          some { s with
            received := s.received + 1
            actions := s.actions ++ [Action.receiveDone s.received] ++ sent.1
              ++ closeOutPorts p
            status := Status.panicked }
      else none
    | _, _, _ => none
  | Event.ret =>
    match s.status, s.pending, s.tasks.drop s.received with
    | Status.running, [], [] =>
      some { s with actions := s.actions ++ closeOutPorts p, status := Status.returned }
    | _, _, _ => none

/-- A sequence of steps of `Run`. -/
def exec (p : SciProcess) (anyFifosExist : Nat → Bool) : RunState → List Event → Option RunState
  | s, [] => some s
  | s, e :: es =>
    match step p anyFifosExist s e with
    | some s1 => exec p anyFifosExist s1 es
    | none => none

/-- The state in which `Run` starts, with the tasks that `createTasks` will
hand over. -/
def startRun (ts : List SciTask) : RunState :=
  ⟨ts, [], [], [], 0, [], Status.running⟩

/-- The targets sent on the output port `x`, in the order of the sends. -/
def sentOn (x : Str) (actions : List Action) : List FileTarget :=
  actions.filterMap (fun a =>
    match a with
    | Action.send _ port tgt => if port = x then some tgt else none
    | _ => none)

/-- The targets of the tasks for the output port `x`, in the order of the
tasks. -/
def targetsFor (x : Str) (ts : List SciTask) : List FileTarget :=
  ts.filterMap (fun t => t.OutTargets.get x)

/-- The targets that the loop over `t.OutTargets` sends on the port `x`
when it sends the targets whose `doStream` flag is `streaming`. -/
def sendsOf (streaming : Bool) (x : Str) (t : SciTask) : List FileTarget :=
  match t.OutTargets.get x with
  | some tg => if tg.doStream = streaming then [tg] else []
  | none => []

/-- What holds in every state that `Run` reaches from `startRun ts` when no
send panics: the collected and the pending tasks are the tasks of
`createTasks`, the second loop starts after the first, and the targets sent
on a port are those of the first loop for the collected tasks followed by
those of the second loop for the tasks whose completion was received. -/
structure RunInv (ts : List SciTask) (s : RunState) : Prop where
  split : s.tasks ++ s.pending = ts
  recv_le : s.received ≤ s.tasks.length
  recv_pos : 0 < s.received → s.pending = []
  not_panicked : s.status ≠ Status.panicked
  returned : s.status = Status.returned → s.pending = [] ∧ s.received = s.tasks.length
  sends : ∀ x, sentOn x s.actions =
    (s.tasks.map (sendsOf true x)).flatten ++
      ((s.tasks.take s.received).map (sendsOf false x)).flatten

/-- The shape of a match of the placeholder pattern: an opening brace, the
kind, a colon, the NAME and a closing brace. -/
structure Submatch.WellFormed (m : Submatch) : Prop where
  kind : m.typ = ['o'] ∨ m.typ = ['o', 's'] ∨ m.typ = ['i'] ∨ m.typ = ['p']
  nameChars : ∀ c ∈ m.name, isNameChar c = true
  nameStart : ∃ c cs, m.name = c :: cs ∧ isNameStart c = true
  whole_eq : m.whole = '{' :: (m.typ ++ ':' :: (m.name ++ ['}']))

/-- The text of a piece of a command template. -/
def Piece.text : Piece → Str
  | Piece.lit c => [c]
  | Piece.ph m => m.whole

/-- The text of a piece while `expandCommandParamsAndPaths` is at work: a
placeholder that has been handled and has a value is replaced by it, every
other piece is as it was. -/
def renderPiece (params inPaths outPaths : Option (GoMap Str)) (handled : List Submatch) :
    Piece → Str
  | Piece.lit c => [c]
  | Piece.ph m =>
    if m ∈ handled then
      match binding params inPaths outPaths m with
      | some val => val
      | none => m.whole
    else m.whole

/-- The text of a list of pieces while `expandCommandParamsAndPaths` is at
work. -/
def render (params inPaths outPaths : Option (GoMap Str)) (handled : List Submatch)
    (l : List Piece) : Str :=
  (l.map (renderPiece params inPaths outPaths handled)).flatten

/-- The text of the placeholder of kind `typ` for the name `name`. -/
def placeholderText (typ name : Str) : Str := '{' :: (typ ++ ':' :: (name ++ ['}']))

/-- A NAME: a letter or an underscore followed by letters, digits and
underscores. -/
def IsName (name : Str) : Prop :=
  (∃ c cs, name = c :: cs ∧ isNameStart c = true) ∧ ∀ c ∈ name, isNameChar c = true

/-- The template `cmd` contains the placeholder of kind `typ` for the NAME
`name`: its text occurs in `cmd`. -/
def Declares (cmd typ name : Str) : Prop :=
  IsName name ∧ ∃ pre post, cmd = pre ++ placeholderText typ name ++ post

/-- The number of iterations of the loop of `createTasks` that come to the
instantiation of a task when no instantiation fails, from the channels as
they are: one when there are no channels, the number of values on the
shortest channel when there are channels of one kind only, and the larger of
the two numbers when there are channels of both kinds. -/
def taskCount (ins : List (Str × List FileTarget)) (prms : List (Str × List Str)) : Nat :=
  match ins, prms with
  | [], [] => 1
  | [], _ :: _ => minPending prms
  | _ :: _, [] => minPending ins
  | _ :: _, _ :: _ => max (minPending ins) (minPending prms)

/-- Every occurrence of the action `b` in the trace `l` has an occurrence of
the action `a` before it. -/
def Before (a b : Action) (l : List Action) : Prop :=
  ∀ pre post, l = pre ++ b :: post → a ∈ pre

/-- The order of the actions of `Run` for every task: a streaming target of
a task is sent before the task is launched (by `go t.Execute()` or by the
goroutine that sends the completion signal), the FIFOs of a task for which
none existed are created before any of its streaming targets is sent, and the
completion signal of a task is received before any of its non-streaming
targets is sent. -/
structure RunOrder (anyFifosExist : Nat → Bool) (ts : List SciTask) (l : List Action) :
    Prop where
  streamFirst : ∀ i t x tg, ts[i]? = some t → (x, tg) ∈ t.OutTargets.entries →
    tg.doStream = true →
    Before (Action.send i x tg) (Action.goExecute i) l ∧
      Before (Action.send i x tg) (Action.goSendDone i) l
  fifosFirst : ∀ i x tg, tg.doStream = true → anyFifosExist i = false →
    Before (Action.createFifos i) (Action.send i x tg) l
  doneFirst : ∀ i x tg, tg.doStream = false →
    Before (Action.receiveDone i) (Action.send i x tg) l

/-- A process with the streaming output port `lsl`, as in the test
`TestStreaming`, with a static path for it; the port is connected. -/
def streamProcess : SciProcess :=
  let p := SetPathStatic (NewFromShell "ls".toList "ls -l / > {os:lsl}".toList)
    "lsl".toList "/tmp/lsl.txt".toList
  { p with Out := p.Out.set "lsl".toList ⟨true, []⟩ }

/-- What holds of the completion signals in every state of `Run`: a worker
sends its signal at most once, only the worker of a collected task does, and
no more signals have been received than tasks were collected. -/
structure RunBound (s : RunState) : Prop where
  fired_nodup : s.fired.Nodup
  fired_lt : ∀ i ∈ s.fired, i < s.tasks.length
  recv_le : s.received ≤ s.tasks.length

/-- What holds of the completion signals in every state of `Run` when every
worker sends its signal on the channel of its own task: the signals sent are
on the channels of the tasks whose workers have sent them. -/
structure RunSignals (s : RunState) : Prop where
  own : ∀ i ∈ s.fired, i ∈ s.done

/-- A bound on the number of steps that `Run` can still take. -/
def stepsLeft (s : RunState) : Nat :=
  s.pending.length + (s.tasks.length + s.pending.length - s.fired.length)
    + (s.tasks.length + s.pending.length - s.received)
    + (if s.status = Status.running then 1 else 0)

/-- What holds of the closing of the ports in every state of `Run`: no port
is closed while `Run` is running, and when it has ended its actions end with
those of `closeOutPorts`, the only ones that close a port. -/
structure RunClose (p : SciProcess) (s : RunState) : Prop where
  running : s.status = Status.running → ∀ x, Action.closePort x ∉ s.actions
  ended : s.status ≠ Status.running →
    ∃ body, s.actions = body ++ closeOutPorts p ∧ ∀ x, Action.closePort x ∉ body

/-! ## Facts about maps -/

theorem mem_map_fst_setEntry {V : Type} (k : Str) (v : V) (l : List (Str × V)) (x : Str) :
    x ∈ (setEntry k v l).map Prod.fst ↔ x = k ∨ x ∈ l.map Prod.fst := by
  induction l with
  | nil => simp [setEntry]
  | cons e rest ih =>
    unfold setEntry
    by_cases h : e.1 = k
    · simp only [h, if_true, List.map_cons, List.mem_cons]
      tauto
    · simp only [h, if_false, List.map_cons, List.mem_cons, ih]
      tauto

theorem lookup_cons_eq {V : Type} (a : Str) (b : V) (l : List (Str × V)) :
    ((a, b) :: l).lookup a = some b := by
  simp [List.lookup]

theorem lookup_cons_ne {V : Type} (a x : Str) (b : V) (l : List (Str × V)) (h : x ≠ a) :
    ((a, b) :: l).lookup x = l.lookup x := by
  have h2 : (x == a) = false := by simpa using h
  simp [List.lookup, h2]

theorem lookup_setEntry_self {V : Type} (k : Str) (v : V) (l : List (Str × V)) :
    (setEntry k v l).lookup k = some v := by
  induction l with
  | nil => exact lookup_cons_eq k v []
  | cons e rest ih =>
    rcases e with ⟨a, b⟩
    unfold setEntry
    by_cases h : a = k
    · simp only [h, if_true]
      exact lookup_cons_eq k v rest
    · simp only [h, if_false]
      rw [lookup_cons_ne a k b _ (fun hh => h hh.symm)]
      exact ih

theorem lookup_setEntry_ne {V : Type} (k : Str) (v : V) (l : List (Str × V)) (x : Str)
    (hx : x ≠ k) : (setEntry k v l).lookup x = l.lookup x := by
  induction l with
  | nil =>
    unfold setEntry
    rw [lookup_cons_ne k x v [] hx]
  | cons e rest ih =>
    rcases e with ⟨a, b⟩
    unfold setEntry
    by_cases h : a = k
    · simp only [h, if_true]
      rw [lookup_cons_ne k x v rest hx, lookup_cons_ne k x b rest hx]
    · simp only [h, if_false]
      by_cases hxa : x = a
      · rw [hxa, lookup_cons_eq, lookup_cons_eq]
      · rw [lookup_cons_ne a x b _ hxa, lookup_cons_ne a x b _ hxa, ih]

theorem lookup_isSome_iff {V : Type} (l : List (Str × V)) (x : Str) :
    (l.lookup x).isSome = true ↔ x ∈ l.map Prod.fst := by
  induction l with
  | nil => simp [List.lookup]
  | cons e rest ih =>
    rcases e with ⟨a, b⟩
    by_cases h : x = a
    · rw [h, lookup_cons_eq]
      simp only [Option.isSome_some, List.map_cons, List.mem_cons, true_or]
    · rw [lookup_cons_ne a x b rest h, ih]
      simp only [List.map_cons, List.mem_cons, h, false_or]

theorem GoMap.mem_keys_set {V : Type} (m : GoMap V) (k : Str) (v : V) (x : Str) :
    x ∈ (m.set k v).keys ↔ x = k ∨ x ∈ m.keys :=
  mem_map_fst_setEntry k v m.entries x

theorem GoMap.get_set_self {V : Type} (m : GoMap V) (k : Str) (v : V) :
    (m.set k v).get k = some v :=
  lookup_setEntry_self k v m.entries

theorem GoMap.get_set_ne {V : Type} (m : GoMap V) (k : Str) (v : V) (x : Str) (hx : x ≠ k) :
    (m.set k v).get x = m.get x :=
  lookup_setEntry_ne k v m.entries x hx

theorem GoMap.get_isSome_iff {V : Type} (m : GoMap V) (x : Str) :
    (m.get x).isSome = true ↔ x ∈ m.keys :=
  lookup_isSome_iff m.entries x

theorem GoMap.get_eq_none_iff {V : Type} (m : GoMap V) (x : Str) :
    m.get x = none ↔ x ∉ m.keys := by
  rw [← GoMap.get_isSome_iff]
  cases m.get x <;> simp

theorem GoMap.keys_nodup {V : Type} (m : GoMap V) : m.keys.Nodup := m.nodup

theorem lookup_of_mem {V : Type} (l : List (Str × V)) (hnd : (l.map Prod.fst).Nodup)
    (x : Str) (v : V) (he : (x, v) ∈ l) : l.lookup x = some v := by
  induction l with
  | nil => simp at he
  | cons a rest ih =>
    rcases a with ⟨a, b⟩
    rw [List.map_cons, List.nodup_cons] at hnd
    rcases List.mem_cons.1 he with h | h
    · cases h
      exact lookup_cons_eq _ _ _
    · have hne : x ≠ a := by
        intro hh
        refine hnd.1 ?_
        rw [← hh]
        exact List.mem_map.2 ⟨(x, v), h, rfl⟩
      rw [lookup_cons_ne a x b rest hne]
      exact ih hnd.2 h

theorem mem_of_lookup {V : Type} (l : List (Str × V)) (x : Str) (v : V)
    (h : l.lookup x = some v) : (x, v) ∈ l := by
  induction l with
  | nil => simp [List.lookup] at h
  | cons a rest ih =>
    rcases a with ⟨a, b⟩
    by_cases hx : x = a
    · rw [hx, lookup_cons_eq] at h
      cases h
      rw [hx]
      exact List.mem_cons_self _ _
    · rw [lookup_cons_ne a x b rest hx] at h
      exact List.mem_cons_of_mem _ (ih h)

theorem GoMap.get_of_mem {V : Type} (m : GoMap V) (x : Str) (v : V) (he : (x, v) ∈ m.entries) :
    m.get x = some v :=
  lookup_of_mem m.entries m.nodup x v he

theorem GoMap.mem_of_get {V : Type} (m : GoMap V) (x : Str) (v : V) (h : m.get x = some v) :
    (x, v) ∈ m.entries :=
  mem_of_lookup m.entries x v h

/-! ## The connectivity check -/

theorem foldl_clear_flag {P : Type} (f : P → Bool) (l : List (Str × P)) (init : Bool) :
    l.foldl (fun isConnected e => if !f e.2 then false else isConnected) init
      = (init && l.all (fun e => f e.2)) := by
  induction l generalizing init with
  | nil => simp
  | cons e rest ih =>
    rw [List.foldl_cons, ih]
    cases init <;> cases h : f e.2 <;> simp [h]

/-- C8: `IsConnected` returns true exactly when every port of `In`, every
port of `Out` and every port of `ParamPorts` reports itself connected; one
port of any of the three kinds that is not connected makes it false, and a
process without ports is connected. -/
theorem isConnected_iff_all_ports_connected (proc : SciProcess) :
    (proc.IsConnected = true ↔
      (∀ e ∈ proc.In.entries, e.2.IsConnected = true) ∧
      (∀ e ∈ proc.Out.entries, e.2.IsConnected = true) ∧
      (∀ e ∈ proc.ParamPorts.entries, e.2.IsConnected = true)) ∧
    ((∃ e ∈ proc.In.entries, e.2.IsConnected = false) → proc.IsConnected = false) ∧
    ((∃ e ∈ proc.Out.entries, e.2.IsConnected = false) → proc.IsConnected = false) ∧
    ((∃ e ∈ proc.ParamPorts.entries, e.2.IsConnected = false) → proc.IsConnected = false) ∧
    (proc.In.entries = [] → proc.Out.entries = [] → proc.ParamPorts.entries = [] →
      proc.IsConnected = true) := by
  have key : proc.IsConnected = true ↔
      (∀ e ∈ proc.In.entries, e.2.IsConnected = true) ∧
      (∀ e ∈ proc.Out.entries, e.2.IsConnected = true) ∧
      (∀ e ∈ proc.ParamPorts.entries, e.2.IsConnected = true) := by
    unfold SciProcess.IsConnected
    simp only [foldl_clear_flag, Bool.true_and, Bool.and_eq_true, List.all_eq_true]
    tauto
  refine ⟨key, ?_, ?_, ?_, ?_⟩
  · rintro ⟨e, he, hf⟩
    cases hc : proc.IsConnected
    · rfl
    · have := (key.1 hc).1 e he
      rw [hf] at this
      exact absurd this (by decide)
  · rintro ⟨e, he, hf⟩
    cases hc : proc.IsConnected
    · rfl
    · have := (key.1 hc).2.1 e he
      rw [hf] at this
      exact absurd this (by decide)
  · rintro ⟨e, he, hf⟩
    cases hc : proc.IsConnected
    · rfl
    · have := (key.1 hc).2.2 e he
      rw [hf] at this
      exact absurd this (by decide)
  · intro h1 h2 h3
    rw [key, h1, h2, h3]
    simp

/-! ## Ports from the command pattern -/

theorem initPortsStep_out (params : Option (GoMap Str)) (p : SciProcess) (m : Submatch)
    (h1 : m.typ = ['o'] ∨ m.typ = ['o', 's']) :
    (initPortsStep params p m).In = p.In ∧
    (initPortsStep params p m).Out = p.Out.set m.name NewFilePort ∧
    (initPortsStep params p m).ParamPorts = p.ParamPorts := by
  by_cases h2 : m.typ = ['o', 's']
  · simp only [initPortsStep, if_pos h1, if_pos h2, and_self]
  · simp only [initPortsStep, if_pos h1, if_neg h2, and_self]

theorem initPortsStep_in (params : Option (GoMap Str)) (p : SciProcess) (m : Submatch)
    (h2 : m.typ = ['i']) :
    (initPortsStep params p m).In = p.In.set m.name NewFilePort ∧
    (initPortsStep params p m).Out = p.Out ∧
    (initPortsStep params p m).ParamPorts = p.ParamPorts := by
  have h1 : ¬ (m.typ = ['o'] ∨ m.typ = ['o', 's']) := by rw [h2]; decide
  simp only [initPortsStep, if_neg h1, if_pos h2, and_self]

theorem initPortsStep_param (params : Option (GoMap Str)) (p : SciProcess) (m : Submatch)
    (h3 : m.typ = ['p']) :
    (initPortsStep params p m).In = p.In ∧
    (initPortsStep params p m).Out = p.Out ∧
    (initPortsStep params p m).ParamPorts =
      if params.isNone = true ∨ indexNil params m.name = []
      then p.ParamPorts.set m.name NewParamPort else p.ParamPorts := by
  have h1 : ¬ (m.typ = ['o'] ∨ m.typ = ['o', 's']) := by rw [h3]; decide
  have h2 : ¬ m.typ = ['i'] := by rw [h3]; decide
  by_cases h4 : params.isNone = true ∨ indexNil params m.name = []
  · simp only [initPortsStep, if_neg h1, if_neg h2, if_pos h3, if_pos h4, and_self]
  · simp only [initPortsStep, if_neg h1, if_neg h2, if_pos h3, if_neg h4, and_self]

theorem initPortsStep_other (params : Option (GoMap Str)) (p : SciProcess) (m : Submatch)
    (h1 : ¬ (m.typ = ['o'] ∨ m.typ = ['o', 's'])) (h2 : ¬ m.typ = ['i'])
    (h3 : ¬ m.typ = ['p']) : initPortsStep params p m = p := by
  simp only [initPortsStep, if_neg h1, if_neg h2, if_neg h3]

theorem initPortsStep_In (params : Option (GoMap Str)) (p : SciProcess) (m : Submatch)
    (x : Str) :
    x ∈ (initPortsStep params p m).In.keys ↔ x ∈ p.In.keys ∨ (m.typ = ['i'] ∧ m.name = x) := by
  by_cases h1 : m.typ = ['o'] ∨ m.typ = ['o', 's']
  · have hi : m.typ ≠ ['i'] := by
      rcases h1 with h | h <;> rw [h] <;> decide
    rw [(initPortsStep_out params p m h1).1]
    simp [hi]
  · by_cases h2 : m.typ = ['i']
    · rw [(initPortsStep_in params p m h2).1, GoMap.mem_keys_set]
      constructor
      · rintro (h | h)
        · exact Or.inr ⟨h2, h.symm⟩
        · exact Or.inl h
      · rintro (h | h)
        · exact Or.inr h
        · exact Or.inl h.2.symm
    · by_cases h3 : m.typ = ['p']
      · rw [(initPortsStep_param params p m h3).1]
        simp [h2]
      · rw [initPortsStep_other params p m h1 h2 h3]
        simp [h2]

theorem initPortsStep_Out (params : Option (GoMap Str)) (p : SciProcess) (m : Submatch)
    (x : Str) :
    x ∈ (initPortsStep params p m).Out.keys ↔
      x ∈ p.Out.keys ∨ ((m.typ = ['o'] ∨ m.typ = ['o', 's']) ∧ m.name = x) := by
  by_cases h1 : m.typ = ['o'] ∨ m.typ = ['o', 's']
  · rw [(initPortsStep_out params p m h1).2.1, GoMap.mem_keys_set]
    constructor
    · rintro (h | h)
      · exact Or.inr ⟨h1, h.symm⟩
      · exact Or.inl h
    · rintro (h | h)
      · exact Or.inr h
      · exact Or.inl h.2.symm
  · by_cases h2 : m.typ = ['i']
    · rw [(initPortsStep_in params p m h2).2.1]
      simp [h1]
    · by_cases h3 : m.typ = ['p']
      · rw [(initPortsStep_param params p m h3).2.1]
        simp [h1]
      · rw [initPortsStep_other params p m h1 h2 h3]
        simp [h1]

theorem initPortsStep_ParamPorts (params : Option (GoMap Str)) (p : SciProcess) (m : Submatch)
    (x : Str) :
    x ∈ (initPortsStep params p m).ParamPorts.keys ↔
      x ∈ p.ParamPorts.keys ∨
        (m.typ = ['p'] ∧ m.name = x ∧ (params.isNone = true ∨ indexNil params m.name = [])) := by
  by_cases h1 : m.typ = ['o'] ∨ m.typ = ['o', 's']
  · have hp : m.typ ≠ ['p'] := by
      rcases h1 with h | h <;> rw [h] <;> decide
    rw [(initPortsStep_out params p m h1).2.2]
    simp [hp]
  · by_cases h2 : m.typ = ['i']
    · have hp : m.typ ≠ ['p'] := by rw [h2]; decide
      rw [(initPortsStep_in params p m h2).2.2]
      simp [hp]
    · by_cases h3 : m.typ = ['p']
      · rw [(initPortsStep_param params p m h3).2.2]
        by_cases h4 : params.isNone = true ∨ indexNil params m.name = []
        · rw [if_pos h4, GoMap.mem_keys_set]
          constructor
          · rintro (h | h)
            · exact Or.inr ⟨h3, h.symm, h4⟩
            · exact Or.inl h
          · rintro (h | h)
            · exact Or.inr h
            · exact Or.inl h.2.1.symm
        · rw [if_neg h4]
          constructor
          · intro h; exact Or.inl h
          · rintro (h | h)
            · exact h
            · exact absurd h.2.2 h4
      · rw [initPortsStep_other params p m h1 h2 h3]
        simp [h3]

theorem or_exists_mem_cons {α : Type} (A : Prop) (Q : α → Prop) (m : α) (rest : List α) :
    ((A ∨ Q m) ∨ ∃ y ∈ rest, Q y) ↔ (A ∨ ∃ y ∈ m :: rest, Q y) := by
  constructor
  · rintro ((h | h) | ⟨y, hy, hq⟩)
    · exact Or.inl h
    · exact Or.inr ⟨m, List.mem_cons_self _ _, h⟩
    · exact Or.inr ⟨y, List.mem_cons_of_mem _ hy, hq⟩
  · rintro (h | ⟨y, hy, hq⟩)
    · exact Or.inl (Or.inl h)
    · rcases List.mem_cons.1 hy with h | h
      · exact Or.inl (Or.inr (h ▸ hq))
      · exact Or.inr ⟨y, h, hq⟩

theorem initPorts_foldl_In (params : Option (GoMap Str)) (ms : List Submatch) (p : SciProcess)
    (x : Str) :
    x ∈ (ms.foldl (initPortsStep params) p).In.keys ↔
      x ∈ p.In.keys ∨ ∃ m ∈ ms, m.typ = ['i'] ∧ m.name = x := by
  induction ms generalizing p with
  | nil => simp
  | cons m rest ih =>
    rw [List.foldl_cons, ih, initPortsStep_In]
    exact or_exists_mem_cons _ (fun m => m.typ = ['i'] ∧ m.name = x) m rest

theorem initPorts_foldl_Out (params : Option (GoMap Str)) (ms : List Submatch) (p : SciProcess)
    (x : Str) :
    x ∈ (ms.foldl (initPortsStep params) p).Out.keys ↔
      x ∈ p.Out.keys ∨ ∃ m ∈ ms, (m.typ = ['o'] ∨ m.typ = ['o', 's']) ∧ m.name = x := by
  induction ms generalizing p with
  | nil => simp
  | cons m rest ih =>
    rw [List.foldl_cons, ih, initPortsStep_Out]
    exact or_exists_mem_cons _ (fun m => (m.typ = ['o'] ∨ m.typ = ['o', 's']) ∧ m.name = x)
      m rest

theorem initPorts_foldl_ParamPorts (params : Option (GoMap Str)) (ms : List Submatch)
    (p : SciProcess) (x : Str) :
    x ∈ (ms.foldl (initPortsStep params) p).ParamPorts.keys ↔
      x ∈ p.ParamPorts.keys ∨ ∃ m ∈ ms, m.typ = ['p'] ∧ m.name = x ∧
        (params.isNone = true ∨ indexNil params m.name = []) := by
  induction ms generalizing p with
  | nil => simp
  | cons m rest ih =>
    rw [List.foldl_cons, ih, initPortsStep_ParamPorts]
    exact or_exists_mem_cons _ (fun m => m.typ = ['p'] ∧ m.name = x ∧
      (params.isNone = true ∨ indexNil params m.name = [])) m rest

theorem keys_empty {V : Type} : (GoMap.empty : GoMap V).keys = [] := rfl

theorem newFromShell_keys_matches (name cmd : Str) :
    (∀ x, x ∈ (NewFromShell name cmd).In.keys ↔
      ∃ m ∈ FindAllStringSubmatch cmd, m.typ = ['i'] ∧ m.name = x) ∧
    (∀ x, x ∈ (NewFromShell name cmd).Out.keys ↔
      ∃ m ∈ FindAllStringSubmatch cmd, (m.typ = ['o'] ∨ m.typ = ['o', 's']) ∧ m.name = x) ∧
    (∀ x, x ∈ (NewFromShell name cmd).ParamPorts.keys ↔
      ∃ m ∈ FindAllStringSubmatch cmd, m.typ = ['p'] ∧ m.name = x) ∧
    (NewFromShell name cmd).In.keys.Nodup ∧
    (NewFromShell name cmd).Out.keys.Nodup ∧
    (NewFromShell name cmd).ParamPorts.keys.Nodup ∧
    (FindAllStringSubmatch cmd = [] →
      (NewFromShell name cmd).In.keys = [] ∧ (NewFromShell name cmd).Out.keys = [] ∧
      (NewFromShell name cmd).ParamPorts.keys = []) := by
  refine ⟨?_, ?_, ?_, GoMap.keys_nodup _, GoMap.keys_nodup _, GoMap.keys_nodup _, ?_⟩
  · intro x
    unfold NewFromShell initPortsFromCmdPattern
    rw [initPorts_foldl_In]
    simp [NewSciProcess, keys_empty]
  · intro x
    unfold NewFromShell initPortsFromCmdPattern
    rw [initPorts_foldl_Out]
    simp [NewSciProcess, keys_empty]
  · intro x
    unfold NewFromShell initPortsFromCmdPattern
    rw [initPorts_foldl_ParamPorts]
    simp [NewSciProcess, keys_empty]
  · intro h
    unfold NewFromShell initPortsFromCmdPattern
    rw [h]
    exact ⟨rfl, rfl, rfl⟩

/-! ## Receiving on the ports -/

theorem receiveAll_flag {V : Type} (l : List (Str × List V)) (acc : GoMap V) (o : Bool) :
    (receiveAll l acc o).2.1 = (o && allOpen l) := by
  induction l generalizing acc o with
  | nil => simp [receiveAll, allOpen]
  | cons e rest ih =>
    rcases e with ⟨name, ch⟩
    cases ch with
    | nil =>
      simp only [receiveAll, ih]
      simp [allOpen]
    | cons x xs =>
      simp only [receiveAll, ih]
      simp [allOpen]

theorem receiveAll_rest {V : Type} (l : List (Str × List V)) (acc : GoMap V) (o : Bool) :
    (receiveAll l acc o).2.2 = afterReceive l := by
  induction l generalizing acc o with
  | nil => simp [receiveAll, afterReceive]
  | cons e rest ih =>
    rcases e with ⟨name, ch⟩
    cases ch with
    | nil =>
      simp only [receiveAll, ih]
      simp [afterReceive]
    | cons x xs =>
      simp only [receiveAll, ih]
      simp [afterReceive]

theorem receiveAll_keys {V : Type} (l : List (Str × List V)) (acc : GoMap V) (o : Bool)
    (x : Str) :
    x ∈ (receiveAll l acc o).1.keys ↔ x ∈ acc.keys ∨ ∃ e ∈ l, e.1 = x ∧ e.2 ≠ [] := by
  induction l generalizing acc o with
  | nil => simp [receiveAll]
  | cons e rest ih =>
    rcases e with ⟨name, ch⟩
    cases ch with
    | nil =>
      simp only [receiveAll, ih]
      constructor
      · rintro (h | ⟨e, he, h1, h2⟩)
        · exact Or.inl h
        · exact Or.inr ⟨e, List.mem_cons_of_mem _ he, h1, h2⟩
      · rintro (h | ⟨e, he, h1, h2⟩)
        · exact Or.inl h
        · rcases List.mem_cons.1 he with h | h
          · subst h
            exact absurd rfl h2
          · exact Or.inr ⟨e, h, h1, h2⟩
    | cons v vs =>
      simp only [receiveAll, ih, GoMap.mem_keys_set]
      constructor
      · rintro ((h | h) | ⟨e, he, h1, h2⟩)
        · exact Or.inr ⟨(name, v :: vs), List.mem_cons_self _ _, h.symm, by simp⟩
        · exact Or.inl h
        · exact Or.inr ⟨e, List.mem_cons_of_mem _ he, h1, h2⟩
      · rintro (h | ⟨e, he, h1, h2⟩)
        · exact Or.inl (Or.inr h)
        · rcases List.mem_cons.1 he with h | h
          · subst h
            exact Or.inl (Or.inl h1.symm)
          · exact Or.inr ⟨e, h, h1, h2⟩

theorem receiveAll_get_not_mem {V : Type} (l : List (Str × List V)) (acc : GoMap V) (o : Bool)
    (x : Str) (hx : x ∉ l.map Prod.fst) : (receiveAll l acc o).1.get x = acc.get x := by
  induction l generalizing acc o with
  | nil => simp [receiveAll]
  | cons e rest ih =>
    rcases e with ⟨name, ch⟩
    rw [List.map_cons, List.mem_cons, not_or] at hx
    cases ch with
    | nil =>
      simp only [receiveAll]
      exact ih acc false hx.2
    | cons v vs =>
      simp only [receiveAll]
      rw [ih _ _ hx.2, GoMap.get_set_ne _ _ _ _ hx.1]

theorem receiveAll_get {V : Type} (l : List (Str × List V)) (hnd : (l.map Prod.fst).Nodup)
    (acc : GoMap V) (o : Bool) (x : Str) (v : V) (vs : List V) (hx : (x, v :: vs) ∈ l) :
    (receiveAll l acc o).1.get x = some v := by
  induction l generalizing acc o with
  | nil => simp at hx
  | cons e rest ih =>
    rcases e with ⟨name, ch⟩
    rw [List.map_cons, List.nodup_cons] at hnd
    rcases List.mem_cons.1 hx with h | h
    · cases h
      simp only [receiveAll]
      rw [receiveAll_get_not_mem _ _ _ _ hnd.1, GoMap.get_set_self]
    · cases ch with
      | nil =>
        simp only [receiveAll]
        exact ih hnd.2 acc false h
      | cons w ws =>
        simp only [receiveAll]
        exact ih hnd.2 _ _ h

theorem afterReceive_keys {V : Type} (l : List (Str × List V)) :
    (afterReceive l).map Prod.fst = l.map Prod.fst := by
  simp [afterReceive, Function.comp_def]

theorem afterReceive_length {V : Type} (l : List (Str × List V)) :
    (afterReceive l).length = l.length := by
  simp [afterReceive]

theorem pendingValues_afterReceive_le {V : Type} (l : List (Str × List V)) :
    pendingValues (afterReceive l) ≤ pendingValues l := by
  induction l with
  | nil => simp [afterReceive, pendingValues]
  | cons e rest ih =>
    simp only [afterReceive, pendingValues, List.map_cons, List.sum_cons, List.length_tail]
      at ih ⊢
    omega

theorem pendingValues_afterReceive_lt {V : Type} (l : List (Str × List V)) (hne : l ≠ [])
    (ho : allOpen l = true) : pendingValues (afterReceive l) < pendingValues l := by
  cases l with
  | nil => exact absurd rfl hne
  | cons e rest =>
    have hle := pendingValues_afterReceive_le rest
    simp only [allOpen, List.all_cons, Bool.and_eq_true, Bool.not_eq_true',
      List.isEmpty_eq_false] at ho
    have hpos : 0 < e.2.length := List.length_pos.2 ho.1
    simp only [afterReceive, pendingValues, List.map_cons, List.sum_cons, List.length_tail]
      at hle ⊢
    omega

/-! ## The loop of `createTasks` -/

theorem createTasksLoop_succ (p : SciProcess) (fuel : Nat) (ins : List (Str × List FileTarget))
    (prms : List (Str × List Str)) :
    createTasksLoop p (fuel + 1) ins prms =
      if (!allOpen ins && !allOpen prms) = true then some ⟨[], true⟩
      else if (p.In.len == 0 && !allOpen prms) = true then some ⟨[], true⟩
      else if (p.ParamPorts.len == 0 && !allOpen ins) = true then some ⟨[], true⟩
      else
        match taskOf p ins prms with
        | none => some ⟨[], false⟩
        | some t =>
          if (p.In.len == 0 && p.ParamPorts.len == 0) = true then some ⟨[t], true⟩
          else (createTasksLoop p fuel (afterReceive ins) (afterReceive prms)).map
            (fun r => ⟨t :: r.tasks, r.closed⟩) := by
  simp only [createTasksLoop, receiveInputs, receiveParams, receiveAll_flag, receiveAll_rest,
    Bool.true_and, taskOf]
  cases NewSciTask p.Name p.CommandPattern (receiveAll ins GoMap.empty true).1 p.PathFormatters
    p.OutPortsDoStream (receiveAll prms GoMap.empty true).1 p.Prepend <;> rfl

theorem createTasksLoop_cases (p : SciProcess) (fuel : Nat)
    (ins : List (Str × List FileTarget)) (prms : List (Str × List Str)) :
    createTasksLoop p (fuel + 1) ins prms = some ⟨[], true⟩ ∨
    (taskOf p ins prms = none ∧ createTasksLoop p (fuel + 1) ins prms = some ⟨[], false⟩) ∨
    (∃ t, taskOf p ins prms = some t ∧ p.In.len = 0 ∧ p.ParamPorts.len = 0 ∧
      createTasksLoop p (fuel + 1) ins prms = some ⟨[t], true⟩) ∨
    (∃ t, taskOf p ins prms = some t ∧
      ¬ (!allOpen ins && !allOpen prms) = true ∧
      ¬ (p.In.len == 0 && !allOpen prms) = true ∧
      ¬ (p.ParamPorts.len == 0 && !allOpen ins) = true ∧
      ¬ (p.In.len == 0 && p.ParamPorts.len == 0) = true ∧
      createTasksLoop p (fuel + 1) ins prms =
        (createTasksLoop p fuel (afterReceive ins) (afterReceive prms)).map
          (fun r => ⟨t :: r.tasks, r.closed⟩)) := by
  rw [createTasksLoop_succ]
  by_cases h1 : (!allOpen ins && !allOpen prms) = true
  · rw [if_pos h1]; exact Or.inl rfl
  · rw [if_neg h1]
    by_cases h2 : (p.In.len == 0 && !allOpen prms) = true
    · rw [if_pos h2]; exact Or.inl rfl
    · rw [if_neg h2]
      by_cases h3 : (p.ParamPorts.len == 0 && !allOpen ins) = true
      · rw [if_pos h3]; exact Or.inl rfl
      · rw [if_neg h3]
        cases ht : taskOf p ins prms with
        | none => exact Or.inr (Or.inl ⟨rfl, rfl⟩)
        | some t =>
          simp only []
          by_cases h4 : (p.In.len == 0 && p.ParamPorts.len == 0) = true
          · rw [if_pos h4]
            simp only [Bool.and_eq_true, beq_iff_eq] at h4
            exact Or.inr (Or.inr (Or.inl ⟨t, rfl, h4.1, h4.2, rfl⟩))
          · rw [if_neg h4]
            exact Or.inr (Or.inr (Or.inr ⟨t, rfl, h1, h2, h3, h4, rfl⟩))

theorem allOpen_nil {V : Type} : allOpen ([] : List (Str × List V)) = true := rfl

theorem createTasks_progress (p : SciProcess) (ins : List (Str × List FileTarget))
    (prms : List (Str × List Str)) (hin : ins.length = p.In.len)
    (hpr : prms.length = p.ParamPorts.len)
    (h1 : ¬ (!allOpen ins && !allOpen prms) = true)
    (h2 : ¬ (p.In.len == 0 && !allOpen prms) = true)
    (h3 : ¬ (p.ParamPorts.len == 0 && !allOpen ins) = true)
    (h4 : ¬ (p.In.len == 0 && p.ParamPorts.len == 0) = true) :
    pendingValues (afterReceive ins) + pendingValues (afterReceive prms) + 1
      ≤ pendingValues ins + pendingValues prms := by
  have hi := pendingValues_afterReceive_le ins
  have hp := pendingValues_afterReceive_le prms
  simp only [Bool.and_eq_true, Bool.not_eq_true', beq_iff_eq, not_and, Bool.not_eq_false]
    at h1 h2 h3 h4
  by_cases hio : allOpen ins = true
  · by_cases hie : ins = []
    · have hlen : p.In.len = 0 := by rw [← hin, hie]; rfl
      have hpo : allOpen prms = true := h2 hlen
      have hpe : prms ≠ [] := by
        intro h
        apply h4 hlen
        rw [← hpr, h]; rfl
      have := pendingValues_afterReceive_lt prms hpe hpo
      omega
    · have := pendingValues_afterReceive_lt ins hie hio
      omega
  · have hio' : allOpen ins = false := by simpa using hio
    have hpo : allOpen prms = true := h1 hio'
    have hpe : prms ≠ [] := by
      intro h
      have hlen : p.ParamPorts.len = 0 := by rw [← hpr, h]; rfl
      have := h3 hlen
      rw [hio'] at this
      exact absurd this (by decide)
    have := pendingValues_afterReceive_lt prms hpe hpo
    omega

theorem createTasksLoop_terminates (p : SciProcess) (fuel : Nat)
    (ins : List (Str × List FileTarget)) (prms : List (Str × List Str))
    (hin : ins.length = p.In.len) (hpr : prms.length = p.ParamPorts.len)
    (hf : pendingValues ins + pendingValues prms + 1 ≤ fuel) :
    ∃ r, createTasksLoop p fuel ins prms = some r ∧
      r.tasks.length ≤ pendingValues ins + pendingValues prms + 1 := by
  induction fuel generalizing ins prms with
  | zero => omega
  | succ fuel ih =>
    rcases createTasksLoop_cases p fuel ins prms with h | ⟨-, h⟩ | ⟨t, -, -, -, h⟩ |
      ⟨t, -, h1, h2, h3, h4, h⟩
    · exact ⟨_, h, by simp⟩
    · exact ⟨_, h, by simp⟩
    · exact ⟨_, h, by simp⟩
    · have hprog := createTasks_progress p ins prms hin hpr h1 h2 h3 h4
      obtain ⟨r, hr, hlen⟩ := ih (afterReceive ins) (afterReceive prms)
        (by rw [afterReceive_length]; exact hin)
        (by rw [afterReceive_length]; exact hpr) (by omega)
      refine ⟨⟨t :: r.tasks, r.closed⟩, ?_, ?_⟩
      · rw [h, hr]; rfl
      · simp only [List.length_cons]
        omega

theorem createTasksLoop_mono (p : SciProcess) (fuel : Nat)
    (ins : List (Str × List FileTarget)) (prms : List (Str × List Str)) (r : TaskStream)
    (h : createTasksLoop p fuel ins prms = some r) (k : Nat) :
    createTasksLoop p (fuel + k) ins prms = some r := by
  induction fuel generalizing ins prms r with
  | zero => simp [createTasksLoop] at h
  | succ fuel ih =>
    rw [show fuel + 1 + k = (fuel + k) + 1 by omega, createTasksLoop_succ]
    rw [createTasksLoop_succ] at h
    by_cases h1 : (!allOpen ins && !allOpen prms) = true
    · rw [if_pos h1] at h ⊢; exact h
    · rw [if_neg h1] at h ⊢
      by_cases h2 : (p.In.len == 0 && !allOpen prms) = true
      · rw [if_pos h2] at h ⊢; exact h
      · rw [if_neg h2] at h ⊢
        by_cases h3 : (p.ParamPorts.len == 0 && !allOpen ins) = true
        · rw [if_pos h3] at h ⊢; exact h
        · rw [if_neg h3] at h ⊢
          cases ht : taskOf p ins prms with
          | none => rw [ht] at h; exact h
          | some t =>
            rw [ht] at h
            simp only [] at h ⊢
            by_cases h4 : (p.In.len == 0 && p.ParamPorts.len == 0) = true
            · rw [if_pos h4] at h ⊢; exact h
            · rw [if_neg h4] at h ⊢
              cases hrec : createTasksLoop p fuel (afterReceive ins) (afterReceive prms) with
              | none => rw [hrec] at h; simp at h
              | some r' =>
                rw [hrec] at h
                rw [ih _ _ _ hrec]
                exact h

theorem inChans_length (p : SciProcess) : (inChans p).length = p.In.len := by
  simp [inChans, GoMap.len]

theorem paramChans_length (p : SciProcess) : (paramChans p).length = p.ParamPorts.len := by
  simp [paramChans, GoMap.len]

theorem createTasks_result (p : SciProcess) :
    ∃ r, createTasks p = some r ∧
      r.tasks.length ≤ pendingValues (inChans p) + pendingValues (paramChans p) + 1 ∧
      ∀ fuel, pendingValues (inChans p) + pendingValues (paramChans p) + 1 ≤ fuel →
        createTasksLoop p fuel (inChans p) (paramChans p) = some r := by
  obtain ⟨r, hr, hlen⟩ := createTasksLoop_terminates p
    (pendingValues (inChans p) + pendingValues (paramChans p) + 1) (inChans p) (paramChans p)
    (inChans_length p) (paramChans_length p) (le_refl _)
  refine ⟨r, hr, hlen, ?_⟩
  intro fuel hf
  obtain ⟨k, rfl⟩ := Nat.exists_eq_add_of_le hf
  exact createTasksLoop_mono p _ _ _ r hr k

/-- C9: when every input and parameter port delivers a finite sequence of
values and is then closed, the loop of `createTasks` terminates: it comes to
its end (by a `break`, after which the task channel is closed, or sooner by
an instantiation that fails) after at most one iteration for every delivered
value and one more, and more iterations at its disposal do not change the
tasks it emits or the way it ends. -/
theorem createTasks_terminates (p : SciProcess) :
    ∃ r, createTasks p = some r ∧
      r.tasks.length ≤ pendingValues (inChans p) + pendingValues (paramChans p) + 1 ∧
      ∀ fuel, pendingValues (inChans p) + pendingValues (paramChans p) + 1 ≤ fuel →
        createTasksLoop p fuel (inChans p) (paramChans p) = some r :=
  createTasks_result p

/-! ## The sends of `Run` -/

theorem sentOn_append (x : Str) (a b : List Action) :
    sentOn x (a ++ b) = sentOn x a ++ sentOn x b := by
  simp [sentOn, List.filterMap_append]

theorem sentOn_nil (x : Str) : sentOn x [] = [] := rfl

theorem sentOn_send (x port : Str) (i : Nat) (tg : FileTarget) (rest : List Action) :
    sentOn x (Action.send i port tg :: rest) =
      (if port = x then [tg] else []) ++ sentOn x rest := by
  by_cases h : port = x <;> simp [sentOn, List.filterMap_cons, h]

theorem sentOn_closeOutPorts (x : Str) (p : SciProcess) : sentOn x (closeOutPorts p) = [] := by
  unfold closeOutPorts sentOn
  induction p.Out.entries with
  | nil => rfl
  | cons e rest ih => simp [List.filterMap_cons]

theorem sendTargets_ok (out : GoMap FilePort) (b : Bool) (i : Nat)
    (l : List (Str × FileTarget))
    (h : ∀ k ∈ l.map Prod.fst, k ∈ out.keys) : (sendTargets out b i l).2 = true := by
  induction l with
  | nil => rfl
  | cons e rest ih =>
    rcases e with ⟨k, tg⟩
    have hk : k ∈ out.keys := h k (by rw [List.map_cons]; exact List.mem_cons_self _ _)
    have hrest : ∀ k ∈ rest.map Prod.fst, k ∈ out.keys := fun k' hk' =>
      h k' (by rw [List.map_cons]; exact List.mem_cons_of_mem _ hk')
    unfold sendTargets
    by_cases hb : tg.doStream = b
    · rw [if_pos hb]
      cases hg : out.get k with
      | none => exact absurd hk ((GoMap.get_eq_none_iff out k).1 hg)
      | some v => exact ih hrest
    · rw [if_neg hb]
      exact ih hrest

theorem sentOn_sendTargets (out : GoMap FilePort) (b : Bool) (i : Nat) (x : Str)
    (l : List (Str × FileTarget)) (hnd : (l.map Prod.fst).Nodup)
    (h : ∀ k ∈ l.map Prod.fst, k ∈ out.keys) :
    sentOn x (sendTargets out b i l).1 =
      match l.lookup x with
      | some tg => if tg.doStream = b then [tg] else []
      | none => [] := by
  induction l with
  | nil => rfl
  | cons e rest ih =>
    rcases e with ⟨k, tg⟩
    rw [List.map_cons, List.nodup_cons] at hnd
    have hk : k ∈ out.keys := h k (by rw [List.map_cons]; exact List.mem_cons_self _ _)
    have hrest : ∀ k ∈ rest.map Prod.fst, k ∈ out.keys := fun k' hk' =>
      h k' (by rw [List.map_cons]; exact List.mem_cons_of_mem _ hk')
    have ih' := ih hnd.2 hrest
    have hnone : rest.lookup k = none := by
      cases hl : rest.lookup k with
      | none => rfl
      | some v =>
        have := (lookup_isSome_iff rest k).1 (by rw [hl]; rfl)
        exact absurd this hnd.1
    unfold sendTargets
    by_cases hx : x = k
    · subst hx
      rw [lookup_cons_eq]
      rw [hnone] at ih'
      by_cases hb : tg.doStream = b
      · rw [if_pos hb]
        cases hg : out.get x with
        | none => exact absurd hk ((GoMap.get_eq_none_iff out x).1 hg)
        | some v =>
          simp only [hb, if_true]
          rw [sentOn_send, if_pos rfl, ih']
          rfl
      · rw [if_neg hb]
        simp only [hb, if_false]
        exact ih'
    · rw [lookup_cons_ne k x tg rest hx]
      by_cases hb : tg.doStream = b
      · rw [if_pos hb]
        cases hg : out.get k with
        | none => exact absurd hk ((GoMap.get_eq_none_iff out k).1 hg)
        | some v =>
          simp only
          rw [sentOn_send, if_neg (fun hh => hx hh.symm)]
          exact ih'
      · rw [if_neg hb]
        exact ih'

theorem sentOn_sendTargets_task (out : GoMap FilePort) (b : Bool) (i : Nat) (x : Str)
    (t : SciTask) (h : ∀ k ∈ t.OutTargets.keys, k ∈ out.keys) :
    sentOn x (sendTargets out b i t.OutTargets.entries).1 = sendsOf b x t :=
  sentOn_sendTargets out b i x t.OutTargets.entries t.OutTargets.nodup h

theorem take_succ_of_drop {α : Type} (l : List α) (r : Nat) (t : α) (rest : List α)
    (h : l.drop r = t :: rest) : l.take (r + 1) = l.take r ++ [t] ∧ r < l.length := by
  have hlt : r < l.length := by
    by_contra hc
    rw [List.drop_of_length_le (by omega)] at h
    exact absurd h (by simp)
  refine ⟨?_, hlt⟩
  have ht : l[r] = t := by
    have h2 := List.drop_eq_getElem_cons hlt
    rw [h] at h2
    exact (List.cons.inj h2).1.symm
  rw [List.take_succ, List.getElem?_eq_getElem hlt, ht]
  rfl

theorem startRun_inv (ts : List SciTask) : RunInv ts (startRun ts) where
  split := rfl
  recv_le := Nat.le_refl _
  recv_pos := fun h => absurd h (Nat.lt_irrefl 0)
  not_panicked := by simp [startRun]
  returned := by simp [startRun]
  sends := fun x => by simp [startRun, sentOn]

theorem step_inv (p : SciProcess) (f : Nat → Bool) (ts : List SciTask)
    (hk : ∀ t ∈ ts, ∀ k ∈ t.OutTargets.keys, k ∈ p.Out.keys)
    (s s1 : RunState) (e : Event) (hinv : RunInv ts s) (hs : step p f s e = some s1) :
    RunInv ts s1 := by
  obtain ⟨pending, tasks, fired, done, received, actions, status⟩ := s
  obtain ⟨h1, h2, h3, h4, h5, h6⟩ := hinv
  simp only at h1 h2 h3 h4 h5 h6
  cases e with
  | task =>
    cases status with
    | returned => simp [step] at hs
    | panicked => simp [step] at hs
    | running =>
      cases pending with
      | nil => simp [step] at hs
      | cons t rest =>
        have htmem : t ∈ ts := by rw [← h1]; simp
        have hok := sendTargets_ok p.Out true tasks.length t.OutTargets.entries (hk t htmem)
        simp only [step, hok, if_true, Option.some.injEq] at hs
        subst hs
        have hr0 : received = 0 := by
          by_contra hc
          have := h3 (Nat.pos_of_ne_zero hc)
          exact absurd this (by simp)
        subst hr0
        refine ⟨?_, ?_, ?_, ?_, ?_, ?_⟩
        · simpa using h1
        · simp
        · intro h; exact absurd h (Nat.lt_irrefl 0)
        · simp
        · simp
        · intro x
          simp only [sentOn_append, h6 x, List.take_zero, List.map_nil, List.flatten_nil,
            List.append_nil, List.map_append, List.map_cons, List.flatten_append,
            List.flatten_cons, sentOn_sendTargets_task p.Out true tasks.length x t (hk t htmem)]
          have hf : sentOn x (if f tasks.length = true then []
              else [Action.createFifos tasks.length]) = [] := by
            split <;> rfl
          have hl : sentOn x [if f tasks.length = true then Action.goSendDone tasks.length
              else Action.goExecute tasks.length] = [] := by
            split <;> rfl
          rw [hf, hl]
          simp
  | finish i =>
    simp only [step] at hs
    split at hs
    · simp only [Option.some.injEq] at hs
      subst hs
      exact ⟨h1, h2, h3, h4, h5, h6⟩
    · exact absurd hs (by simp)
  | await =>
    cases status with
    | returned => simp [step] at hs
    | panicked => simp [step] at hs
    | running =>
      cases pending with
      | cons t rest => simp [step] at hs
      | nil =>
        cases hd : tasks.drop received with
        | nil => simp [step, hd] at hs
        | cons t rest =>
          have htk := take_succ_of_drop tasks received t rest hd
          have htmem : t ∈ ts := by
            rw [← h1, List.append_nil]
            have : t ∈ tasks.drop received := by rw [hd]; exact List.mem_cons_self _ _
            exact List.mem_of_mem_drop this
          have hok := sendTargets_ok p.Out false received t.OutTargets.entries (hk t htmem)
          simp only [step, hd, hok, if_true] at hs
          split at hs
          · simp only [Option.some.injEq] at hs
            subst hs
            refine ⟨h1, ?_, ?_, ?_, ?_, ?_⟩
            · exact htk.2
            · intro _; rfl
            · simp
            · simp
            · intro x
              simp only [sentOn_append, h6 x, htk.1, List.map_append, List.map_cons,
                List.map_nil, List.flatten_append, List.flatten_cons, List.flatten_nil,
                List.append_nil, sentOn_sendTargets_task p.Out false received x t (hk t htmem)]
              have hr : sentOn x [Action.receiveDone received] = [] := rfl
              rw [hr]
              simp
          · exact absurd hs (by simp)
  | ret =>
    cases status with
    | returned => simp [step] at hs
    | panicked => simp [step] at hs
    | running =>
      cases pending with
      | cons t rest => simp [step] at hs
      | nil =>
        cases hd : tasks.drop received with
        | cons t rest => simp [step, hd] at hs
        | nil =>
          simp only [step, hd, Option.some.injEq] at hs
          subst hs
          have hlen : tasks.length ≤ received := by
            by_contra hc
            have := List.drop_eq_nil_iff.1 hd
            omega
          refine ⟨h1, h2, h3, ?_, ?_, ?_⟩
          · simp
          · intro _; exact ⟨rfl, by simp only; omega⟩
          · intro x
            simp only [sentOn_append, sentOn_closeOutPorts, List.append_nil]
            exact h6 x

theorem exec_inv (p : SciProcess) (f : Nat → Bool) (ts : List SciTask)
    (hk : ∀ t ∈ ts, ∀ k ∈ t.OutTargets.keys, k ∈ p.Out.keys)
    (es : List Event) (s s1 : RunState) (hinv : RunInv ts s) (hs : exec p f s es = some s1) :
    RunInv ts s1 := by
  induction es generalizing s with
  | nil =>
    simp only [exec, Option.some.injEq] at hs
    exact hs ▸ hinv
  | cons e rest ih =>
    simp only [exec] at hs
    cases h : step p f s e with
    | none => rw [h] at hs; exact absurd hs (by simp)
    | some s2 =>
      rw [h] at hs
      exact ih s2 (step_inv p f ts hk s s2 e hinv h) hs

/-! ## The tasks of `createTasks` -/

theorem foldl_set_keys {V W : Type} (g : Str × W → V) (l : List (Str × W)) (acc : GoMap V)
    (x : Str) :
    x ∈ (l.foldl (fun acc e => acc.set e.1 (g e)) acc).keys ↔
      x ∈ acc.keys ∨ x ∈ l.map Prod.fst := by
  induction l generalizing acc with
  | nil => simp
  | cons e rest ih =>
    rw [List.foldl_cons, ih, GoMap.mem_keys_set, List.map_cons, List.mem_cons]
    tauto

theorem foldl_set_values {V W : Type} (g : Str × W → V) (Q : Str → V → Prop)
    (l : List (Str × W)) (acc : GoMap V) (hl : ∀ e ∈ l, Q e.1 (g e))
    (hacc : ∀ k v, acc.get k = some v → Q k v) (k : Str) (v : V)
    (h : (l.foldl (fun acc e => acc.set e.1 (g e)) acc).get k = some v) : Q k v := by
  induction l generalizing acc with
  | nil => exact hacc k v h
  | cons e rest ih =>
    rw [List.foldl_cons] at h
    refine ih (acc.set e.1 (g e)) (fun e' he' => hl e' (List.mem_cons_of_mem _ he')) ?_ h
    intro k' v' hk'
    by_cases hx : k' = e.1
    · rw [hx, GoMap.get_set_self] at hk'
      cases hk'
      rw [hx]
      exact hl e (List.mem_cons_self _ _)
    · rw [GoMap.get_set_ne _ _ _ _ hx] at hk'
      exact hacc k' v' hk'

theorem get_empty {V : Type} (k : Str) : (GoMap.empty : GoMap V).get k = none := rfl

theorem outTargetsOf_some_iff (ds : GoMap Bool) (t : SciTask)
    (l : List (Str × (SciTask → Option Str))) (acc m : GoMap FileTarget) :
    outTargetsOf ds t l acc = some m ↔
      (∀ e ∈ l, (e.2 t).isSome = true) ∧
      m = l.foldl (fun acc e => acc.set e.1 ⟨(e.2 t).getD [], (ds.get e.1).getD false⟩) acc := by
  induction l generalizing acc with
  | nil =>
    simp only [outTargetsOf, Option.some.injEq, List.not_mem_nil, false_implies, implies_true,
      true_and, List.foldl_nil]
    exact eq_comm
  | cons e rest ih =>
    rcases e with ⟨k, fmt⟩
    cases hf : fmt t with
    | none =>
      simp only [outTargetsOf, hf, List.mem_cons, forall_eq_or_imp, Option.isSome_none]
      constructor
      · intro h; exact absurd h (by simp)
      · rintro ⟨⟨h, -⟩, -⟩; exact absurd h (by simp)
    | some path =>
      simp only [outTargetsOf, hf, List.mem_cons, forall_eq_or_imp, Option.isSome_some,
        true_and, List.foldl_cons, Option.getD_some]
      exact ih _

theorem newSciTask_some (name cmdPat : Str) (inTargets : GoMap FileTarget)
    (fs : GoMap (SciTask → Option Str)) (ds : GoMap Bool) (params : GoMap Str) (pre : Str)
    (t : SciTask) (h : NewSciTask name cmdPat inTargets fs ds params pre = some t) :
    t.Name = name ∧ t.Command = cmdPat ∧ t.InTargets = inTargets ∧ t.Params = params ∧
    t.CustomExecute = none ∧
    outTargetsOf ds ⟨name, cmdPat, [], inTargets, GoMap.empty, params, none⟩ fs.entries
      GoMap.empty = some t.OutTargets ∧
    (∀ m ∈ FindAllStringSubmatch cmdPat,
      (binding (some params) (some (inTargets.mapValues FileTarget.GetPath))
        (some (t.OutTargets.mapValues FileTarget.GetTempPath)) m).isSome = true) ∧
    t.ResolvedCommand = simultaneousSubstitution cmdPat (some params)
      (some (inTargets.mapValues FileTarget.GetPath))
      (some (t.OutTargets.mapValues FileTarget.GetTempPath)) := by
  unfold NewSciTask at h
  simp only at h
  cases ho : outTargetsOf ds ⟨name, cmdPat, [], inTargets, GoMap.empty, params, none⟩ fs.entries
    GoMap.empty with
  | none => rw [ho] at h; exact absurd h (by simp)
  | some outs =>
    rw [ho] at h
    simp only at h
    split at h
    · rename_i hall
      simp only [Option.some.injEq] at h
      subst h
      refine ⟨rfl, rfl, rfl, rfl, rfl, rfl, ?_, rfl⟩
      intro m hm
      exact List.all_eq_true.1 hall m hm
    · exact absurd h (by simp)

theorem taskOf_some (p : SciProcess) (ins : List (Str × List FileTarget))
    (prms : List (Str × List Str)) (t : SciTask) (h : taskOf p ins prms = some t) :
    ∃ t0, NewSciTask p.Name p.CommandPattern (receiveInputs ins).1 p.PathFormatters
        p.OutPortsDoStream (receiveParams prms).1 p.Prepend = some t0 ∧
      t.Name = t0.Name ∧ t.Command = t0.Command ∧ t.ResolvedCommand = t0.ResolvedCommand ∧
      t.InTargets = t0.InTargets ∧ t.OutTargets = t0.OutTargets ∧ t.Params = t0.Params := by
  unfold taskOf at h
  cases hn : NewSciTask p.Name p.CommandPattern (receiveInputs ins).1 p.PathFormatters
    p.OutPortsDoStream (receiveParams prms).1 p.Prepend with
  | none => rw [hn] at h; exact absurd h (by simp)
  | some t0 =>
    rw [hn] at h
    simp only [Option.some.injEq] at h
    subst h
    refine ⟨t0, rfl, ?_⟩
    by_cases hc : p.CustomExecute.isSome = true
    · rw [if_pos hc]
      exact ⟨rfl, rfl, rfl, rfl, rfl, rfl⟩
    · rw [if_neg hc]
      exact ⟨rfl, rfl, rfl, rfl, rfl, rfl⟩

theorem taskOf_fields (p : SciProcess) (ins : List (Str × List FileTarget))
    (prms : List (Str × List Str)) (t : SciTask) (h : taskOf p ins prms = some t) :
    t.InTargets = (receiveInputs ins).1 ∧
    t.Params = (receiveParams prms).1 ∧
    (∀ e ∈ p.PathFormatters.entries,
      (e.2 ⟨p.Name, p.CommandPattern, [], (receiveInputs ins).1, GoMap.empty,
        (receiveParams prms).1, none⟩).isSome = true) ∧
    t.OutTargets = p.PathFormatters.entries.foldl
      (fun acc e => acc.set e.1
        ⟨(e.2 ⟨p.Name, p.CommandPattern, [], (receiveInputs ins).1, GoMap.empty,
          (receiveParams prms).1, none⟩).getD [], (p.OutPortsDoStream.get e.1).getD false⟩)
      GoMap.empty := by
  obtain ⟨t0, h0, -, -, -, hi, ho, hp⟩ := taskOf_some p ins prms t h
  obtain ⟨-, -, h3, h4, -, h6, -, -⟩ := newSciTask_some _ _ _ _ _ _ _ t0 h0
  rw [outTargetsOf_some_iff] at h6
  exact ⟨hi.trans h3, hp.trans h4, h6.1, ho.trans h6.2⟩

theorem taskOf_out_keys (p : SciProcess) (ins : List (Str × List FileTarget))
    (prms : List (Str × List Str)) (t : SciTask) (h : taskOf p ins prms = some t) (x : Str) :
    x ∈ t.OutTargets.keys ↔ x ∈ p.PathFormatters.keys := by
  rw [(taskOf_fields p ins prms t h).2.2.2, foldl_set_keys]
  constructor
  · rintro (h | h)
    · exact absurd h (List.not_mem_nil _)
    · exact h
  · intro h
    exact Or.inr h

theorem taskOf_doStream (p : SciProcess) (ins : List (Str × List FileTarget))
    (prms : List (Str × List Str)) (t : SciTask) (ht : taskOf p ins prms = some t)
    (x : Str) (tg : FileTarget) (h : t.OutTargets.get x = some tg) :
    tg.doStream = (p.OutPortsDoStream.get x).getD false := by
  rw [(taskOf_fields p ins prms t ht).2.2.2] at h
  refine foldl_set_values _ (fun k (v : FileTarget) => v.doStream = (p.OutPortsDoStream.get k).getD false)
    _ _ ?_ ?_ x tg h
  · intro e _
    rfl
  · intro k v hk
    rw [get_empty] at hk
    exact absurd hk (by simp)

theorem createTasksLoop_forall (p : SciProcess) (Q : SciTask → Prop)
    (hQ : ∀ ins prms t, taskOf p ins prms = some t → Q t) (fuel : Nat)
    (ins : List (Str × List FileTarget)) (prms : List (Str × List Str)) (r : TaskStream)
    (h : createTasksLoop p fuel ins prms = some r) : ∀ t ∈ r.tasks, Q t := by
  induction fuel generalizing ins prms r with
  | zero => simp [createTasksLoop] at h
  | succ fuel ih =>
    rcases createTasksLoop_cases p fuel ins prms with h0 | ⟨-, h0⟩ | ⟨t, ht, -, -, h0⟩ |
      ⟨t, ht, -, -, -, -, h0⟩
    · rw [h0] at h; cases h; simp
    · rw [h0] at h; cases h; simp
    · rw [h0] at h
      cases h
      intro t' ht'
      rw [List.mem_singleton] at ht'
      rw [ht']; exact hQ _ _ _ ht
    · rw [h0] at h
      cases hrec : createTasksLoop p fuel (afterReceive ins) (afterReceive prms) with
      | none => rw [hrec] at h; simp at h
      | some r' =>
        rw [hrec] at h
        simp only [Option.map_some', Option.some.injEq] at h
        subst h
        intro t' ht'
        rcases List.mem_cons.1 ht' with h | h
        · rw [h]; exact hQ _ _ _ ht
        · exact ih _ _ _ hrec t' h

theorem sends_of_uniform_flag (x : Str) (b : Bool) (ts : List SciTask)
    (h : ∀ t ∈ ts, ∀ tg, t.OutTargets.get x = some tg → tg.doStream = b) :
    (ts.map (sendsOf b x)).flatten = targetsFor x ts ∧
    (ts.map (sendsOf (!b) x)).flatten = [] := by
  induction ts with
  | nil => exact ⟨rfl, rfl⟩
  | cons t rest ih =>
    have ih' := ih (fun t' ht' => h t' (List.mem_cons_of_mem _ ht'))
    have ht := h t (List.mem_cons_self _ _)
    simp only [List.map_cons, List.flatten_cons, targetsFor, List.filterMap_cons] at ih' ⊢
    rw [ih'.1, ih'.2]
    cases hg : t.OutTargets.get x with
    | none => simp [sendsOf, hg]
    | some tg =>
      have hb := ht tg hg
      have hnb : ¬ tg.doStream = !b := by rw [hb]; cases b <;> decide
      simp [sendsOf, hg, hb, hnb]

/-! ## Runs of `Run` for a given order of completion -/

theorem exec_append (p : SciProcess) (f : Nat → Bool) (s : RunState) (a b : List Event) :
    exec p f s (a ++ b) = (exec p f s a).bind (fun s1 => exec p f s1 b) := by
  induction a generalizing s with
  | nil => rfl
  | cons e rest ih =>
    simp only [List.cons_append, exec]
    cases step p f s e with
    | none => rfl
    | some s1 => exact ih s1

theorem doneChannel_own (f : Nat → Bool) (n i : Nat) (h : f i = true → i + 1 = n) :
    doneChannel f n i = i := by
  unfold doneChannel
  by_cases hf : f i = true
  · rw [if_pos hf]
    have := h hf
    omega
  · rw [if_neg hf]

theorem run_first_loop (p : SciProcess) (f : Nat → Bool) (pend : List SciTask)
    (hk : ∀ t ∈ pend, ∀ k ∈ t.OutTargets.keys, k ∈ p.Out.keys)
    (tasks : List SciTask) (fired done : List Nat) (received : Nat) (actions : List Action) :
    ∃ acts, exec p f ⟨pend, tasks, fired, done, received, actions, Status.running⟩
        (List.replicate pend.length Event.task)
      = some ⟨[], tasks ++ pend, fired, done, received, acts, Status.running⟩ := by
  induction pend generalizing tasks actions with
  | nil => exact ⟨actions, by simp [exec]⟩
  | cons t rest ih =>
    have hok := sendTargets_ok p.Out true tasks.length t.OutTargets.entries
      (hk t (List.mem_cons_self _ _))
    obtain ⟨acts, hacts⟩ := ih (fun t' ht' => hk t' (List.mem_cons_of_mem _ ht'))
      (tasks ++ [t])
      (actions ++ (if f tasks.length = true then [] else [Action.createFifos tasks.length])
        ++ (sendTargets p.Out true tasks.length t.OutTargets.entries).1
        ++ [if f tasks.length = true then Action.goSendDone tasks.length
            else Action.goExecute tasks.length])
    refine ⟨acts, ?_⟩
    simp only [List.length_cons, List.replicate_succ, exec, step, hok, if_true]
    rw [hacts]
    simp

theorem run_finishes (p : SciProcess) (f : Nat → Bool) (order : List Nat)
    (tasks : List SciTask) (fired done : List Nat) (received : Nat) (actions : List Action)
    (hlt : ∀ i ∈ order, i < tasks.length) (hnd : order.Nodup)
    (hnot : ∀ i ∈ order, i ∉ fired)
    (hown : ∀ i ∈ order, f i = true → i + 1 = tasks.length) :
    exec p f ⟨[], tasks, fired, done, received, actions, Status.running⟩
        (order.map Event.finish)
      = some ⟨[], tasks, order.reverse ++ fired, order.reverse ++ done, received, actions,
          Status.running⟩ := by
  induction order generalizing fired done with
  | nil => simp [exec]
  | cons i rest ih =>
    rw [List.nodup_cons] at hnd
    have h1 : i < tasks.length := hlt i (List.mem_cons_self _ _)
    have h2 : i ∉ fired := hnot i (List.mem_cons_self _ _)
    have h3 : doneChannel f tasks.length i = i :=
      doneChannel_own f tasks.length i (hown i (List.mem_cons_self _ _))
    simp only [List.map_cons, exec, step, h1, h2, h3, not_false_eq_true, and_self, if_true]
    rw [ih (i :: fired) (i :: done) (fun j hj => hlt j (List.mem_cons_of_mem _ hj)) hnd.2]
    · simp
    · intro j hj hmem
      rcases List.mem_cons.1 hmem with h | h
      · exact hnd.1 (h ▸ hj)
      · exact hnot j (List.mem_cons_of_mem _ hj) h
    · exact fun j hj => hown j (List.mem_cons_of_mem _ hj)

theorem run_second_loop (p : SciProcess) (f : Nat → Bool) (tasks : List SciTask)
    (hk : ∀ t ∈ tasks, ∀ k ∈ t.OutTargets.keys, k ∈ p.Out.keys)
    (fired done : List Nat) (hdone : ∀ i, i < tasks.length → i ∈ done)
    (n received : Nat) (actions : List Action) (hn : received + n = tasks.length) :
    ∃ acts, exec p f ⟨[], tasks, fired, done, received, actions, Status.running⟩
        (List.replicate n Event.await)
      = some ⟨[], tasks, fired, done, tasks.length, acts, Status.running⟩ := by
  induction n generalizing received actions with
  | zero =>
    refine ⟨actions, ?_⟩
    simp only [Nat.add_zero] at hn
    simp [exec, hn]
  | succ n ih =>
    have hlt : received < tasks.length := by omega
    have hd : tasks.drop received = tasks[received] :: tasks.drop (received + 1) :=
      List.drop_eq_getElem_cons hlt
    have hmem : tasks[received] ∈ tasks := List.getElem_mem _
    have hok := sendTargets_ok p.Out false received tasks[received].OutTargets.entries
      (hk _ hmem)
    obtain ⟨acts, hacts⟩ := ih (received + 1)
      (actions ++ [Action.receiveDone received]
        ++ (sendTargets p.Out false received tasks[received].OutTargets.entries).1) (by omega)
    refine ⟨acts, ?_⟩
    simp only [List.replicate_succ, exec, step, hd, if_pos (hdone received hlt), hok, if_true]
    exact hacts

theorem run_returns (p : SciProcess) (f : Nat → Bool) (ts : List SciTask)
    (hk : ∀ t ∈ ts, ∀ k ∈ t.OutTargets.keys, k ∈ p.Out.keys)
    (hlast : ∀ i, i + 1 < ts.length → f i = false)
    (order : List Nat) (hperm : order.Perm (List.range ts.length)) :
    ∃ s, exec p f (startRun ts)
        (List.replicate ts.length Event.task ++ order.map Event.finish
          ++ List.replicate ts.length Event.await ++ [Event.ret]) = some s ∧
      s.status = Status.returned := by
  obtain ⟨a1, h1⟩ := run_first_loop p f ts hk [] [] [] 0 []
  have hlt : ∀ i ∈ order, i < ts.length := fun i hi =>
    List.mem_range.1 (hperm.mem_iff.1 hi)
  have hnd : order.Nodup := hperm.nodup_iff.2 (List.nodup_range _)
  have hown : ∀ i ∈ order, f i = true → i + 1 = ts.length := by
    intro i hi hf
    have h1 := hlt i hi
    by_contra hne
    have := hlast i (by omega)
    rw [hf] at this
    exact absurd this (by decide)
  have h2 := run_finishes p f order ts [] [] 0 a1 hlt hnd
    (fun _ _ h => absurd h (List.not_mem_nil _)) hown
  have hdone : ∀ i, i < ts.length → i ∈ order.reverse ++ ([] : List Nat) := by
    intro i hi
    rw [List.append_nil, List.mem_reverse]
    exact hperm.mem_iff.2 (List.mem_range.2 hi)
  obtain ⟨a3, h3⟩ := run_second_loop p f ts hk (order.reverse ++ []) (order.reverse ++ [])
    hdone ts.length 0 a1 (by omega)
  refine ⟨⟨[], ts, order.reverse ++ [], order.reverse ++ [], ts.length,
    a3 ++ closeOutPorts p, Status.returned⟩, ?_, rfl⟩
  rw [exec_append, exec_append, exec_append]
  simp only [startRun]
  rw [List.nil_append] at h1
  rw [h1, Option.some_bind, h2, Option.some_bind, h3, Option.some_bind]
  simp [exec, step]

/-! ## `Run` ends -/

theorem fired_length_le (s : RunState) (h : RunBound s) : s.fired.length ≤ s.tasks.length := by
  have hsub : s.fired ⊆ List.range s.tasks.length := fun i hi =>
    List.mem_range.2 (h.fired_lt i hi)
  have := (h.fired_nodup.subperm hsub).length_le
  simpa using this

theorem step_stepsLeft (p : SciProcess) (f : Nat → Bool) (s s1 : RunState) (e : Event)
    (hb : RunBound s) (hs : step p f s e = some s1) :
    RunBound s1 ∧ stepsLeft s1 + 1 ≤ stepsLeft s := by
  have hdl := fired_length_le s hb
  obtain ⟨pending, tasks, fired, done, received, actions, status⟩ := s
  obtain ⟨h1, h2, h3⟩ := hb
  simp only at h1 h2 h3 hdl
  cases e with
  | task =>
    cases status with
    | returned => simp [step] at hs
    | panicked => simp [step] at hs
    | running =>
      cases pending with
      | nil => simp [step] at hs
      | cons t rest =>
        simp only [step] at hs
        split at hs <;>
        · simp only [Option.some.injEq] at hs
          subst hs
          refine ⟨⟨h1, ?_, ?_⟩, ?_⟩
          · intro i hi
            have := h2 i hi
            simp only [List.length_append, List.length_singleton]
            omega
          · simp only [List.length_append, List.length_singleton]
            omega
          · simp only [stepsLeft, List.length_append, List.length_singleton, List.length_cons]
            simp
            omega
  | finish i =>
    simp only [step] at hs
    split at hs
    · rename_i hc
      simp only [Option.some.injEq] at hs
      subst hs
      have hbnd : RunBound ⟨pending, tasks, i :: fired,
          doneChannel f tasks.length i :: done, received, actions, status⟩ :=
        ⟨List.nodup_cons.2 ⟨hc.2.2, h1⟩, fun j hj => by
          rcases List.mem_cons.1 hj with h | h
          · rw [h]; exact hc.2.1
          · exact h2 j h, h3⟩
      refine ⟨hbnd, ?_⟩
      have := fired_length_le _ hbnd
      simp only [List.length_cons] at this
      simp only [stepsLeft, List.length_cons]
      omega
    · exact absurd hs (by simp)
  | await =>
    cases status with
    | returned => simp [step] at hs
    | panicked => simp [step] at hs
    | running =>
      cases pending with
      | cons t rest => simp [step] at hs
      | nil =>
        cases hd : tasks.drop received with
        | nil => simp [step, hd] at hs
        | cons t rest =>
          have hlt := (take_succ_of_drop tasks received t rest hd).2
          simp only [step, hd] at hs
          split at hs
          · split at hs <;>
            · simp only [Option.some.injEq] at hs
              subst hs
              refine ⟨⟨h1, h2, hlt⟩, ?_⟩
              simp only [stepsLeft, List.length_nil]
              simp
              omega
          · exact absurd hs (by simp)
  | ret =>
    cases status with
    | returned => simp [step] at hs
    | panicked => simp [step] at hs
    | running =>
      cases pending with
      | cons t rest => simp [step] at hs
      | nil =>
        cases hd : tasks.drop received with
        | cons t rest => simp [step, hd] at hs
        | nil =>
          simp only [step, hd, Option.some.injEq] at hs
          subst hs
          refine ⟨⟨h1, h2, h3⟩, ?_⟩
          simp [stepsLeft]

theorem exec_stepsLeft (p : SciProcess) (f : Nat → Bool) (es : List Event) (s s1 : RunState)
    (hb : RunBound s) (hs : exec p f s es = some s1) :
    RunBound s1 ∧ stepsLeft s1 + es.length ≤ stepsLeft s := by
  induction es generalizing s with
  | nil =>
    simp only [exec, Option.some.injEq] at hs
    subst hs
    exact ⟨hb, by simp⟩
  | cons e rest ih =>
    simp only [exec] at hs
    cases hstep : step p f s e with
    | none => rw [hstep] at hs; exact absurd hs (by simp)
    | some s2 =>
      rw [hstep] at hs
      obtain ⟨hb2, hm2⟩ := step_stepsLeft p f s s2 e hb hstep
      obtain ⟨hb1, hm1⟩ := ih s2 hb2 hs
      refine ⟨hb1, ?_⟩
      simp only [List.length_cons]
      omega

theorem startRun_bound (ts : List SciTask) : RunBound (startRun ts) :=
  ⟨List.nodup_nil, fun _ h => absurd h (List.not_mem_nil _), Nat.le_refl _⟩

theorem run_steps_bounded (p : SciProcess) (f : Nat → Bool) (ts : List SciTask)
    (es : List Event) (s : RunState) (hs : exec p f (startRun ts) es = some s) :
    es.length ≤ 3 * ts.length + 1 := by
  obtain ⟨-, h⟩ := exec_stepsLeft p f es (startRun ts) s (startRun_bound ts) hs
  simp only [stepsLeft, startRun, List.length_nil] at h
  simp at h
  omega

theorem run_progress (p : SciProcess) (f : Nat → Bool) (s : RunState) (hb : RunBound s)
    (hsig : RunSignals s) (hrun : s.status = Status.running) :
    ∃ e s1, step p f s e = some s1 := by
  obtain ⟨pending, tasks, fired, done, received, actions, status⟩ := s
  have hown := hsig.own
  simp only at hrun hown
  subst hrun
  cases pending with
  | cons t rest =>
    refine ⟨Event.task, ?_⟩
    simp only [step]
    split <;> exact ⟨_, rfl⟩
  | nil =>
    cases hd : tasks.drop received with
    | nil =>
      refine ⟨Event.ret, ?_⟩
      simp only [step, hd]
      exact ⟨_, rfl⟩
    | cons t rest =>
      have hlt := (take_succ_of_drop tasks received t rest hd).2
      by_cases hmem : received ∈ done
      · refine ⟨Event.await, ?_⟩
        simp only [step, hd, if_pos hmem]
        split <;> exact ⟨_, rfl⟩
      · refine ⟨Event.finish received, ?_⟩
        simp only [step]
        rw [if_pos ⟨trivial, hlt, fun h => hmem (hown received h)⟩]
        exact ⟨_, rfl⟩

theorem step_split (p : SciProcess) (f : Nat → Bool) (ts : List SciTask) (s s1 : RunState)
    (e : Event) (h : s.tasks ++ s.pending = ts) (hs : step p f s e = some s1) :
    s1.tasks ++ s1.pending = ts := by
  obtain ⟨pending, tasks, fired, done, received, actions, status⟩ := s
  simp only at h
  cases e with
  | task =>
    cases status with
    | returned => simp [step] at hs
    | panicked => simp [step] at hs
    | running =>
      cases pending with
      | nil => simp [step] at hs
      | cons t rest =>
        simp only [step] at hs
        split at hs <;>
        · simp only [Option.some.injEq] at hs
          subst hs
          simpa using h
  | finish i =>
    simp only [step] at hs
    split at hs
    · simp only [Option.some.injEq] at hs
      subst hs
      exact h
    · exact absurd hs (by simp)
  | await =>
    cases status with
    | returned => simp [step] at hs
    | panicked => simp [step] at hs
    | running =>
      cases pending with
      | cons t rest => simp [step] at hs
      | nil =>
        cases hd : tasks.drop received with
        | nil => simp [step, hd] at hs
        | cons t rest =>
          simp only [step, hd] at hs
          split at hs
          · split at hs <;>
            · simp only [Option.some.injEq] at hs
              subst hs
              exact h
          · exact absurd hs (by simp)
  | ret =>
    cases status with
    | returned => simp [step] at hs
    | panicked => simp [step] at hs
    | running =>
      cases pending with
      | cons t rest => simp [step] at hs
      | nil =>
        cases hd : tasks.drop received with
        | cons t rest => simp [step, hd] at hs
        | nil =>
          simp only [step, hd, Option.some.injEq] at hs
          subst hs
          exact h

theorem exec_split (p : SciProcess) (f : Nat → Bool) (ts : List SciTask) (es : List Event)
    (s s1 : RunState) (h : s.tasks ++ s.pending = ts) (hs : exec p f s es = some s1) :
    s1.tasks ++ s1.pending = ts := by
  induction es generalizing s with
  | nil =>
    simp only [exec, Option.some.injEq] at hs
    exact hs ▸ h
  | cons e rest ih =>
    simp only [exec] at hs
    cases hstep : step p f s e with
    | none => rw [hstep] at hs; exact absurd hs (by simp)
    | some s2 =>
      rw [hstep] at hs
      exact ih s2 (step_split p f ts s s2 e h hstep) hs

theorem step_ended_tasks (p : SciProcess) (f : Nat → Bool) (ts : List SciTask)
    (hne : ts ≠ []) (s s1 : RunState) (e : Event) (h : s.tasks ++ s.pending = ts)
    (hs : step p f s e = some s1) (hend : s1.status ≠ Status.running) : s1.tasks ≠ [] := by
  obtain ⟨pending, tasks, fired, done, received, actions, status⟩ := s
  simp only at h
  cases e with
  | task =>
    cases status with
    | returned => simp [step] at hs
    | panicked => simp [step] at hs
    | running =>
      cases pending with
      | nil => simp [step] at hs
      | cons t rest =>
        simp only [step] at hs
        split at hs <;>
        · simp only [Option.some.injEq] at hs
          subst hs
          simp
  | finish i =>
    simp only [step] at hs
    split at hs
    · rename_i hc
      simp only [Option.some.injEq] at hs
      subst hs
      exact absurd hc.1 hend
    · exact absurd hs (by simp)
  | await =>
    cases status with
    | returned => simp [step] at hs
    | panicked => simp [step] at hs
    | running =>
      cases pending with
      | cons t rest => simp [step] at hs
      | nil =>
        rw [List.append_nil] at h
        cases hd : tasks.drop received with
        | nil => simp [step, hd] at hs
        | cons t rest =>
          simp only [step, hd] at hs
          split at hs
          · split at hs <;>
            · simp only [Option.some.injEq] at hs
              subst hs
              simp only
              rw [h]
              exact hne
          · exact absurd hs (by simp)
  | ret =>
    cases status with
    | returned => simp [step] at hs
    | panicked => simp [step] at hs
    | running =>
      cases pending with
      | cons t rest => simp [step] at hs
      | nil =>
        rw [List.append_nil] at h
        cases hd : tasks.drop received with
        | cons t rest => simp [step, hd] at hs
        | nil =>
          simp only [step, hd, Option.some.injEq] at hs
          subst hs
          simp only
          rw [h]
          exact hne

theorem exec_ended_tasks (p : SciProcess) (f : Nat → Bool) (ts : List SciTask)
    (hne : ts ≠ []) (es : List Event) (s s1 : RunState) (h : s.tasks ++ s.pending = ts)
    (h0 : s.status ≠ Status.running → s.tasks ≠ [])
    (hs : exec p f s es = some s1) (hend : s1.status ≠ Status.running) : s1.tasks ≠ [] := by
  induction es generalizing s with
  | nil =>
    simp only [exec, Option.some.injEq] at hs
    subst hs
    exact h0 hend
  | cons e rest ih =>
    simp only [exec] at hs
    cases hstep : step p f s e with
    | none => rw [hstep] at hs; exact absurd hs (by simp)
    | some s2 =>
      rw [hstep] at hs
      exact ih s2 (step_split p f ts s s2 e h hstep)
        (step_ended_tasks p f ts hne s s2 e h hstep) hs

/-! ## C4: the order of the targets on an output port -/

theorem step_signals (p : SciProcess) (f : Nat → Bool) (ts : List SciTask)
    (hlast : ∀ i, i + 1 < ts.length → f i = false) (s s1 : RunState) (e : Event)
    (hsplit : s.tasks ++ s.pending = ts) (hsig : RunSignals s)
    (hs : step p f s e = some s1) : RunSignals s1 := by
  obtain ⟨pending, tasks, fired, done, received, actions, status⟩ := s
  have hown := hsig.own
  simp only at hsplit hown
  cases e with
  | task =>
    cases status with
    | returned => simp [step] at hs
    | panicked => simp [step] at hs
    | running =>
      cases pending with
      | nil => simp [step] at hs
      | cons t rest =>
        simp only [step] at hs
        split at hs <;>
        · simp only [Option.some.injEq] at hs
          subst hs
          exact ⟨hown⟩
  | finish i =>
    simp only [step] at hs
    split at hs
    · rename_i hc
      simp only [Option.some.injEq] at hs
      subst hs
      have hlen : tasks.length ≤ ts.length := by
        rw [← hsplit, List.length_append]
        omega
      have hch : doneChannel f tasks.length i = i := by
        apply doneChannel_own
        intro hf
        by_contra hne
        have := hlast i (by have := hc.2.1; omega)
        rw [hf] at this
        exact absurd this (by decide)
      refine ⟨fun j hj => ?_⟩
      simp only at hj ⊢
      rw [hch]
      rcases List.mem_cons.1 hj with h | h
      · rw [h]; exact List.mem_cons_self _ _
      · exact List.mem_cons_of_mem _ (hown j h)
    · exact absurd hs (by simp)
  | await =>
    cases status with
    | returned => simp [step] at hs
    | panicked => simp [step] at hs
    | running =>
      cases pending with
      | cons t rest => simp [step] at hs
      | nil =>
        cases hd : tasks.drop received with
        | nil => simp [step, hd] at hs
        | cons t rest =>
          simp only [step, hd] at hs
          split at hs
          · split at hs <;>
            · simp only [Option.some.injEq] at hs
              subst hs
              exact ⟨hown⟩
          · exact absurd hs (by simp)
  | ret =>
    cases status with
    | returned => simp [step] at hs
    | panicked => simp [step] at hs
    | running =>
      cases pending with
      | cons t rest => simp [step] at hs
      | nil =>
        cases hd : tasks.drop received with
        | cons t rest => simp [step, hd] at hs
        | nil =>
          simp only [step, hd, Option.some.injEq] at hs
          subst hs
          exact ⟨hown⟩

theorem exec_signals (p : SciProcess) (f : Nat → Bool) (ts : List SciTask)
    (hlast : ∀ i, i + 1 < ts.length → f i = false) (es : List Event) (s s1 : RunState)
    (hsplit : s.tasks ++ s.pending = ts) (hsig : RunSignals s)
    (hs : exec p f s es = some s1) : RunSignals s1 := by
  induction es generalizing s with
  | nil =>
    simp only [exec, Option.some.injEq] at hs
    subst hs
    exact hsig
  | cons e rest ih =>
    simp only [exec] at hs
    cases hstep : step p f s e with
    | none => rw [hstep] at hs; exact absurd hs (by simp)
    | some s2 =>
      rw [hstep] at hs
      exact ih s2 (step_split p f ts s s2 e hsplit hstep)
        (step_signals p f ts hlast s s2 e hsplit hsig hstep) hs

theorem run_never_stuck (p : SciProcess) (f : Nat → Bool) (ts : List SciTask)
    (hlast : ∀ i, i + 1 < ts.length → f i = false)
    (es : List Event) (s : RunState) (hs : exec p f (startRun ts) es = some s)
    (hrun : s.status = Status.running) : ∃ e s1, step p f s e = some s1 :=
  run_progress p f s (exec_stepsLeft p f es (startRun ts) s (startRun_bound ts) hs).1
    (exec_signals p f ts hlast es (startRun ts) s rfl
      ⟨fun _ h => absurd h (List.not_mem_nil _)⟩ hs) hrun

theorem createTasks_out_keys (p : SciProcess) (r : TaskStream)
    (hts : createTasks p = some r) (hfmt : ∀ k ∈ p.PathFormatters.keys, k ∈ p.Out.keys) :
    ∀ t ∈ r.tasks, ∀ k ∈ t.OutTargets.keys, k ∈ p.Out.keys :=
  createTasksLoop_forall p (fun t => ∀ k ∈ t.OutTargets.keys, k ∈ p.Out.keys)
    (fun ins prms t ht k hk => hfmt k ((taskOf_out_keys p ins prms t ht k).1 hk)) _ _ _ r hts

theorem createTasks_doStream (p : SciProcess) (r : TaskStream)
    (hts : createTasks p = some r) (x : Str) :
    ∀ t ∈ r.tasks, ∀ tg, t.OutTargets.get x = some tg →
      tg.doStream = (p.OutPortsDoStream.get x).getD false :=
  createTasksLoop_forall p
    (fun t => ∀ tg, t.OutTargets.get x = some tg →
      tg.doStream = (p.OutPortsDoStream.get x).getD false)
    (fun ins prms t ht tg h => taskOf_doStream p ins prms t ht x tg h) _ _ _ r hts

theorem sentOn_prefix (ts : List SciTask) (s : RunState) (hinv : RunInv ts s) (x : Str)
    (b : Bool) (hflag : ∀ t ∈ ts, ∀ tg, t.OutTargets.get x = some tg → tg.doStream = b) :
    ∃ k, sentOn x s.actions = targetsFor x (ts.take k) := by
  have htasks : s.tasks = ts.take s.tasks.length := by
    have h := hinv.split
    rw [← h, List.take_left']
    rfl
  have hsub : ∀ n, ∀ t ∈ ts.take n, ∀ tg, t.OutTargets.get x = some tg → tg.doStream = b :=
    fun n t ht => hflag t (List.mem_of_mem_take ht)
  have htake : s.tasks.take s.received = ts.take s.received := by
    rw [htasks, List.take_take, Nat.min_eq_left hinv.recv_le]
  rw [hinv.sends x, htake, htasks]
  cases b with
  | true =>
    have h1 := sends_of_uniform_flag x true _ (hsub s.tasks.length)
    have h2 := sends_of_uniform_flag x true _ (hsub s.received)
    simp only [Bool.not_true] at h1 h2
    rw [h1.1, h2.2, List.append_nil]
    exact ⟨_, rfl⟩
  | false =>
    have h1 := sends_of_uniform_flag x false _ (hsub s.tasks.length)
    have h2 := sends_of_uniform_flag x false _ (hsub s.received)
    simp only [Bool.not_false] at h1 h2
    rw [h1.2, h2.1, List.nil_append]
    exact ⟨_, rfl⟩

/-- C4, the counterexample: `strayProcess` has a path formatter for a name
that is no output port.  Its two tasks have one target each for the port
`out`; the second loop of `Run` panics at the first task on the send for
`stray`, and the target of the second task is never sent on `out`. -/
theorem run_stray_formatter_loses_targets :
    ∃ ts s, createTasks strayProcess = some ⟨ts, true⟩ ∧
      exec strayProcess (fun _ => false) (startRun ts)
        [Event.task, Event.task, Event.finish 0, Event.await] = some s ∧
      s.status = Status.panicked ∧
      sentOn "out".toList s.actions = [⟨"o.txt".toList, false⟩] ∧
      targetsFor "out".toList ts = [⟨"o.txt".toList, false⟩, ⟨"o.txt".toList, false⟩] ∧
      sentOn "out".toList s.actions ≠ targetsFor "out".toList ts := by
  refine ⟨_, _, rfl, rfl, ?_, ?_, ?_, ?_⟩
  · decide
  · decide
  · decide
  · decide

/-- C4, amended: for every process all of whose path formatters are named
after output ports and every sequence of tasks that `createTasks` produces
without a failing instantiation: in every run, whatever the order in which
the workers of the tasks send their signals, `Run` does not panic, takes at
most three steps per task and one more, the targets that it has sent so far
on an output port `x` are the targets `OutTargets[x]` of the first `k` tasks
for some `k`, in the order of their creation and each sent once (streaming
or not), and when it has ended they are those of all the tasks.  When no
FIFO pre-exists for any task but the last, `Run` can always take a step until
it has ended, and for every order of completion it does return. -/
theorem run_sends_in_creation_order (p : SciProcess) (anyFifosExist : Nat → Bool)
    (ts : List SciTask) (hts : createTasks p = some ⟨ts, true⟩)
    (hfmt : ∀ k ∈ p.PathFormatters.keys, k ∈ p.Out.keys) :
    (∀ es s, exec p anyFifosExist (startRun ts) es = some s →
      s.status ≠ Status.panicked ∧
      es.length ≤ 3 * ts.length + 1 ∧
      (∀ x, ∃ k, sentOn x s.actions = targetsFor x (ts.take k)) ∧
      (s.status ≠ Status.running → ∀ x, sentOn x s.actions = targetsFor x ts)) ∧
    ((∀ i, i + 1 < ts.length → anyFifosExist i = false) →
      (∀ es s, exec p anyFifosExist (startRun ts) es = some s →
        s.status = Status.running → ∃ e s1, step p anyFifosExist s e = some s1) ∧
      (∀ order : List Nat, order.Perm (List.range ts.length) →
        ∃ s, exec p anyFifosExist (startRun ts)
            (List.replicate ts.length Event.task ++ order.map Event.finish
              ++ List.replicate ts.length Event.await ++ [Event.ret]) = some s ∧
          s.status = Status.returned)) := by
  have hk := createTasks_out_keys p _ hts hfmt
  simp only at hk
  refine ⟨?_, fun hlast => ⟨fun es s hs hrun => run_never_stuck p anyFifosExist ts hlast es s hs hrun,
    fun order hperm => run_returns p anyFifosExist ts hk hlast order hperm⟩⟩
  intro es s hs
  have hinv := exec_inv p anyFifosExist ts hk es (startRun ts) s (startRun_inv ts) hs
  have hflag := fun x => createTasks_doStream p _ hts x
  simp only at hflag
  refine ⟨hinv.not_panicked, run_steps_bounded p anyFifosExist ts es s hs,
    fun x => sentOn_prefix ts s hinv x _ (hflag x), ?_⟩
  intro hend x
  have hret : s.status = Status.returned := by
    cases hst : s.status with
    | running => exact absurd hst hend
    | returned => rfl
    | panicked => exact absurd hst hinv.not_panicked
  obtain ⟨hp, hr⟩ := hinv.returned hret
  have htasks : s.tasks = ts := by
    have := hinv.split
    rw [hp, List.append_nil] at this
    exact this
  rw [hinv.sends x, hr, List.take_length, htasks]
  cases hb : (p.OutPortsDoStream.get x).getD false with
  | true =>
    have := sends_of_uniform_flag x true ts (hb ▸ hflag x)
    rw [this.1]
    simp only [Bool.not_true] at this
    rw [this.2, List.append_nil]
  | false =>
    have := sends_of_uniform_flag x false ts (hb ▸ hflag x)
    rw [this.1]
    simp only [Bool.not_false] at this
    rw [this.2, List.nil_append]

/-- C4, amended, at `copyProcess`, whose only path formatter is the one of
its output port `out` and which creates two tasks, when no FIFO
pre-exists. -/
theorem run_sends_in_creation_order_witness :
    ∃ ts, createTasks copyProcess = some ⟨ts, true⟩ ∧ ts.length = 2 ∧
    (∀ k ∈ copyProcess.PathFormatters.keys, k ∈ copyProcess.Out.keys) ∧
    (∀ i, i + 1 < ts.length → (fun _ => false : Nat → Bool) i = false) ∧
    (∀ es s, exec copyProcess (fun _ => false) (startRun ts) es = some s →
      s.status ≠ Status.panicked ∧
      es.length ≤ 3 * ts.length + 1 ∧
      (∀ x, ∃ k, sentOn x s.actions = targetsFor x (ts.take k)) ∧
      (s.status ≠ Status.running → ∀ x, sentOn x s.actions = targetsFor x ts)) ∧
    (∀ es s, exec copyProcess (fun _ => false) (startRun ts) es = some s →
      s.status = Status.running → ∃ e s1, step copyProcess (fun _ => false) s e = some s1) ∧
    (∀ order : List Nat, order.Perm (List.range ts.length) →
      ∃ s, exec copyProcess (fun _ => false) (startRun ts)
          (List.replicate ts.length Event.task ++ order.map Event.finish
            ++ List.replicate ts.length Event.await ++ [Event.ret]) = some s ∧
        s.status = Status.returned) :=
  ⟨_, rfl, rfl, by decide, fun _ _ => rfl,
    (run_sends_in_creation_order copyProcess (fun _ => false) _ rfl (by decide)).1,
    (run_sends_in_creation_order copyProcess (fun _ => false) _ rfl (by decide)).2
      (fun _ _ => rfl)⟩

/-! ## C5: a process without input and parameter ports -/

theorem run_one_task_ends (p : SciProcess) (f : Nat → Bool) (t : SciTask) :
    ∃ es s, exec p f (startRun [t]) es = some s ∧ s.status ≠ Status.running ∧
      s.tasks = [t] := by
  cases h1 : (sendTargets p.Out true 0 t.OutTargets.entries).2 with
  | false =>
    refine ⟨[Event.task], ?_⟩
    simp only [exec, step, startRun, List.length_nil, h1]
    exact ⟨_, rfl, by simp, by simp⟩
  | true =>
    have hch : doneChannel f 1 0 = 0 := by
      unfold doneChannel
      split <;> rfl
    cases h2 : (sendTargets p.Out false 0 t.OutTargets.entries).2 with
    | false =>
      refine ⟨[Event.task, Event.finish 0, Event.await], ?_⟩
      simp only [exec, step, startRun, List.length_nil, h1]
      simp [h2, hch]
    | true =>
      refine ⟨[Event.task, Event.finish 0, Event.await, Event.ret], ?_⟩
      simp only [exec, step, startRun, List.length_nil, h1]
      simp [h2, hch]

theorem createTasks_no_ports (p : SciProcess) (hin : p.In.entries = [])
    (hpar : p.ParamPorts.entries = []) :
    createTasks p =
      match taskOf p [] [] with
      | none => some ⟨[], false⟩
      | some t => some ⟨[t], true⟩ := by
  have h1 : inChans p = [] := by simp [inChans, hin]
  have h2 : paramChans p = [] := by simp [paramChans, hpar]
  have h3 : p.In.len = 0 := by simp [GoMap.len, hin]
  have h4 : p.ParamPorts.len = 0 := by simp [GoMap.len, hpar]
  unfold createTasks
  rw [h1, h2]
  simp only [pendingValues, List.map_nil, List.sum_nil, Nat.add_zero, Nat.zero_add]
  rw [createTasksLoop_succ]
  cases taskOf p [] [] <;> simp [allOpen_nil, h3, h4]

/-- C5, the counterexample: the process `echo foo > {o:foo}` of the test
`TestBasicRun`, before a path formatter is set for its output port, has no
input port and no parameter port.  The placeholder `{o:foo}` has no binding,
the instantiation of the task fails, and `createTasks` emits no task. -/
theorem no_ports_instantiation_fails :
    (NewFromShell "t1".toList "echo foo > {o:foo}".toList).In.entries = [] ∧
    (NewFromShell "t1".toList "echo foo > {o:foo}".toList).ParamPorts.entries = [] ∧
    createTasks (NewFromShell "t1".toList "echo foo > {o:foo}".toList) = some ⟨[], false⟩ := by
  refine ⟨by decide, by decide, rfl⟩

/-- C5, amended: a process whose `In` and `ParamPorts` maps are both empty has
`createTasks` try exactly one instantiation.  When it fails no task is
emitted.  When it succeeds `createTasks` emits exactly that one task and then
closes its task channel; `Run` never collects more than that one task, takes
at most four steps, can always take a step until it has ended, and has
exactly that task instantiated when it has ended; and it has a run that
ends. -/
theorem no_ports_one_task (p : SciProcess) (anyFifosExist : Nat → Bool)
    (hin : p.In.entries = []) (hpar : p.ParamPorts.entries = []) :
    (taskOf p [] [] = none → createTasks p = some ⟨[], false⟩) ∧
    (∀ t, taskOf p [] [] = some t →
      createTasks p = some ⟨[t], true⟩ ∧
      (∀ es s, exec p anyFifosExist (startRun [t]) es = some s →
        s.tasks.length ≤ 1 ∧ es.length ≤ 4 ∧
        (s.status = Status.running → ∃ e s1, step p anyFifosExist s e = some s1) ∧
        (s.status ≠ Status.running → s.tasks = [t])) ∧
      (∃ es s, exec p anyFifosExist (startRun [t]) es = some s ∧
        s.status ≠ Status.running ∧ s.tasks = [t])) := by
  have hc := createTasks_no_ports p hin hpar
  refine ⟨fun hn => by rw [hc, hn], fun t ht => ⟨by rw [hc, ht], ?_,
    run_one_task_ends p anyFifosExist t⟩⟩
  intro es s hs
  have hsplit := exec_split p anyFifosExist [t] es (startRun _) s rfl hs
  have hlen := congrArg List.length hsplit
  simp only [List.length_append, List.length_singleton] at hlen
  have hlast : ∀ i, i + 1 < [t].length → anyFifosExist i = false := by
    intro i hi
    simp only [List.length_singleton] at hi
    omega
  refine ⟨by omega, ?_, run_never_stuck p anyFifosExist _ hlast es s hs, ?_⟩
  · have := run_steps_bounded p anyFifosExist _ es s hs
    simpa using this
  · intro hend
    have hne := exec_ended_tasks p anyFifosExist [t] (by simp) es (startRun _) s
      rfl (fun h => absurd rfl h) hs hend
    cases hts : s.tasks with
    | nil => exact absurd hts hne
    | cons t' rest =>
      rw [hts] at hsplit
      simp only [List.cons_append, List.cons.injEq] at hsplit
      have hrest : rest = [] := by
        have := hsplit.2
        cases rest with
        | nil => rfl
        | cons a b => simp at this
      rw [hsplit.1, hrest]

/-- C5, amended, at the process of the test
`TestProcessWithoutInputsOutputs`, whose command has no placeholder: the
instantiation succeeds. -/
theorem no_ports_one_task_witness :
    (NewFromShell "tsk".toList "echo hej > /tmp/hej.txt".toList).In.entries = [] ∧
    (NewFromShell "tsk".toList "echo hej > /tmp/hej.txt".toList).ParamPorts.entries = [] ∧
    ∃ t, taskOf (NewFromShell "tsk".toList "echo hej > /tmp/hej.txt".toList) [] [] = some t ∧
      t.ResolvedCommand = "echo hej > /tmp/hej.txt".toList ∧
      createTasks (NewFromShell "tsk".toList "echo hej > /tmp/hej.txt".toList)
        = some ⟨[t], true⟩ ∧
      (∀ es s, exec (NewFromShell "tsk".toList "echo hej > /tmp/hej.txt".toList)
          (fun _ => false) (startRun [t]) es = some s →
        s.tasks.length ≤ 1 ∧ es.length ≤ 4 ∧
        (s.status = Status.running →
          ∃ e s1, step (NewFromShell "tsk".toList "echo hej > /tmp/hej.txt".toList)
            (fun _ => false) s e = some s1) ∧
        (s.status ≠ Status.running → s.tasks = [t])) ∧
      (∃ es s, exec (NewFromShell "tsk".toList "echo hej > /tmp/hej.txt".toList)
          (fun _ => false) (startRun [t]) es = some s ∧
        s.status ≠ Status.running ∧ s.tasks = [t]) :=
  ⟨by decide, by decide, _, rfl, by decide,
    (no_ports_one_task (NewFromShell "tsk".toList "echo hej > /tmp/hej.txt".toList)
      (fun _ => false) (by decide) (by decide)).2 _ rfl⟩

/-! ## The iterations of `createTasks` -/

theorem afterReceives_zero {V : Type} (l : List (Str × List V)) : afterReceives 0 l = l := by
  induction l with
  | nil => rfl
  | cons e rest ih =>
    simp only [afterReceives, List.map_cons, List.drop_zero] at ih ⊢
    rw [ih]

theorem afterReceives_succ {V : Type} (k : Nat) (l : List (Str × List V)) :
    afterReceives k (afterReceive l) = afterReceives (k + 1) l := by
  induction l with
  | nil => rfl
  | cons e rest ih =>
    simp only [afterReceives, afterReceive, List.map_cons, List.map_map] at ih ⊢
    rw [ih]
    congr 2
    rw [List.drop_tail]

theorem afterReceives_keys {V : Type} (k : Nat) (l : List (Str × List V)) :
    (afterReceives k l).map Prod.fst = l.map Prod.fst := by
  induction l with
  | nil => rfl
  | cons e rest ih =>
    simp only [afterReceives, List.map_cons] at ih ⊢
    rw [ih]

theorem createTasksLoop_nth (p : SciProcess) (fuel : Nat)
    (ins : List (Str × List FileTarget)) (prms : List (Str × List Str)) (r : TaskStream)
    (h : createTasksLoop p fuel ins prms = some r) (k : Nat) (t : SciTask)
    (hk : r.tasks[k]? = some t) :
    taskOf p (afterReceives k ins) (afterReceives k prms) = some t := by
  induction fuel generalizing ins prms r k with
  | zero => simp [createTasksLoop] at h
  | succ fuel ih =>
    rcases createTasksLoop_cases p fuel ins prms with h0 | ⟨-, h0⟩ | ⟨t', ht, -, -, h0⟩ |
      ⟨t', ht, -, -, -, -, h0⟩
    · rw [h0] at h; cases h; simp at hk
    · rw [h0] at h; cases h; simp at hk
    · rw [h0] at h
      cases h
      cases k with
      | zero =>
        simp only [List.getElem?_cons_zero, Option.some.injEq] at hk
        rw [afterReceives_zero, afterReceives_zero, ht, hk]
      | succ k => simp at hk
    · rw [h0] at h
      cases hrec : createTasksLoop p fuel (afterReceive ins) (afterReceive prms) with
      | none => rw [hrec] at h; simp at h
      | some r' =>
        rw [hrec] at h
        simp only [Option.map_some', Option.some.injEq] at h
        subst h
        cases k with
        | zero =>
          simp only [List.getElem?_cons_zero, Option.some.injEq] at hk
          rw [afterReceives_zero, afterReceives_zero, ht, hk]
        | succ k =>
          simp only [List.getElem?_cons_succ] at hk
          have := ih _ _ _ hrec k hk
          rw [afterReceives_succ, afterReceives_succ] at this
          exact this

theorem len_eq_zero_iff {V W : Type} (m : GoMap V) (l : List (Str × List W))
    (h : l.length = m.len) : (m.len == 0) = true ↔ l = [] := by
  rw [beq_iff_eq, ← h]
  exact List.length_eq_zero

theorem receiveAll_get_nth {V : Type} (l : List (Str × List V))
    (hnd : (l.map Prod.fst).Nodup) (k : Nat) (x : Str) (ch : List V) (hx : (x, ch) ∈ l)
    (hk : k < ch.length) :
    (receiveAll (afterReceives k l) GoMap.empty true).1.get x = ch[k]? := by
  have hmem : (x, ch.drop k) ∈ afterReceives k l := by
    unfold afterReceives
    rw [List.mem_map]
    exact ⟨(x, ch), hx, rfl⟩
  have hd : ch.drop k = ch[k] :: ch.drop (k + 1) := List.drop_eq_getElem_cons hk
  rw [hd] at hmem
  rw [receiveAll_get (afterReceives k l) (by rw [afterReceives_keys]; exact hnd) _ _ x _ _ hmem,
    List.getElem?_eq_getElem hk]

theorem inChans_keys (p : SciProcess) : (inChans p).map Prod.fst = p.In.keys := by
  unfold inChans GoMap.keys
  induction p.In.entries with
  | nil => rfl
  | cons e rest ih => simp only [List.map_cons, ih]

theorem paramChans_keys (p : SciProcess) : (paramChans p).map Prod.fst = p.ParamPorts.keys := by
  unfold paramChans GoMap.keys
  induction p.ParamPorts.entries with
  | nil => rfl
  | cons e rest ih => simp only [List.map_cons, ih]

theorem minPending_cons_cons {V : Type} (e e' : Str × List V) (rest : List (Str × List V)) :
    minPending (e :: e' :: rest) = min e.2.length (minPending (e' :: rest)) := rfl

theorem minPending_afterReceive {V : Type} (l : List (Str × List V)) :
    minPending (afterReceive l) = minPending l - 1 := by
  induction l with
  | nil => rfl
  | cons e rest ih =>
    cases rest with
    | nil => simp [afterReceive, minPending]
    | cons e' rest' =>
      have h1 : afterReceive (e :: e' :: rest') =
          (e.1, e.2.tail) :: afterReceive (e' :: rest') := rfl
      have h2 : afterReceive (e' :: rest') = (e'.1, e'.2.tail) :: afterReceive rest' := rfl
      rw [h1]
      rw [h2] at ih ⊢
      rw [minPending_cons_cons, ih, minPending_cons_cons]
      simp only [List.length_tail]
      omega

theorem allOpen_iff_minPending {V : Type} (l : List (Str × List V)) (hne : l ≠ []) :
    allOpen l = true ↔ 0 < minPending l := by
  induction l with
  | nil => exact absurd rfl hne
  | cons e rest ih =>
    cases rest with
    | nil =>
      simp only [allOpen, List.all_cons, List.all_nil, Bool.and_true, Bool.not_eq_true',
        List.isEmpty_eq_false, minPending]
      exact List.length_pos.symm
    | cons e' rest' =>
      have ih' := ih (by simp)
      rw [minPending_cons_cons]
      have hs : allOpen (e :: e' :: rest') = (!e.2.isEmpty && allOpen (e' :: rest')) := rfl
      rw [hs, Bool.and_eq_true, ih']
      simp only [Bool.not_eq_true', List.isEmpty_eq_false]
      rw [← List.length_pos]
      omega

theorem keys_of_allOpen {V : Type} (l : List (Str × List V)) (h : allOpen l = true) (x : Str)
    (hx : x ∈ l.map Prod.fst) : x ∈ (receiveAll l GoMap.empty true).1.keys := by
  rw [receiveAll_keys]
  right
  rw [List.mem_map] at hx
  obtain ⟨e, he, rfl⟩ := hx
  refine ⟨e, he, rfl, ?_⟩
  unfold allOpen at h
  rw [List.all_eq_true] at h
  have := h e he
  intro hc
  rw [hc] at this
  simp at this

theorem afterReceive_eq_nil_iff {V : Type} (l : List (Str × List V)) :
    afterReceive l = [] ↔ l = [] := by
  cases l with
  | nil => exact ⟨fun _ => rfl, fun _ => rfl⟩
  | cons e rest => simp [afterReceive]

theorem allOpen_eq_false_iff {V : Type} (l : List (Str × List V)) (hne : l ≠ []) :
    allOpen l = false ↔ minPending l = 0 := by
  have := allOpen_iff_minPending l hne
  cases h : allOpen l with
  | true =>
    have := this.1 h
    constructor
    · intro hc; exact absurd hc (by decide)
    · intro hc; omega
  | false =>
    constructor
    · intro _
      by_contra hc
      have := this.2 (Nat.pos_of_ne_zero hc)
      rw [h] at this
      exact absurd this (by decide)
    · intro _; rfl

theorem taskCount_afterReceive (ins : List (Str × List FileTarget))
    (prms : List (Str × List Str)) (hne : ins ≠ [] ∨ prms ≠ [])
    (hopen : (ins ≠ [] ∧ allOpen ins = true) ∨ (prms ≠ [] ∧ allOpen prms = true)) :
    taskCount (afterReceive ins) (afterReceive prms) + 1 = taskCount ins prms := by
  have mi := minPending_afterReceive ins
  have mp := minPending_afterReceive prms
  cases ins with
  | nil =>
    cases prms with
    | nil => rcases hne with h | h <;> exact absurd rfl h
    | cons e rest =>
      have hpo : allOpen (e :: rest) = true := by
        rcases hopen with ⟨h, -⟩ | ⟨-, h⟩
        · exact absurd rfl h
        · exact h
      have := (allOpen_iff_minPending (e :: rest) (by simp)).1 hpo
      show minPending (afterReceive (e :: rest)) + 1 = minPending (e :: rest)
      omega
  | cons d rest' =>
    cases prms with
    | nil =>
      have hio : allOpen (d :: rest') = true := by
        rcases hopen with ⟨-, h⟩ | ⟨h, -⟩
        · exact h
        · exact absurd rfl h
      have := (allOpen_iff_minPending (d :: rest') (by simp)).1 hio
      show minPending (afterReceive (d :: rest')) + 1 = minPending (d :: rest')
      omega
    | cons e rest =>
      show max (minPending (afterReceive (d :: rest'))) (minPending (afterReceive (e :: rest))) + 1
        = max (minPending (d :: rest')) (minPending (e :: rest))
      rcases hopen with ⟨-, h⟩ | ⟨-, h⟩
      · have := (allOpen_iff_minPending (d :: rest') (by simp)).1 h
        omega
      · have := (allOpen_iff_minPending (e :: rest) (by simp)).1 h
        omega

theorem minPending_le {V : Type} (l : List (Str × List V)) :
    ∀ e ∈ l, minPending l ≤ e.2.length := by
  induction l with
  | nil => intro e he; exact absurd he (List.not_mem_nil _)
  | cons d rest ih =>
    intro e he
    cases rest with
    | nil =>
      rcases List.mem_cons.1 he with h | h
      · rw [h]; exact Nat.le_refl _
      · exact absurd h (List.not_mem_nil _)
    | cons d' rest' =>
      rw [minPending_cons_cons]
      rcases List.mem_cons.1 he with h | h
      · rw [h]; exact Nat.min_le_left _ _
      · exact Nat.le_trans (Nat.min_le_right _ _) (ih e h)

theorem minPending_attained {V : Type} (l : List (Str × List V)) (hne : l ≠ []) :
    ∃ e ∈ l, e.2.length = minPending l := by
  induction l with
  | nil => exact absurd rfl hne
  | cons d rest ih =>
    cases rest with
    | nil => exact ⟨d, List.mem_cons_self _ _, rfl⟩
    | cons d' rest' =>
      rw [minPending_cons_cons]
      obtain ⟨e, he, hlen⟩ := ih (by simp)
      by_cases hle : d.2.length ≤ minPending (d' :: rest')
      · exact ⟨d, List.mem_cons_self _ _, by rw [Nat.min_eq_left hle]⟩
      · exact ⟨e, List.mem_cons_of_mem _ he, by
          rw [Nat.min_eq_right (by omega)]; exact hlen⟩

theorem inChans_eq_nil_iff (p : SciProcess) : inChans p = [] ↔ p.In.entries = [] := by
  unfold inChans
  exact List.map_eq_nil_iff

theorem paramChans_eq_nil_iff (p : SciProcess) :
    paramChans p = [] ↔ p.ParamPorts.entries = [] := by
  unfold paramChans
  exact List.map_eq_nil_iff

theorem no_break_open (p : SciProcess) (ins : List (Str × List FileTarget))
    (prms : List (Str × List Str)) (hin : ins.length = p.In.len)
    (hpr : prms.length = p.ParamPorts.len)
    (h1 : ¬ (!allOpen ins && !allOpen prms) = true)
    (h2 : ¬ (p.In.len == 0 && !allOpen prms) = true)
    (h3 : ¬ (p.ParamPorts.len == 0 && !allOpen ins) = true)
    (h4 : ¬ (p.In.len == 0 && p.ParamPorts.len == 0) = true) :
    (ins ≠ [] ∨ prms ≠ []) ∧
      ((ins ≠ [] ∧ allOpen ins = true) ∨ (prms ≠ [] ∧ allOpen prms = true)) := by
  have hI := len_eq_zero_iff p.In ins hin
  have hP := len_eq_zero_iff p.ParamPorts prms hpr
  rw [Bool.and_eq_true, not_and] at h1 h2 h3 h4
  constructor
  · by_cases hie : ins = []
    · right
      intro hpe
      exact h4 (hI.2 hie) (hP.2 hpe)
    · exact Or.inl hie
  · by_cases hie : ins = []
    · have hpo : allOpen prms = true := by
        have := h2 (hI.2 hie)
        simpa using this
      have hpe : prms ≠ [] := by
        intro hpe
        exact h4 (hI.2 hie) (hP.2 hpe)
      exact Or.inr ⟨hpe, hpo⟩
    · by_cases hio : allOpen ins = true
      · exact Or.inl ⟨hie, hio⟩
      · have hio' : allOpen ins = false := by simpa using hio
        have hpo : allOpen prms = true := by
          have := h1 (by rw [hio']; rfl)
          simpa using this
        have hpe : prms ≠ [] := by
          intro hpe
          have := h3 (hP.2 hpe)
          rw [hio'] at this
          exact absurd this (by decide)
        exact Or.inr ⟨hpe, hpo⟩

theorem taskCount_of_break (p : SciProcess) (ins : List (Str × List FileTarget))
    (prms : List (Str × List Str)) (hin : ins.length = p.In.len)
    (hpr : prms.length = p.ParamPorts.len)
    (h : (!allOpen ins && !allOpen prms) = true ∨ (p.In.len == 0 && !allOpen prms) = true ∨
      (p.ParamPorts.len == 0 && !allOpen ins) = true) :
    taskCount ins prms = 0 := by
  have hI := len_eq_zero_iff p.In ins hin
  have hP := len_eq_zero_iff p.ParamPorts prms hpr
  rcases h with h1 | h2 | h3
  · simp only [Bool.and_eq_true, Bool.not_eq_true'] at h1
    have hie : ins ≠ [] := by
      intro hc; rw [hc] at h1; exact absurd h1.1 (by decide)
    have hpe : prms ≠ [] := by
      intro hc; rw [hc] at h1; exact absurd h1.2 (by decide)
    have a0 := (allOpen_eq_false_iff ins hie).1 h1.1
    have b0 := (allOpen_eq_false_iff prms hpe).1 h1.2
    cases ins with
    | nil => exact absurd rfl hie
    | cons d rest' =>
      cases prms with
      | nil => exact absurd rfl hpe
      | cons e rest =>
        show max (minPending (d :: rest')) (minPending (e :: rest)) = 0
        omega
  · rw [Bool.and_eq_true] at h2
    have hie : ins = [] := hI.1 h2.1
    have hpc : allOpen prms = false := by simpa using h2.2
    have hpe : prms ≠ [] := by
      intro hc; rw [hc] at hpc; exact absurd hpc (by decide)
    have b0 := (allOpen_eq_false_iff prms hpe).1 hpc
    subst hie
    cases prms with
    | nil => exact absurd rfl hpe
    | cons e rest =>
      show minPending (e :: rest) = 0
      omega
  · rw [Bool.and_eq_true] at h3
    have hpe : prms = [] := hP.1 h3.1
    have hic : allOpen ins = false := by simpa using h3.2
    have hie : ins ≠ [] := by
      intro hc; rw [hc] at hic; exact absurd hic (by decide)
    have a0 := (allOpen_eq_false_iff ins hie).1 hic
    subst hpe
    cases ins with
    | nil => exact absurd rfl hie
    | cons d rest' =>
      show minPending (d :: rest') = 0
      omega

theorem taskCount_of_no_break (p : SciProcess) (ins : List (Str × List FileTarget))
    (prms : List (Str × List Str)) (hin : ins.length = p.In.len)
    (hpr : prms.length = p.ParamPorts.len)
    (h1 : ¬ (!allOpen ins && !allOpen prms) = true)
    (h2 : ¬ (p.In.len == 0 && !allOpen prms) = true)
    (h3 : ¬ (p.ParamPorts.len == 0 && !allOpen ins) = true) :
    ((p.In.len == 0 && p.ParamPorts.len == 0) = true → taskCount ins prms = 1) ∧
    (¬ (p.In.len == 0 && p.ParamPorts.len == 0) = true →
      taskCount (afterReceive ins) (afterReceive prms) + 1 = taskCount ins prms) := by
  have hI := len_eq_zero_iff p.In ins hin
  have hP := len_eq_zero_iff p.ParamPorts prms hpr
  constructor
  · intro h4
    rw [Bool.and_eq_true] at h4
    rw [hI.1 h4.1, hP.1 h4.2]
    rfl
  · intro h4
    obtain ⟨hne, hopen⟩ := no_break_open p ins prms hin hpr h1 h2 h3 h4
    exact taskCount_afterReceive ins prms hne hopen

/-- The shape of what `createTasks` does: it emits one task for every
iteration that comes to the instantiation, up to the first instantiation that
fails. -/
theorem createTasksLoop_shape (p : SciProcess) (fuel : Nat)
    (ins : List (Str × List FileTarget)) (prms : List (Str × List Str)) (r : TaskStream)
    (h : createTasksLoop p fuel ins prms = some r)
    (hin : ins.length = p.In.len) (hpr : prms.length = p.ParamPorts.len) :
    (r.closed = true → r.tasks.length = taskCount ins prms) ∧
    (r.closed = false → r.tasks.length < taskCount ins prms ∧
      taskOf p (afterReceives r.tasks.length ins) (afterReceives r.tasks.length prms) = none) := by
  induction fuel generalizing ins prms r with
  | zero => simp [createTasksLoop] at h
  | succ fuel ih =>
    rw [createTasksLoop_succ] at h
    by_cases h1 : (!allOpen ins && !allOpen prms) = true
    · rw [if_pos h1] at h
      cases h
      exact ⟨fun _ => (taskCount_of_break p ins prms hin hpr (Or.inl h1)).symm,
        fun hc => absurd hc (by decide)⟩
    · rw [if_neg h1] at h
      by_cases h2 : (p.In.len == 0 && !allOpen prms) = true
      · rw [if_pos h2] at h
        cases h
        exact ⟨fun _ => (taskCount_of_break p ins prms hin hpr (Or.inr (Or.inl h2))).symm,
          fun hc => absurd hc (by decide)⟩
      · rw [if_neg h2] at h
        by_cases h3 : (p.ParamPorts.len == 0 && !allOpen ins) = true
        · rw [if_pos h3] at h
          cases h
          exact ⟨fun _ => (taskCount_of_break p ins prms hin hpr (Or.inr (Or.inr h3))).symm,
            fun hc => absurd hc (by decide)⟩
        · rw [if_neg h3] at h
          obtain ⟨hone, hmore⟩ := taskCount_of_no_break p ins prms hin hpr h1 h2 h3
          have hpos : 0 < taskCount ins prms := by
            by_cases h4 : (p.In.len == 0 && p.ParamPorts.len == 0) = true
            · rw [hone h4]; exact Nat.one_pos
            · rw [← hmore h4]; exact Nat.succ_pos _
          cases ht : taskOf p ins prms with
          | none =>
            rw [ht] at h
            cases h
            refine ⟨fun hc => absurd hc (by decide), fun _ => ⟨hpos, ?_⟩⟩
            show taskOf p (afterReceives 0 ins) (afterReceives 0 prms) = none
            rw [afterReceives_zero, afterReceives_zero, ht]
          | some t =>
            rw [ht] at h
            simp only [] at h
            by_cases h4 : (p.In.len == 0 && p.ParamPorts.len == 0) = true
            · rw [if_pos h4] at h
              cases h
              exact ⟨fun _ => (hone h4).symm, fun hc => Bool.noConfusion hc⟩
            · rw [if_neg h4] at h
              cases hrec : createTasksLoop p fuel (afterReceive ins) (afterReceive prms) with
              | none => rw [hrec] at h; simp at h
              | some r' =>
                rw [hrec] at h
                simp only [Option.map_some', Option.some.injEq] at h
                subst h
                obtain ⟨ih1, ih2⟩ := ih _ _ _ hrec (by rw [afterReceive_length]; exact hin)
                  (by rw [afterReceive_length]; exact hpr)
                have hm := hmore h4
                refine ⟨fun hc => ?_, fun hc => ?_⟩
                · have := ih1 hc
                  simp only [List.length_cons]
                  omega
                · obtain ⟨hlt, hnone⟩ := ih2 hc
                  simp only [List.length_cons]
                  refine ⟨by omega, ?_⟩
                  rw [← afterReceives_succ, ← afterReceives_succ]
                  exact hnone

theorem createTasks_shape (p : SciProcess) :
    ∃ r, createTasks p = some r ∧
      r.tasks.length ≤ taskCount (inChans p) (paramChans p) ∧
      (r.closed = true ↔ r.tasks.length = taskCount (inChans p) (paramChans p)) ∧
      (r.closed = false →
        taskOf p (afterReceives r.tasks.length (inChans p))
          (afterReceives r.tasks.length (paramChans p)) = none) ∧
      ((∀ k, k < taskCount (inChans p) (paramChans p) →
          (taskOf p (afterReceives k (inChans p)) (afterReceives k (paramChans p))).isSome
            = true) →
        r.tasks.length = taskCount (inChans p) (paramChans p) ∧ r.closed = true) ∧
      (∀ (k : Nat) (t : SciTask), r.tasks[k]? = some t →
        taskOf p (afterReceives k (inChans p)) (afterReceives k (paramChans p)) = some t) := by
  obtain ⟨r, hr, -, -⟩ := createTasks_result p
  obtain ⟨s1, s2⟩ := createTasksLoop_shape p _ _ _ r hr (inChans_length p) (paramChans_length p)
  have hle : r.tasks.length ≤ taskCount (inChans p) (paramChans p) := by
    cases hc : r.closed with
    | true => exact Nat.le_of_eq (s1 hc)
    | false => exact Nat.le_of_lt (s2 hc).1
  have hiff : r.closed = true ↔ r.tasks.length = taskCount (inChans p) (paramChans p) := by
    constructor
    · exact s1
    · intro hl
      cases hc : r.closed with
      | true => rfl
      | false =>
        have := (s2 hc).1
        omega
  refine ⟨r, hr, hle, hiff, fun hc => (s2 hc).2, ?_,
    fun k t hk => createTasksLoop_nth p _ _ _ r hr k t hk⟩
  intro hall
  cases hc : r.closed with
  | true => exact ⟨s1 hc, rfl⟩
  | false =>
    obtain ⟨hlt, hnone⟩ := s2 hc
    have := hall _ hlt
    rw [hnone] at this
    exact absurd this (by decide)

theorem minPending_uniform {V : Type} (l : List (Str × List V)) (hne : l ≠ []) (n : Nat)
    (h : ∀ e ∈ l, e.2.length = n) : minPending l = n := by
  obtain ⟨e, he, hl⟩ := minPending_attained l hne
  rw [← hl]
  exact h e he

theorem taskCount_uniform (ins : List (Str × List FileTarget)) (prms : List (Str × List Str))
    (hports : ins ≠ [] ∨ prms ≠ []) (n : Nat) (hi : ∀ e ∈ ins, e.2.length = n)
    (hp : ∀ e ∈ prms, e.2.length = n) : taskCount ins prms = n := by
  cases ins with
  | nil =>
    cases prms with
    | nil => rcases hports with h | h <;> exact absurd rfl h
    | cons e rest => exact minPending_uniform (e :: rest) (by simp) n hp
  | cons d rest' =>
    cases prms with
    | nil => exact minPending_uniform (d :: rest') (by simp) n hi
    | cons e rest =>
      show max (minPending (d :: rest')) (minPending (e :: rest)) = n
      rw [minPending_uniform (d :: rest') (by simp) n hi,
        minPending_uniform (e :: rest) (by simp) n hp]
      exact Nat.max_self n

theorem createTasksLoop_resolved (p : SciProcess) (fuel : Nat)
    (ins : List (Str × List FileTarget)) (prms : List (Str × List Str)) (r : TaskStream)
    (h : createTasksLoop p fuel ins prms = some r)
    (hin : ins.length = p.In.len) (hpr : prms.length = p.ParamPorts.len)
    (hbal : ins = [] ∨ prms = [] ∨ minPending ins = minPending prms) :
    ∀ t ∈ r.tasks, (∀ x ∈ ins.map Prod.fst, x ∈ t.InTargets.keys) ∧
      (∀ x ∈ prms.map Prod.fst, x ∈ t.Params.keys) := by
  induction fuel generalizing ins prms r with
  | zero => simp [createTasksLoop] at h
  | succ fuel ih =>
    have hI := len_eq_zero_iff p.In ins hin
    have hP := len_eq_zero_iff p.ParamPorts prms hpr
    rcases createTasksLoop_cases p fuel ins prms with h0 | ⟨-, h0⟩ | ⟨t, ht, z1, z2, h0⟩ |
      ⟨t, ht, h1, h2, h3, h4, h0⟩
    · rw [h0] at h; cases h; simp
    · rw [h0] at h; cases h; simp
    · rw [h0] at h
      cases h
      have hie : ins = [] := hI.1 (beq_iff_eq.2 z1)
      have hpe : prms = [] := hP.1 (beq_iff_eq.2 z2)
      subst hie
      subst hpe
      intro t' _
      exact ⟨fun x hx => absurd hx (List.not_mem_nil _),
        fun x hx => absurd hx (List.not_mem_nil _)⟩
    · rw [h0] at h
      have hopen : allOpen ins = true ∧ allOpen prms = true := by
        rw [Bool.and_eq_true, not_and] at h1 h2 h3
        rcases hbal with hb | hb | hb
        · have hio : allOpen ins = true := by rw [hb]; rfl
          refine ⟨hio, ?_⟩
          have := h2 (hI.2 hb)
          simpa using this
        · have hpo : allOpen prms = true := by rw [hb]; rfl
          refine ⟨?_, hpo⟩
          have := h3 (hP.2 hb)
          simpa using this
        · by_cases hie : ins = []
          · have hio : allOpen ins = true := by rw [hie]; rfl
            refine ⟨hio, ?_⟩
            have := h2 (hI.2 hie)
            simpa using this
          · by_cases hpe : prms = []
            · have hpo : allOpen prms = true := by rw [hpe]; rfl
              refine ⟨?_, hpo⟩
              have := h3 (hP.2 hpe)
              simpa using this
            · have e1 := allOpen_iff_minPending ins hie
              have e2 := allOpen_iff_minPending prms hpe
              rw [hb] at e1
              have heq : allOpen ins = true ↔ allOpen prms = true := e1.trans e2.symm
              cases hio : allOpen ins with
              | true => exact ⟨rfl, heq.1 hio⟩
              | false =>
                have := h1 (by rw [hio]; rfl)
                have hpo : allOpen prms = true := by simpa using this
                have := heq.2 hpo
                rw [hio] at this
                exact absurd this (by decide)
      have hfull : (∀ x ∈ ins.map Prod.fst, x ∈ t.InTargets.keys) ∧
          (∀ x ∈ prms.map Prod.fst, x ∈ t.Params.keys) := by
        obtain ⟨f1, f2, -⟩ := taskOf_fields p ins prms t ht
        rw [f1, f2]
        exact ⟨fun x hx => keys_of_allOpen ins hopen.1 x hx,
          fun x hx => keys_of_allOpen prms hopen.2 x hx⟩
      cases hrec : createTasksLoop p fuel (afterReceive ins) (afterReceive prms) with
      | none => rw [hrec] at h; simp at h
      | some r' =>
        rw [hrec] at h
        simp only [Option.map_some', Option.some.injEq] at h
        subst h
        have hbal' : afterReceive ins = [] ∨ afterReceive prms = [] ∨
            minPending (afterReceive ins) = minPending (afterReceive prms) := by
          rcases hbal with hb | hb | hb
          · left; rw [hb]; rfl
          · right; left; rw [hb]; rfl
          · right; right
            rw [minPending_afterReceive, minPending_afterReceive, hb]
        have := ih _ _ _ hrec (by rw [afterReceive_length]; exact hin)
          (by rw [afterReceive_length]; exact hpr) hbal'
        rw [afterReceive_keys, afterReceive_keys] at this
        intro t' ht'
        rcases List.mem_cons.1 ht' with h' | h'
        · rw [h']; exact hfull
        · exact this t' h'

/-! ## C6: one task per iteration, values zipped across the ports -/

/-- C6, the counterexample: `unformattedProcess` has the input port `in`,
which delivers one target, and the output port `out`, for which no path
formatter is set.  The instantiation of the first task fails and
`createTasks` emits no task, not one. -/
theorem createTasks_unformatted_emits_nothing :
    unformattedProcess.In.entries ≠ [] ∧
    (∀ e ∈ unformattedProcess.In.entries, e.2.Chan.length = 1) ∧
    (∀ e ∈ unformattedProcess.ParamPorts.entries, e.2.Chan.length = 1) ∧
    createTasks unformattedProcess = some ⟨[], false⟩ := by
  refine ⟨by decide, by decide, by decide, rfl⟩

/-- C6, amended: for a process with at least one input or parameter port,
when each of its input and parameter ports delivers exactly `N` values and is
then closed, `createTasks` emits one task for every iteration up to the
first one whose instantiation fails, at most `N` tasks; it emits exactly `N`
tasks, and closes its task channel, exactly when no instantiation fails; and
the `k`-th task that it emits is the one instantiated by the `k`-th
iteration, which binds each input port name to the `k`-th target received on
that port and each parameter name to the `k`-th string received on that
parameter port. -/
theorem createTasks_zips_equal_streams (p : SciProcess) (N : Nat)
    (hports : p.In.entries ≠ [] ∨ p.ParamPorts.entries ≠ [])
    (hin : ∀ e ∈ p.In.entries, e.2.Chan.length = N)
    (hpar : ∀ e ∈ p.ParamPorts.entries, e.2.Chan.length = N) :
    ∃ r, createTasks p = some r ∧ r.tasks.length ≤ N ∧
      (r.closed = true ↔ r.tasks.length = N) ∧
      (r.closed = false →
        taskOf p (afterReceives r.tasks.length (inChans p))
          (afterReceives r.tasks.length (paramChans p)) = none) ∧
      ((∀ k, k < N →
          (taskOf p (afterReceives k (inChans p)) (afterReceives k (paramChans p))).isSome
            = true) →
        r.tasks.length = N ∧ r.closed = true) ∧
      ∀ (k : Nat) (t : SciTask), r.tasks[k]? = some t →
        taskOf p (afterReceives k (inChans p)) (afterReceives k (paramChans p)) = some t ∧
        (∀ e ∈ p.In.entries, t.InTargets.get e.1 = e.2.Chan[k]?) ∧
        (∀ e ∈ p.ParamPorts.entries, t.Params.get e.1 = e.2.Chan[k]?) := by
  have hi : ∀ e ∈ inChans p, e.2.length = N := by
    intro e he
    unfold inChans at he
    rw [List.mem_map] at he
    obtain ⟨e0, he0, rfl⟩ := he
    exact hin e0 he0
  have hp : ∀ e ∈ paramChans p, e.2.length = N := by
    intro e he
    unfold paramChans at he
    rw [List.mem_map] at he
    obtain ⟨e0, he0, rfl⟩ := he
    exact hpar e0 he0
  have hports' : inChans p ≠ [] ∨ paramChans p ≠ [] := by
    rcases hports with h | h
    · exact Or.inl (fun hc => h ((inChans_eq_nil_iff p).1 hc))
    · exact Or.inr (fun hc => h ((paramChans_eq_nil_iff p).1 hc))
  have hN := taskCount_uniform (inChans p) (paramChans p) hports' N hi hp
  obtain ⟨r, hr, hle, hiff, hfail, hall, hnth⟩ := createTasks_shape p
  rw [hN] at hle hiff hall
  refine ⟨r, hr, hle, hiff, hfail, hall, ?_⟩
  intro k t hk
  have hkN : k < N := by
    have : k < r.tasks.length := by
      by_contra hc
      rw [List.getElem?_eq_none (by omega)] at hk
      exact absurd hk (by simp)
    omega
  have ht := hnth k t hk
  obtain ⟨hIn, hPa, -⟩ := taskOf_fields p (afterReceives k (inChans p))
    (afterReceives k (paramChans p)) t ht
  refine ⟨ht, ?_, ?_⟩
  · intro e he
    rw [hIn]
    unfold receiveInputs
    refine receiveAll_get_nth (inChans p) (by rw [inChans_keys]; exact p.In.nodup) k e.1
      e.2.Chan ?_ (by rw [hin e he]; exact hkN)
    unfold inChans
    rw [List.mem_map]
    exact ⟨e, he, rfl⟩
  · intro e he
    rw [hPa]
    unfold receiveParams
    refine receiveAll_get_nth (paramChans p) (by rw [paramChans_keys]; exact p.ParamPorts.nodup)
      k e.1 e.2.Chan ?_ (by rw [hpar e he]; exact hkN)
    unfold paramChans
    rw [List.mem_map]
    exact ⟨e, he, rfl⟩

/-- C6, amended, at `zipProcess`, whose two input ports and one parameter
port deliver two values each and whose output port has a path formatter:
both instantiations succeed, two tasks are emitted, and the `k`-th task has
the `k`-th value of each of the three ports. -/
theorem createTasks_zips_equal_streams_witness :
    ∃ r, createTasks zipProcess = some r ∧ r.tasks.length = 2 ∧ r.closed = true ∧
      ∀ (k : Nat) (t : SciTask), r.tasks[k]? = some t →
        taskOf zipProcess (afterReceives k (inChans zipProcess))
          (afterReceives k (paramChans zipProcess)) = some t ∧
        (∀ e ∈ zipProcess.In.entries, t.InTargets.get e.1 = e.2.Chan[k]?) ∧
        (∀ e ∈ zipProcess.ParamPorts.entries, t.Params.get e.1 = e.2.Chan[k]?) :=
  let ⟨r, hr, _, _, _, hall, hzip⟩ :=
    createTasks_zips_equal_streams zipProcess 2 (by decide) (by decide) (by decide)
  ⟨r, hr, (hall (by decide)).1, (hall (by decide)).2, hzip⟩

/-! ## C7: tasks with all inputs and parameters resolved -/

/-- C7, the counterexample: `unevenProcess` gets two targets on its input
port `a` and one string on its parameter port `p`.  The second iteration
finds `p` closed and `a` open, so no break fires, and the second task is
emitted without an entry for `p` in its `Params`. -/
theorem createTasks_emits_unresolved_task :
    ∃ ts t, createTasks unevenProcess = some ⟨ts, true⟩ ∧ ts[1]? = some t ∧
      "p".toList ∈ unevenProcess.ParamPorts.keys ∧ "p".toList ∉ t.Params.keys := by
  refine ⟨_, _, rfl, rfl, ?_, ?_⟩
  · decide
  · decide

/-- C7, amended: when the process has no input ports, or no parameter ports,
or its shortest input channel and its shortest parameter channel deliver the
same number of values, every task that `createTasks` emits has an entry in
`InTargets` for every port name in `In` and an entry in `Params` for every
name in `ParamPorts`. -/
theorem createTasks_tasks_resolved (p : SciProcess)
    (hbal : p.In.entries = [] ∨ p.ParamPorts.entries = [] ∨
      minPending (inChans p) = minPending (paramChans p)) :
    ∃ r, createTasks p = some r ∧
      ∀ t ∈ r.tasks, (∀ x ∈ p.In.keys, x ∈ t.InTargets.keys) ∧
        (∀ x ∈ p.ParamPorts.keys, x ∈ t.Params.keys) := by
  obtain ⟨r, hr, -, -⟩ := createTasks_result p
  refine ⟨r, hr, ?_⟩
  have hbal' : inChans p = [] ∨ paramChans p = [] ∨
      minPending (inChans p) = minPending (paramChans p) := by
    rcases hbal with hb | hb | hb
    · left; unfold inChans; rw [hb]; rfl
    · right; left; unfold paramChans; rw [hb]; rfl
    · right; right; exact hb
  have := createTasksLoop_resolved p _ _ _ r hr (inChans_length p) (paramChans_length p) hbal'
  rw [inChans_keys, paramChans_keys] at this
  exact this

/-- C7, amended, at `copyProcess`, which has no parameter port and emits two
tasks. -/
theorem createTasks_tasks_resolved_witness :
    ∃ r, createTasks copyProcess = some r ∧ r.tasks.length = 2 ∧
      ∀ t ∈ r.tasks, (∀ x ∈ copyProcess.In.keys, x ∈ t.InTargets.keys) ∧
        (∀ x ∈ copyProcess.ParamPorts.keys, x ∈ t.Params.keys) :=
  let ⟨r, hr, h⟩ := createTasks_tasks_resolved copyProcess (Or.inr (Or.inl (by decide)))
  ⟨r, hr, by
    have hl : (createTasks copyProcess).map (fun r => r.tasks.length) = some 2 := by rfl
    rw [hr] at hl
    exact Option.some.inj hl, h⟩

/-! ## The placeholder pattern -/

theorem parseKind_some (s : Str) (typ r : Str) (h : parseKind s = some (typ, r)) :
    (typ = ['o'] ∨ typ = ['o', 's'] ∨ typ = ['i'] ∨ typ = ['p']) ∧ s = typ ++ ':' :: r := by
  unfold parseKind at h
  split at h
  all_goals simp at h
  all_goals (obtain ⟨rfl, rfl⟩ := h; simp)

theorem parseKind_stable (typ r : Str)
    (h : typ = ['o'] ∨ typ = ['o', 's'] ∨ typ = ['i'] ∨ typ = ['p']) :
    parseKind (typ ++ ':' :: r) = some (typ, r) := by
  rcases h with h | h | h | h <;> subst h <;> rfl

theorem parseName_some (r name : Str) (h : parseName r = some name) :
    (∀ c ∈ name, isNameChar c = true) ∧ (∃ c cs, name = c :: cs ∧ isNameStart c = true) ∧
      ∃ r', r = name ++ '}' :: r' := by
  unfold parseName at h
  split at h
  · rename_i c cs rest htw hdw
    split at h
    · rename_i hstart
      simp only [Option.some.injEq] at h
      subst h
      refine ⟨?_, ⟨c, cs, rfl, hstart⟩, rest, ?_⟩
      · intro x hx
        rw [← htw] at hx
        exact (List.mem_takeWhile_imp hx)
      · rw [← htw, ← hdw, List.takeWhile_append_dropWhile]
    · exact absurd h (by simp)
  · exact absurd h (by simp)

theorem parseName_stable (name r : Str) (hc : ∀ c ∈ name, isNameChar c = true)
    (hs : ∃ c cs, name = c :: cs ∧ isNameStart c = true) :
    parseName (name ++ '}' :: r) = some name := by
  have htw : (name ++ '}' :: r).takeWhile isNameChar = name := by
    rw [List.takeWhile_append_of_pos hc]
    simp [List.takeWhile_cons, show isNameChar '}' = false by decide]
  have hdw : (name ++ '}' :: r).dropWhile isNameChar = '}' :: r := by
    rw [List.dropWhile_append_of_pos hc]
    simp [List.dropWhile_cons, show isNameChar '}' = false by decide]
  obtain ⟨c, cs, rfl, hstart⟩ := hs
  unfold parseName
  rw [htw, hdw]
  simp [hstart]

theorem matchAt_some (s : Str) (m : Submatch) (h : matchAt s = some m) :
    m.WellFormed ∧ ∃ r, s = m.whole ++ r := by
  unfold matchAt at h
  split at h
  · rename_i s'
    split at h
    · rename_i typ r hk
      split at h
      · rename_i name hn
        simp only [Option.some.injEq] at h
        subst h
        obtain ⟨hkind, hs'⟩ := parseKind_some s' typ r hk
        obtain ⟨hc, hst, r', hr⟩ := parseName_some r name hn
        refine ⟨⟨hkind, hc, hst, rfl⟩, r', ?_⟩
        simp only [hs', hr, List.cons_append, List.append_assoc, List.singleton_append,
          List.nil_append]
      · exact absurd h (by simp)
    · exact absurd h (by simp)
  · exact absurd h (by simp)

theorem matchAt_stable (m : Submatch) (hm : m.WellFormed) (r : Str) :
    matchAt (m.whole ++ r) = some m := by
  obtain ⟨whole, typ, name⟩ := m
  obtain ⟨hk, hc, hs, hw⟩ := hm
  simp only at hk hc hs hw
  subst hw
  have e : ('{' :: (typ ++ ':' :: (name ++ ['}']))) ++ r = '{' :: (typ ++ ':' :: (name ++ '}' :: r)) := by
    simp
  rw [e]
  unfold matchAt
  simp only [parseKind_stable typ _ hk, parseName_stable name r hc hs]

theorem matchAt_none_of_ne (c : Char) (s : Str) (hc : c ≠ '{') : matchAt (c :: s) = none := by
  cases h : matchAt (c :: s) with
  | none => rfl
  | some m =>
    obtain ⟨hm, r, hr⟩ := matchAt_some _ _ h
    rw [hm.whole_eq] at hr
    simp only [List.cons_append, List.cons.injEq] at hr
    exact absurd hr.1 hc

theorem append_cons_split {α : Type} (x : α) (a b s t : List α) (ha : x ∉ a) (hb : x ∉ b)
    (h : a ++ x :: s = b ++ x :: t) : a = b ∧ s = t := by
  induction a generalizing b with
  | nil =>
    cases b with
    | nil =>
      simp only [List.nil_append, List.cons.injEq, true_and] at h
      exact ⟨rfl, h⟩
    | cons y b' =>
      simp only [List.nil_append, List.cons_append, List.cons.injEq] at h
      exact absurd (h.1 ▸ List.mem_cons_self _ _) hb
  | cons y a' ih =>
    cases b with
    | nil =>
      simp only [List.nil_append, List.cons_append, List.cons.injEq] at h
      exact absurd (h.1 ▸ List.mem_cons_self _ _) ha
    | cons z b' =>
      simp only [List.cons_append, List.cons.injEq] at h
      have := ih b' (fun hh => ha (List.mem_cons_of_mem _ hh))
        (fun hh => hb (List.mem_cons_of_mem _ hh)) h.2
      exact ⟨by rw [h.1, this.1], this.2⟩

theorem kind_chars (typ : Str)
    (h : typ = ['o'] ∨ typ = ['o', 's'] ∨ typ = ['i'] ∨ typ = ['p']) :
    '{' ∉ typ ∧ '}' ∉ typ ∧ ':' ∉ typ := by
  rcases h with h | h | h | h <;> subst h <;> decide

theorem name_chars (name : Str) (h : ∀ c ∈ name, isNameChar c = true) :
    '{' ∉ name ∧ '}' ∉ name ∧ ':' ∉ name := by
  refine ⟨fun hc => ?_, fun hc => ?_, fun hc => ?_⟩
  · exact absurd (h _ hc) (by decide)
  · exact absurd (h _ hc) (by decide)
  · exact absurd (h _ hc) (by decide)

theorem wf_tail_no_open (m : Submatch) (hm : m.WellFormed) :
    ∃ body, m.whole = '{' :: body ∧ '{' ∉ body := by
  refine ⟨_, hm.whole_eq, ?_⟩
  have hk := kind_chars m.typ hm.kind
  have hn := name_chars m.name hm.nameChars
  simp only [List.mem_append, List.mem_cons, List.mem_singleton, List.not_mem_nil, or_false,
    not_or]
  exact ⟨hk.1, by decide, hn.1, by decide⟩

theorem wf_init_no_close (m : Submatch) (hm : m.WellFormed) :
    ∃ a, m.whole = a ++ ['}'] ∧ '}' ∉ a := by
  refine ⟨'{' :: (m.typ ++ ':' :: m.name), ?_, ?_⟩
  · rw [hm.whole_eq]
    simp
  · have hk := kind_chars m.typ hm.kind
    have hn := name_chars m.name hm.nameChars
    simp only [List.mem_append, List.mem_cons, not_or]
    exact ⟨by decide, hk.2.1, by decide, hn.2.1⟩

theorem wf_inj (m1 m2 : Submatch) (h1 : m1.WellFormed) (h2 : m2.WellFormed)
    (h : m1.whole = m2.whole) : m1 = m2 := by
  obtain ⟨w1, t1, n1⟩ := m1
  obtain ⟨w2, t2, n2⟩ := m2
  have e1 := h1.whole_eq
  have e2 := h2.whole_eq
  simp only at e1 e2 h
  rw [e1, e2] at h
  simp only [List.cons.injEq, true_and] at h
  have hs := append_cons_split ':' t1 t2 _ _ (kind_chars t1 h1.kind).2.2
    (kind_chars t2 h2.kind).2.2 h
  have hn : n1 = n2 := List.append_cancel_right hs.2
  rw [e1, e2, hs.1, hn]

theorem wf_not_prefix (m m0 : Submatch) (hm : m.WellFormed) (hm0 : m0.WellFormed)
    (hne : m ≠ m0) (r : Str) : m0.whole.isPrefixOf (m.whole ++ r) = false := by
  cases hp : m0.whole.isPrefixOf (m.whole ++ r) with
  | false => rfl
  | true =>
    exfalso
    rw [List.isPrefixOf_iff_prefix] at hp
    obtain ⟨t, ht⟩ := hp
    obtain ⟨a, ha, hna⟩ := wf_init_no_close m hm
    obtain ⟨b, hb, hnb⟩ := wf_init_no_close m0 hm0
    rw [ha, hb] at ht
    simp only [List.append_assoc, List.singleton_append] at ht
    have := (append_cons_split '}' b a _ _ hnb hna ht).1
    apply hne
    apply wf_inj m m0 hm hm0
    rw [ha, hb, this]

/-! ## The scan of a template -/

theorem scanFrom_drop (k : Nat) (s : Str) : scanFrom k s = scanFrom 0 (s.drop k) := by
  induction s generalizing k with
  | nil => cases k <;> simp [scanFrom]
  | cons c s ih =>
    cases k with
    | zero => rfl
    | succ k =>
      simp only [scanFrom, List.drop_succ_cons]
      exact ih k

theorem scanFrom_zero_cons (c : Char) (s : Str) :
    scanFrom 0 (c :: s) =
      match matchAt (c :: s) with
      | some m => Piece.ph m :: scanFrom (m.whole.length - 1) s
      | none => Piece.lit c :: scanFrom 0 s := rfl

theorem scanFrom_match (m : Submatch) (hm : m.WellFormed) (r : Str) :
    scanFrom 0 (m.whole ++ r) = Piece.ph m :: scanFrom 0 r := by
  have hst := matchAt_stable m hm r
  obtain ⟨body, hw, -⟩ := wf_tail_no_open m hm
  rw [hw] at hst ⊢
  simp only [List.cons_append] at hst ⊢
  rw [scanFrom_zero_cons, hst]
  simp only [hw, List.length_cons, Nat.add_sub_cancel]
  rw [scanFrom_drop, List.drop_left]

theorem scanFrom_lit (c : Char) (s : Str) (h : matchAt (c :: s) = none) :
    scanFrom 0 (c :: s) = Piece.lit c :: scanFrom 0 s := by
  rw [scanFrom_zero_cons, h]

theorem scanFrom_cases (s : Str) :
    s = [] ∨ (∃ c s', s = c :: s' ∧ matchAt s = none ∧ scanFrom 0 s = Piece.lit c :: scanFrom 0 s')
      ∨ (∃ m r, m.WellFormed ∧ s = m.whole ++ r ∧ scanFrom 0 s = Piece.ph m :: scanFrom 0 r) := by
  cases s with
  | nil => exact Or.inl rfl
  | cons c s' =>
    right
    cases h : matchAt (c :: s') with
    | none => exact Or.inl ⟨c, s', rfl, rfl, scanFrom_lit c s' h⟩
    | some m =>
      obtain ⟨hm, r, hr⟩ := matchAt_some _ _ h
      right
      refine ⟨m, r, hm, hr, ?_⟩
      rw [hr]
      exact scanFrom_match m hm r

theorem wf_whole_length_pos (m : Submatch) (hm : m.WellFormed) : 0 < m.whole.length := by
  rw [hm.whole_eq]
  simp

theorem scan_induction (Q : Str → List Piece → Prop) (hnil : Q [] [])
    (hlit : ∀ c s, matchAt (c :: s) = none → Q s (scanFrom 0 s) →
      Q (c :: s) (Piece.lit c :: scanFrom 0 s))
    (hph : ∀ m r, m.WellFormed → Q r (scanFrom 0 r) →
      Q (m.whole ++ r) (Piece.ph m :: scanFrom 0 r))
    (s : Str) : Q s (scanFrom 0 s) := by
  have key : ∀ n (s : Str), s.length ≤ n → Q s (scanFrom 0 s) := by
    intro n
    induction n with
    | zero =>
      intro s hs
      have : s = [] := List.length_eq_zero.1 (Nat.le_zero.1 hs)
      subst this
      exact hnil
    | succ n ih =>
      intro s hs
      rcases scanFrom_cases s with h | ⟨c, s', hs', hm, hscan⟩ | ⟨m, r, hm, hs', hscan⟩
      · subst h; exact hnil
      · subst hs'
        rw [hscan]
        refine hlit c s' hm (ih s' ?_)
        simp only [List.length_cons] at hs
        omega
      · subst hs'
        rw [hscan]
        refine hph m r hm (ih r ?_)
        have := wf_whole_length_pos m hm
        simp only [List.length_append] at hs
        omega
  exact key s.length s (Nat.le_refl _)

theorem pieces_wf (cmd : Str) : ∀ m, Piece.ph m ∈ pieces cmd → m.WellFormed := by
  unfold pieces
  refine scan_induction (fun _ l => ∀ m, Piece.ph m ∈ l → m.WellFormed) ?_ ?_ ?_ cmd
  · intro m hm
    exact absurd hm (List.not_mem_nil _)
  · intro c s _ ih m hm
    rcases List.mem_cons.1 hm with h | h
    · exact absurd h (by simp)
    · exact ih m h
  · intro m0 r hm0 ih m hm
    rcases List.mem_cons.1 hm with h | h
    · cases h; exact hm0
    · exact ih m h

theorem pieces_text (cmd : Str) : ((pieces cmd).map Piece.text).flatten = cmd := by
  unfold pieces
  refine scan_induction (fun s l => (l.map Piece.text).flatten = s) ?_ ?_ ?_ cmd
  · rfl
  · intro c s _ ih
    simp only [List.map_cons, List.flatten_cons, Piece.text, ih, List.singleton_append]
  · intro m r _ ih
    simp only [List.map_cons, List.flatten_cons, Piece.text, ih]

theorem findAll_wf (cmd : Str) : ∀ m ∈ FindAllStringSubmatch cmd, m.WellFormed := by
  intro m hm
  unfold FindAllStringSubmatch at hm
  rw [List.mem_filterMap] at hm
  obtain ⟨pc, hpc, hsub⟩ := hm
  cases pc with
  | lit c => simp [Piece.submatch?] at hsub
  | ph m' =>
    simp only [Piece.submatch?, Option.some.injEq] at hsub
    subst hsub
    exact pieces_wf cmd _ hpc

theorem mem_findAll_iff (cmd : Str) (m : Submatch) :
    m ∈ FindAllStringSubmatch cmd ↔ Piece.ph m ∈ pieces cmd := by
  unfold FindAllStringSubmatch
  rw [List.mem_filterMap]
  constructor
  · rintro ⟨pc, hpc, hsub⟩
    cases pc with
    | lit c => simp [Piece.submatch?] at hsub
    | ph m' =>
      simp only [Piece.submatch?, Option.some.injEq] at hsub
      subst hsub
      exact hpc
  · intro h
    exact ⟨Piece.ph m, h, rfl⟩

/-! ## `strings.Replace` on a rendered template -/

theorem replaceFrom_zero_cons (w v : Str) (c : Char) (s : Str) :
    replaceFrom w v 0 (c :: s) =
      if w.isPrefixOf (c :: s) then v ++ replaceFrom w v (w.length - 1) s
      else c :: replaceFrom w v 0 s := rfl

theorem replaceFrom_skip (w v u r : Str) :
    replaceFrom w v u.length (u ++ r) = replaceFrom w v 0 r := by
  induction u with
  | nil => cases r <;> rfl
  | cons c u ih =>
    simp only [List.length_cons, List.cons_append, replaceFrom]
    exact ih

theorem replaceFrom_match (w v r : Str) (hw : w ≠ []) :
    replaceFrom w v 0 (w ++ r) = v ++ replaceFrom w v 0 r := by
  cases w with
  | nil => exact absurd rfl hw
  | cons c w' =>
    have hp : (c :: w').isPrefixOf (c :: w' ++ r) = true := by
      rw [List.isPrefixOf_iff_prefix]
      exact List.prefix_append _ _
    rw [List.cons_append, replaceFrom_zero_cons, ← List.cons_append, if_pos hp]
    simp only [List.length_cons, Nat.add_sub_cancel]
    rw [replaceFrom_skip]

theorem replaceFrom_no_open (body v u r : Str) (hu : '{' ∉ u) :
    replaceFrom ('{' :: body) v 0 (u ++ r) = u ++ replaceFrom ('{' :: body) v 0 r := by
  induction u with
  | nil => rfl
  | cons c u ih =>
    have hc : c ≠ '{' := fun h => hu (h ▸ List.mem_cons_self _ _)
    have hp : ¬ ('{' :: body).isPrefixOf (c :: (u ++ r)) = true := by
      rw [List.isPrefixOf_iff_prefix]
      rintro ⟨t, ht⟩
      simp only [List.cons_append, List.cons.injEq] at ht
      exact hc ht.1.symm
    rw [List.cons_append, replaceFrom_zero_cons, if_neg hp,
      ih (fun h => hu (List.mem_cons_of_mem _ h))]
    rfl

theorem replaceFrom_render (params inPaths outPaths : Option (GoMap Str))
    (handled : List Submatch) (m0 : Submatch) (v : Str) (hm0 : m0.WellFormed)
    (hb : binding params inPaths outPaths m0 = some v) (l : List Piece)
    (hlit : ∀ c, Piece.lit c ∈ l → c ≠ '{')
    (hwf : ∀ m, Piece.ph m ∈ l → m.WellFormed)
    (hval : ∀ m, Piece.ph m ∈ l → ∀ u, binding params inPaths outPaths m = some u → '{' ∉ u) :
    replaceFrom m0.whole v 0 (render params inPaths outPaths handled l) =
      render params inPaths outPaths (m0 :: handled) l := by
  obtain ⟨body0, hw0, -⟩ := wf_tail_no_open m0 hm0
  induction l with
  | nil => rfl
  | cons pc rest ih =>
    have ih' := ih (fun c hc => hlit c (List.mem_cons_of_mem _ hc))
      (fun m hm => hwf m (List.mem_cons_of_mem _ hm))
      (fun m hm => hval m (List.mem_cons_of_mem _ hm))
    have hr : ∀ h', render params inPaths outPaths h' (pc :: rest) =
        renderPiece params inPaths outPaths h' pc ++ render params inPaths outPaths h' rest :=
      fun _ => rfl
    rw [hr, hr]
    cases pc with
    | lit c =>
      have hc : '{' ∉ [c] := by
        rw [List.mem_singleton]
        exact fun h => hlit c (List.mem_cons_self _ _) h.symm
      simp only [renderPiece]
      rw [hw0, replaceFrom_no_open body0 v [c] _ hc, ← hw0, ih']
    | ph m =>
      have hm := hwf m (List.mem_cons_self _ _)
      by_cases hmm : m = m0
      · subst hmm
        by_cases hh : m ∈ handled
        · have hv : '{' ∉ v := hval m (List.mem_cons_self _ _) v hb
          simp only [renderPiece, hh, List.mem_cons, true_or, or_true, if_true, hb]
          rw [hw0, replaceFrom_no_open body0 v v _ hv, ← hw0, ih']
        · simp only [renderPiece, hh, if_false, List.mem_cons, true_or, if_true, hb]
          rw [replaceFrom_match _ _ _ (by rw [hw0]; simp), ih']
      · have hiff : m ∈ m0 :: handled ↔ m ∈ handled := by
          rw [List.mem_cons]
          constructor
          · rintro (h' | h')
            · exact absurd h' hmm
            · exact h'
          · exact Or.inr
        have hsame : renderPiece params inPaths outPaths (m0 :: handled) (Piece.ph m) =
            renderPiece params inPaths outPaths handled (Piece.ph m) := by
          by_cases hh : m ∈ handled
          · simp only [renderPiece, hh, hiff.2 hh, if_true]
          · simp only [renderPiece, hh, mt hiff.1 hh, if_false]
        rw [hsame]
        by_cases hcase : m ∈ handled ∧ ∃ u, binding params inPaths outPaths m = some u
        · obtain ⟨hh, u, hu⟩ := hcase
          have hnu : '{' ∉ u := hval m (List.mem_cons_self _ _) u hu
          simp only [renderPiece, hh, if_true, hu]
          rw [hw0, replaceFrom_no_open body0 v u _ hnu, ← hw0, ih']
        · have htext : renderPiece params inPaths outPaths handled (Piece.ph m) = m.whole := by
            by_cases hh : m ∈ handled
            · cases hbm : binding params inPaths outPaths m with
              | none => simp only [renderPiece, hh, if_true, hbm]
              | some u => exact absurd ⟨hh, u, hbm⟩ hcase
            · simp only [renderPiece, hh, if_false]
          rw [htext]
          obtain ⟨body, hw, hnb⟩ := wf_tail_no_open m hm
          have hnp := wf_not_prefix m m0 hm hm0 hmm
            (render params inPaths outPaths (m0 :: handled) rest)
          have hnp' := wf_not_prefix m m0 hm hm0 hmm
            (render params inPaths outPaths handled rest)
          rw [hw] at hnp' ⊢
          rw [List.cons_append, replaceFrom_zero_cons, ← List.cons_append]
          rw [hnp']
          simp only [Bool.false_eq_true, if_false]
          rw [hw0, replaceFrom_no_open body0 v body _ hnb, ← hw0, ih']
          rfl

/-! ## C1: the expansion of a template -/

theorem expandStep_eq (params inPaths outPaths : Option (GoMap Str)) (cmdExpr : Str)
    (m : Submatch) :
    expandStep params inPaths outPaths cmdExpr m =
      match binding params inPaths outPaths m with
      | some val => Replace cmdExpr m.whole val
      | none => cmdExpr := by
  unfold expandStep binding lookupNil
  by_cases h1 : m.typ = ['p']
  · simp only [if_pos h1]
    cases params with
    | none => rfl
    | some ps => cases ps.get m.name <;> rfl
  · simp only [if_neg h1]
    by_cases h2 : m.typ = ['i']
    · simp only [if_pos h2]
      cases inPaths with
      | none => rfl
      | some ps => cases ps.get m.name <;> rfl
    · simp only [if_neg h2]
      by_cases h3 : m.typ = ['o'] ∨ m.typ = ['o', 's']
      · simp only [if_pos h3]
        cases outPaths with
        | none => rfl
        | some ps => cases ps.get m.name <;> rfl
      · simp only [if_neg h3]

theorem foldl_expandStep_render (params inPaths outPaths : Option (GoMap Str))
    (l : List Piece) (hlit : ∀ c, Piece.lit c ∈ l → c ≠ '{')
    (hwf : ∀ m, Piece.ph m ∈ l → m.WellFormed)
    (hval : ∀ m, Piece.ph m ∈ l → ∀ u, binding params inPaths outPaths m = some u → '{' ∉ u)
    (ms : List Submatch) (hms : ∀ m ∈ ms, m.WellFormed) (handled : List Submatch) :
    ms.foldl (expandStep params inPaths outPaths) (render params inPaths outPaths handled l) =
      render params inPaths outPaths (ms.reverse ++ handled) l := by
  induction ms generalizing handled with
  | nil => rfl
  | cons m0 rest ih =>
    have hm0 := hms m0 (List.mem_cons_self _ _)
    have ih' := ih (fun m hm => hms m (List.mem_cons_of_mem _ hm))
    rw [List.foldl_cons, expandStep_eq]
    have hrev : (m0 :: rest).reverse ++ handled = rest.reverse ++ (m0 :: handled) := by simp
    rw [hrev]
    cases hb : binding params inPaths outPaths m0 with
    | none =>
      simp only
      rw [ih' handled]
      unfold render
      congr 1
      apply List.map_congr_left
      intro pc _
      cases pc with
      | lit c => rfl
      | ph m =>
        by_cases hmm : m = m0
        · subst hmm
          by_cases hh : m ∈ rest.reverse ++ handled
          · have hh' : m ∈ rest.reverse ++ m :: handled := by
              rw [List.mem_append, List.mem_cons]
              rcases List.mem_append.1 hh with h | h
              · exact Or.inl h
              · exact Or.inr (Or.inr h)
            simp only [renderPiece, hh, hh', if_true]
          · have hh' : m ∈ rest.reverse ++ m :: handled := by
              rw [List.mem_append, List.mem_cons]
              exact Or.inr (Or.inl rfl)
            simp only [renderPiece, hh, hh', if_true, if_false, hb]
        · have hiff : m ∈ rest.reverse ++ m0 :: handled ↔ m ∈ rest.reverse ++ handled := by
            simp only [List.mem_append, List.mem_cons, hmm, false_or]
          by_cases hh : m ∈ rest.reverse ++ handled
          · simp only [renderPiece, hh, hiff.2 hh, if_true]
          · simp only [renderPiece, hh, mt hiff.1 hh, if_false]
    | some v =>
      simp only
      have hne : m0.whole ≠ [] := by
        rw [hm0.whole_eq]; simp
      unfold Replace
      rw [if_neg hne, replaceFrom_render params inPaths outPaths handled m0 v hm0 hb l hlit hwf
        hval]
      exact ih' (m0 :: handled)

theorem render_nil (params inPaths outPaths : Option (GoMap Str)) (l : List Piece) :
    render params inPaths outPaths [] l = (l.map Piece.text).flatten := by
  unfold render
  have h : ∀ pc, renderPiece params inPaths outPaths [] pc = Piece.text pc := by
    intro pc
    cases pc with
    | lit c => rfl
    | ph m => simp [renderPiece, Piece.text]
  rw [List.map_congr_left (fun pc _ => h pc)]

theorem render_all (params inPaths outPaths : Option (GoMap Str)) (handled : List Submatch)
    (l : List Piece) (h : ∀ m, Piece.ph m ∈ l → m ∈ handled) :
    render params inPaths outPaths handled l =
      (l.map (substPiece params inPaths outPaths)).flatten := by
  unfold render
  congr 1
  apply List.map_congr_left
  intro pc hpc
  cases pc with
  | lit c => rfl
  | ph m =>
    have := h m hpc
    simp only [renderPiece, this, if_true, substPiece]

/-- C1, the counterexample: with `params` binding `a` to `{p:b}` and `b` to
`X`, the template `{p:a} {p:b}` expands to `X X`, because the second
`strings.Replace` rewrites the value that the first one put in; the
simultaneous substitution gives `{p:b} X`. -/
theorem expand_rewrites_substituted_value :
    expandCommandParamsAndPaths "{p:a} {p:b}".toList
        (some ((GoMap.empty.set "a".toList "{p:b}".toList).set "b".toList "X".toList))
        none none = "X X".toList ∧
    simultaneousSubstitution "{p:a} {p:b}".toList
        (some ((GoMap.empty.set "a".toList "{p:b}".toList).set "b".toList "X".toList))
        none none = "{p:b} X".toList ∧
    expandCommandParamsAndPaths "{p:a} {p:b}".toList
        (some ((GoMap.empty.set "a".toList "{p:b}".toList).set "b".toList "X".toList))
        none none ≠
      simultaneousSubstitution "{p:a} {p:b}".toList
        (some ((GoMap.empty.set "a".toList "{p:b}".toList).set "b".toList "X".toList))
        none none := by
  refine ⟨by decide, by decide, by decide⟩

theorem expand_eq_of_no_open (cmd : Str)
    (params inPaths outPaths : Option (GoMap Str))
    (hlit : Piece.lit '{' ∉ pieces cmd)
    (hval : ∀ m ∈ FindAllStringSubmatch cmd, ∀ v,
      binding params inPaths outPaths m = some v → '{' ∉ v) :
    expandCommandParamsAndPaths cmd params inPaths outPaths =
      simultaneousSubstitution cmd params inPaths outPaths := by
  unfold expandCommandParamsAndPaths simultaneousSubstitution
  have h0 : render params inPaths outPaths [] (pieces cmd) = cmd := by
    rw [render_nil, pieces_text]
  have hfold := foldl_expandStep_render params inPaths outPaths (pieces cmd)
    (fun c hc h => hlit (h ▸ hc)) (pieces_wf cmd)
    (fun m hm => hval m ((mem_findAll_iff cmd m).2 hm)) _ (findAll_wf cmd) []
  rw [h0] at hfold
  rw [hfold]
  apply render_all
  intro m hm
  rw [List.append_nil, List.mem_reverse]
  exact (mem_findAll_iff cmd m).2 hm

/-- C1, amended: when `cmd` has no opening brace outside its placeholders
and no value bound to one of its placeholders contains an opening brace,
`expandCommandParamsAndPaths` returns `cmd` with each bound placeholder
replaced exactly once by its value and every other part left as it was: the
simultaneous substitution of the bound placeholders of `cmd`. -/
theorem expand_eq_simultaneousSubstitution (cmd : Str)
    (params inPaths outPaths : Option (GoMap Str))
    (hlit : Piece.lit '{' ∉ pieces cmd)
    (hval : ∀ m ∈ FindAllStringSubmatch cmd, ∀ v,
      binding params inPaths outPaths m = some v → '{' ∉ v) :
    expandCommandParamsAndPaths cmd params inPaths outPaths =
      simultaneousSubstitution cmd params inPaths outPaths :=
  expand_eq_of_no_open cmd params inPaths outPaths hlit hval

/-- C1, amended, at the template of the test `TestParameterCommand` with
values for `a` and `c`. -/
theorem expand_eq_simultaneousSubstitution_witness :
    expandCommandParamsAndPaths "echo {p:a} {p:b} {p:c} > {o:out}".toList
        (some ((GoMap.empty.set "a".toList "a1".toList).set "c".toList "c1".toList))
        none none =
      simultaneousSubstitution "echo {p:a} {p:b} {p:c} > {o:out}".toList
        (some ((GoMap.empty.set "a".toList "a1".toList).set "c".toList "c1".toList))
        none none :=
  expand_eq_simultaneousSubstitution "echo {p:a} {p:b} {p:c} > {o:out}".toList
    (some ((GoMap.empty.set "a".toList "a1".toList).set "c".toList "c1".toList)) none none
    (by decide) (by decide)

/-! ## C3: the ports of an expanded template -/

theorem findAll_no_open (u r : Str) (hu : '{' ∉ u) :
    FindAllStringSubmatch (u ++ r) = FindAllStringSubmatch r := by
  induction u with
  | nil => rfl
  | cons c u ih =>
    have hc : c ≠ '{' := fun h => hu (h ▸ List.mem_cons_self _ _)
    have := ih (fun h => hu (List.mem_cons_of_mem _ h))
    unfold FindAllStringSubmatch pieces at this ⊢
    rw [List.cons_append, scanFrom_lit c _ (matchAt_none_of_ne c _ hc), List.filterMap_cons]
    simpa [Piece.submatch?] using this

theorem findAll_match (m : Submatch) (hm : m.WellFormed) (r : Str) :
    FindAllStringSubmatch (m.whole ++ r) = m :: FindAllStringSubmatch r := by
  unfold FindAllStringSubmatch pieces
  rw [scanFrom_match m hm r, List.filterMap_cons]
  rfl

theorem findAll_substituted (params inPaths outPaths : Option (GoMap Str)) (l : List Piece)
    (hlit : ∀ c, Piece.lit c ∈ l → c ≠ '{')
    (hwf : ∀ m, Piece.ph m ∈ l → m.WellFormed)
    (hval : ∀ m, Piece.ph m ∈ l → ∀ u, binding params inPaths outPaths m = some u → '{' ∉ u)
    (m : Submatch) :
    m ∈ FindAllStringSubmatch ((l.map (substPiece params inPaths outPaths)).flatten) ↔
      Piece.ph m ∈ l ∧ binding params inPaths outPaths m = none := by
  induction l with
  | nil =>
    simp only [List.map_nil, List.flatten_nil, List.not_mem_nil, false_and, iff_false]
    exact List.not_mem_nil _
  | cons pc rest ih =>
    have ih' := ih (fun c hc => hlit c (List.mem_cons_of_mem _ hc))
      (fun m hm => hwf m (List.mem_cons_of_mem _ hm))
      (fun m hm => hval m (List.mem_cons_of_mem _ hm))
    rw [List.map_cons, List.flatten_cons]
    cases pc with
    | lit c =>
      have hc : '{' ∉ [c] := by
        rw [List.mem_singleton]
        exact fun h => hlit c (List.mem_cons_self _ _) h.symm
      simp only [substPiece]
      rw [findAll_no_open [c] _ hc, ih']
      simp
    | ph m0 =>
      have hm0 := hwf m0 (List.mem_cons_self _ _)
      cases hb : binding params inPaths outPaths m0 with
      | some u =>
        have hu := hval m0 (List.mem_cons_self _ _) u hb
        simp only [substPiece, hb]
        rw [findAll_no_open u _ hu, ih']
        constructor
        · rintro ⟨h1, h2⟩
          exact ⟨List.mem_cons_of_mem _ h1, h2⟩
        · rintro ⟨h1, h2⟩
          rcases List.mem_cons.1 h1 with h | h
          · cases h
            rw [hb] at h2
            exact absurd h2 (by simp)
          · exact ⟨h, h2⟩
      | none =>
        simp only [substPiece, hb]
        rw [findAll_match m0 hm0, List.mem_cons, ih']
        constructor
        · rintro (h | ⟨h1, h2⟩)
          · subst h
            exact ⟨List.mem_cons_self _ _, hb⟩
          · exact ⟨List.mem_cons_of_mem _ h1, h2⟩
        · rintro ⟨h1, h2⟩
          rcases List.mem_cons.1 h1 with h | h
          · cases h
            exact Or.inl rfl
          · exact Or.inr ⟨h, h2⟩

theorem binding_of_typ (params inPaths outPaths : Option (GoMap Str)) (m : Submatch) :
    (m.typ = ['i'] → binding params inPaths outPaths m = lookupNil inPaths m.name) ∧
    ((m.typ = ['o'] ∨ m.typ = ['o', 's']) →
      binding params inPaths outPaths m = lookupNil outPaths m.name) ∧
    (m.typ = ['p'] → binding params inPaths outPaths m = lookupNil params m.name) := by
  refine ⟨fun h => ?_, fun h => ?_, fun h => ?_⟩
  · have h1 : ¬ m.typ = ['p'] := by rw [h]; decide
    simp only [binding, if_neg h1, if_pos h]
  · have h1 : ¬ m.typ = ['p'] := by rcases h with h | h <;> rw [h] <;> decide
    have h2 : ¬ m.typ = ['i'] := by rcases h with h | h <;> rw [h] <;> decide
    simp only [binding, if_neg h1, if_neg h2, if_pos h]
  · simp only [binding, if_pos h]

/-- C3, the counterexample: with `inPaths` binding `a` to `{i:a}`, the
template `{i:a}` expands to itself and `ShellExpand` gives the process an
input port `a`; with `params` binding `a` to the empty string and `b` to
`{p:a}`, the template `{p:a}{p:b}` expands to `{p:a}` and the process gets a
parameter port `a`. -/
theorem shellExpand_port_for_bound_name :
    ("a".toList ∈ (ShellExpand "t".toList "{i:a}".toList
        (some (GoMap.empty.set "a".toList "{i:a}".toList)) none none).In.keys ∧
      lookupNil (some (GoMap.empty.set "a".toList "{i:a}".toList)) "a".toList
        = some "{i:a}".toList) ∧
    ("a".toList ∈ (ShellExpand "t".toList "{p:a}{p:b}".toList none none
        (some ((GoMap.empty.set "a".toList "".toList).set "b".toList
          "{p:a}".toList))).ParamPorts.keys ∧
      lookupNil (some ((GoMap.empty.set "a".toList "".toList).set "b".toList "{p:a}".toList))
        "a".toList = some "".toList) := by
  refine ⟨⟨by decide, by decide⟩, ⟨by decide, by decide⟩⟩

theorem shellExpand_ports_matches (name cmd : Str) (inPaths outPaths params : Option (GoMap Str)) :
    (∀ x v, lookupNil params x = some v → v ≠ [] →
      x ∉ (ShellExpand name cmd inPaths outPaths params).ParamPorts.keys) ∧
    (Piece.lit '{' ∉ pieces cmd →
      (∀ m ∈ FindAllStringSubmatch cmd, ∀ v,
        binding params inPaths outPaths m = some v → '{' ∉ v) →
      (∀ x, x ∈ (ShellExpand name cmd inPaths outPaths params).In.keys ↔
        ∃ m ∈ FindAllStringSubmatch cmd, m.typ = ['i'] ∧ m.name = x ∧
          lookupNil inPaths x = none) ∧
      (∀ x, x ∈ (ShellExpand name cmd inPaths outPaths params).Out.keys ↔
        ∃ m ∈ FindAllStringSubmatch cmd, (m.typ = ['o'] ∨ m.typ = ['o', 's']) ∧ m.name = x ∧
          lookupNil outPaths x = none) ∧
      (∀ x, x ∈ (ShellExpand name cmd inPaths outPaths params).ParamPorts.keys ↔
        ∃ m ∈ FindAllStringSubmatch cmd, m.typ = ['p'] ∧ m.name = x ∧
          lookupNil params x = none)) := by
  refine ⟨?_, ?_⟩
  · intro x v hx hv hmem
    unfold ShellExpand initPortsFromCmdPattern at hmem
    simp only at hmem
    rw [initPorts_foldl_ParamPorts] at hmem
    rcases hmem with h | ⟨m, -, -, hn, hc⟩
    · exact absurd h (List.not_mem_nil _)
    · rw [hn] at hc
      rcases hc with hc | hc
      · cases params with
        | none => simp [lookupNil] at hx
        | some ps => simp at hc
      · unfold indexNil at hc
        rw [hx] at hc
        exact hv hc
  · intro hlit hval
    have hexp := expand_eq_of_no_open cmd params inPaths outPaths hlit hval
    have hmem : ∀ m, m ∈ FindAllStringSubmatch
        (expandCommandParamsAndPaths cmd params inPaths outPaths) ↔
        m ∈ FindAllStringSubmatch cmd ∧ binding params inPaths outPaths m = none := by
      intro m
      rw [hexp, mem_findAll_iff cmd m]
      unfold simultaneousSubstitution
      exact findAll_substituted params inPaths outPaths (pieces cmd)
        (fun c hc h => hlit (h ▸ hc)) (pieces_wf cmd)
        (fun m hm => hval m ((mem_findAll_iff cmd m).2 hm)) m
    refine ⟨?_, ?_, ?_⟩
    · intro x
      unfold ShellExpand initPortsFromCmdPattern
      simp only
      rw [initPorts_foldl_In]
      constructor
      · rintro (h | ⟨m, hm, ht, hn⟩)
        · exact absurd h (List.not_mem_nil _)
        · obtain ⟨h1, h2⟩ := (hmem m).1 hm
          rw [(binding_of_typ params inPaths outPaths m).1 ht, hn] at h2
          exact ⟨m, h1, ht, hn, h2⟩
      · rintro ⟨m, hm, ht, hn, hb⟩
        right
        refine ⟨m, (hmem m).2 ⟨hm, ?_⟩, ht, hn⟩
        rw [(binding_of_typ params inPaths outPaths m).1 ht, hn]
        exact hb
    · intro x
      unfold ShellExpand initPortsFromCmdPattern
      simp only
      rw [initPorts_foldl_Out]
      constructor
      · rintro (h | ⟨m, hm, ht, hn⟩)
        · exact absurd h (List.not_mem_nil _)
        · obtain ⟨h1, h2⟩ := (hmem m).1 hm
          rw [(binding_of_typ params inPaths outPaths m).2.1 ht, hn] at h2
          exact ⟨m, h1, ht, hn, h2⟩
      · rintro ⟨m, hm, ht, hn, hb⟩
        right
        refine ⟨m, (hmem m).2 ⟨hm, ?_⟩, ht, hn⟩
        rw [(binding_of_typ params inPaths outPaths m).2.1 ht, hn]
        exact hb
    · intro x
      unfold ShellExpand initPortsFromCmdPattern
      simp only
      rw [initPorts_foldl_ParamPorts]
      constructor
      · rintro (h | ⟨m, hm, ht, hn, -⟩)
        · exact absurd h (List.not_mem_nil _)
        · obtain ⟨h1, h2⟩ := (hmem m).1 hm
          rw [(binding_of_typ params inPaths outPaths m).2.2 ht, hn] at h2
          exact ⟨m, h1, ht, hn, h2⟩
      · rintro ⟨m, hm, ht, hn, hb⟩
        right
        refine ⟨m, (hmem m).2 ⟨hm, ?_⟩, ht, hn, Or.inr ?_⟩
        · rw [(binding_of_typ params inPaths outPaths m).2.2 ht, hn]
          exact hb
        · unfold indexNil
          rw [hn, hb]
          rfl

/-! ## The placeholders of a template -/

theorem pieces_occurs (cmd : Str) :
    ∀ m, Piece.ph m ∈ pieces cmd → ∃ pre post, cmd = pre ++ m.whole ++ post := by
  unfold pieces
  refine scan_induction
    (fun s l => ∀ m, Piece.ph m ∈ l → ∃ pre post, s = pre ++ m.whole ++ post) ?_ ?_ ?_ cmd
  · intro m hm
    exact absurd hm (List.not_mem_nil _)
  · intro c s _ ih m hm
    rcases List.mem_cons.1 hm with h | h
    · exact absurd h (by simp)
    · obtain ⟨pre, post, hs⟩ := ih m h
      exact ⟨c :: pre, post, by rw [hs]; rfl⟩
  · intro m0 r _ ih m hm
    rcases List.mem_cons.1 hm with h | h
    · cases h
      exact ⟨[], r, rfl⟩
    · obtain ⟨pre, post, hs⟩ := ih m h
      exact ⟨m0.whole ++ pre, post, by rw [hs]; simp⟩

theorem occurs_pieces (cmd : Str) :
    ∀ m, m.WellFormed → ∀ pre post, cmd = pre ++ m.whole ++ post → Piece.ph m ∈ pieces cmd := by
  unfold pieces
  refine scan_induction
    (fun s l => ∀ m, m.WellFormed → ∀ pre post, s = pre ++ m.whole ++ post → Piece.ph m ∈ l)
    ?_ ?_ ?_ cmd
  · intro m hm pre post h
    have hpos := wf_whole_length_pos m hm
    have := congrArg List.length h
    simp only [List.length_nil, List.length_append] at this
    omega
  · intro c s hnone ih m hm pre post h
    cases pre with
    | nil =>
      rw [List.nil_append] at h
      have := matchAt_stable m hm post
      rw [← h, hnone] at this
      exact absurd this (by simp)
    | cons d pre' =>
      simp only [List.cons_append, List.cons.injEq] at h
      exact List.mem_cons_of_mem _ (ih m hm pre' post h.2)
  · intro m0 r hm0 ih m hm pre post h
    rw [List.append_assoc, List.append_eq_append_iff] at h
    rcases h with ⟨a', hpre, hr⟩ | ⟨c', hw0, hrest⟩
    · exact List.mem_cons_of_mem _ (ih m hm a' post (by rw [hr, List.append_assoc]))
    · cases pre with
      | nil =>
        rw [List.nil_append] at hw0
        have h1 := matchAt_stable m hm post
        have h2 := matchAt_stable m0 hm0 r
        rw [hrest, ← hw0, h2] at h1
        simp only [Option.some.injEq] at h1
        rw [h1]
        exact List.mem_cons_self _ _
      | cons d pre' =>
        cases c' with
        | nil =>
          rw [List.nil_append] at hrest
          exact List.mem_cons_of_mem _ (ih m hm [] post (by rw [← hrest]; rfl))
        | cons e c'' =>
          exfalso
          obtain ⟨body0, hb0, hnb0⟩ := wf_tail_no_open m0 hm0
          obtain ⟨body, hb, -⟩ := wf_tail_no_open m hm
          rw [hb] at hrest
          simp only [List.cons_append, List.cons.injEq] at hrest
          rw [hb0] at hw0
          simp only [List.cons_append, List.cons.injEq] at hw0
          apply hnb0
          rw [hw0.2, ← hrest.1]
          simp

theorem mem_findAll_iff_occurs (cmd : Str) (m : Submatch) :
    m ∈ FindAllStringSubmatch cmd ↔
      m.WellFormed ∧ ∃ pre post, cmd = pre ++ m.whole ++ post := by
  rw [mem_findAll_iff]
  constructor
  · intro h
    exact ⟨pieces_wf cmd m h, pieces_occurs cmd m h⟩
  · rintro ⟨hm, pre, post, h⟩
    exact occurs_pieces cmd m hm pre post h

theorem findAll_declares (cmd typ x : Str)
    (hk : typ = ['o'] ∨ typ = ['o', 's'] ∨ typ = ['i'] ∨ typ = ['p']) :
    (∃ m ∈ FindAllStringSubmatch cmd, m.typ = typ ∧ m.name = x) ↔ Declares cmd typ x := by
  constructor
  · rintro ⟨m, hm, ht, hn⟩
    obtain ⟨hwf, pre, post, h⟩ := (mem_findAll_iff_occurs cmd m).1 hm
    refine ⟨⟨?_, ?_⟩, pre, post, ?_⟩
    · rw [← hn]; exact hwf.nameStart
    · rw [← hn]; exact hwf.nameChars
    · rw [h, hwf.whole_eq, ht, hn]
      rfl
  · rintro ⟨⟨hs, hc⟩, pre, post, h⟩
    refine ⟨⟨placeholderText typ x, typ, x⟩, ?_, rfl, rfl⟩
    rw [mem_findAll_iff_occurs]
    exact ⟨⟨hk, hc, hs, rfl⟩, pre, post, h⟩

theorem findAll_declares_out (cmd x : Str) :
    (∃ m ∈ FindAllStringSubmatch cmd, (m.typ = ['o'] ∨ m.typ = ['o', 's']) ∧ m.name = x) ↔
      Declares cmd ['o'] x ∨ Declares cmd ['o', 's'] x := by
  rw [← findAll_declares cmd ['o'] x (Or.inl rfl),
    ← findAll_declares cmd ['o', 's'] x (Or.inr (Or.inl rfl))]
  constructor
  · rintro ⟨m, hm, ht | ht, hn⟩
    · exact Or.inl ⟨m, hm, ht, hn⟩
    · exact Or.inr ⟨m, hm, ht, hn⟩
  · rintro (⟨m, hm, ht, hn⟩ | ⟨m, hm, ht, hn⟩)
    · exact ⟨m, hm, Or.inl ht, hn⟩
    · exact ⟨m, hm, Or.inr ht, hn⟩

/-! ## C2 and C10: the ports of `NewFromShell` -/

theorem newFromShell_keys (name cmd : Str) :
    (∀ x, x ∈ (NewFromShell name cmd).In.keys ↔ Declares cmd ['i'] x) ∧
    (∀ x, x ∈ (NewFromShell name cmd).Out.keys ↔
      Declares cmd ['o'] x ∨ Declares cmd ['o', 's'] x) ∧
    (∀ x, x ∈ (NewFromShell name cmd).ParamPorts.keys ↔ Declares cmd ['p'] x) := by
  obtain ⟨hI, hO, hP, -⟩ := newFromShell_keys_matches name cmd
  refine ⟨fun x => ?_, fun x => ?_, fun x => ?_⟩
  · rw [hI, findAll_declares cmd ['i'] x (Or.inr (Or.inr (Or.inl rfl)))]
  · rw [hO, findAll_declares_out]
  · rw [hP, findAll_declares cmd ['p'] x (Or.inr (Or.inr (Or.inr rfl)))]

/-- C2: in the process returned by `NewFromShell(name, cmd)` the keys of `In`
are the NAMEs of the `{i:NAME}` placeholders that occur in `cmd`, the keys of
`Out` the NAMEs of its `{o:NAME}` and `{os:NAME}` placeholders, and the keys
of `ParamPorts` the NAMEs of its `{p:NAME}` placeholders; every name is one
key however often its placeholder is repeated, and a template without
placeholders yields no ports. -/
theorem newFromShell_ports (name cmd : Str) :
    (∀ x, x ∈ (NewFromShell name cmd).In.keys ↔ Declares cmd ['i'] x) ∧
    (∀ x, x ∈ (NewFromShell name cmd).Out.keys ↔
      Declares cmd ['o'] x ∨ Declares cmd ['o', 's'] x) ∧
    (∀ x, x ∈ (NewFromShell name cmd).ParamPorts.keys ↔ Declares cmd ['p'] x) ∧
    (NewFromShell name cmd).In.keys.Nodup ∧
    (NewFromShell name cmd).Out.keys.Nodup ∧
    (NewFromShell name cmd).ParamPorts.keys.Nodup ∧
    ((∀ x, ¬ Declares cmd ['i'] x ∧ ¬ Declares cmd ['o'] x ∧ ¬ Declares cmd ['o', 's'] x ∧
        ¬ Declares cmd ['p'] x) →
      (NewFromShell name cmd).In.keys = [] ∧ (NewFromShell name cmd).Out.keys = [] ∧
      (NewFromShell name cmd).ParamPorts.keys = []) := by
  obtain ⟨hI, hO, hP⟩ := newFromShell_keys name cmd
  refine ⟨hI, hO, hP, GoMap.keys_nodup _, GoMap.keys_nodup _, GoMap.keys_nodup _, ?_⟩
  intro h
  refine ⟨?_, ?_, ?_⟩
  · apply List.eq_nil_iff_forall_not_mem.2
    intro x hx
    exact (h x).1 ((hI x).1 hx)
  · apply List.eq_nil_iff_forall_not_mem.2
    intro x hx
    rcases (hO x).1 hx with h' | h'
    · exact (h x).2.1 h'
    · exact (h x).2.2.1 h'
  · apply List.eq_nil_iff_forall_not_mem.2
    intro x hx
    exact (h x).2.2.2 ((hP x).1 hx)

/-- C10, the counterexample: the template `cat {i:x} > {o:x}` gives a process
in which the name `x` is a key of `In` and a key of `Out`. -/
theorem newFromShell_name_in_two_maps :
    "x".toList ∈ (NewFromShell "t".toList "cat {i:x} > {o:x}".toList).In.keys ∧
    "x".toList ∈ (NewFromShell "t".toList "cat {i:x} > {o:x}".toList).Out.keys := by
  refine ⟨by decide, by decide⟩

/-- C10, amended: in the process returned by `NewFromShell(name, cmd)` a
port name appears in at most one of the maps `In`, `Out` and `ParamPorts`
exactly when no NAME has placeholders of two different classes in `cmd`
(input `i`, output `o` or `os`, parameter `p`). -/
theorem newFromShell_names_disjoint_iff (name cmd : Str) :
    (∀ x : Str,
        ¬ (x ∈ (NewFromShell name cmd).In.keys ∧ x ∈ (NewFromShell name cmd).Out.keys) ∧
        ¬ (x ∈ (NewFromShell name cmd).In.keys ∧ x ∈ (NewFromShell name cmd).ParamPorts.keys) ∧
        ¬ (x ∈ (NewFromShell name cmd).Out.keys ∧
            x ∈ (NewFromShell name cmd).ParamPorts.keys)) ↔
    (∀ x : Str,
        ¬ (Declares cmd ['i'] x ∧ (Declares cmd ['o'] x ∨ Declares cmd ['o', 's'] x)) ∧
        ¬ (Declares cmd ['i'] x ∧ Declares cmd ['p'] x) ∧
        ¬ ((Declares cmd ['o'] x ∨ Declares cmd ['o', 's'] x) ∧ Declares cmd ['p'] x)) := by
  obtain ⟨hI, hO, hP⟩ := newFromShell_keys name cmd
  constructor
  · intro h x
    have := h x
    rw [hI, hO, hP] at this
    exact this
  · intro h x
    rw [hI, hO, hP]
    exact h x

/-! ## C3: the ports of `ShellExpand` -/

/-- C3, amended: the process returned by `ShellExpand` never has a
`ParamPorts` entry NAME when `params` supplies a non-empty value for NAME;
and when `cmd` has no opening brace outside its placeholders and no value
bound to one of its placeholders contains an opening brace, its ports are
exactly the placeholders of `cmd` with no static binding: `In` has the entry
NAME exactly for the `{i:NAME}` with no value for NAME in `inPaths`, `Out`
for the `{o:NAME}` and `{os:NAME}` with no value in `outPaths`, and
`ParamPorts` for the `{p:NAME}` with no value in `params`. -/
theorem shellExpand_ports (name cmd : Str) (inPaths outPaths params : Option (GoMap Str)) :
    (∀ x v, lookupNil params x = some v → v ≠ [] →
      x ∉ (ShellExpand name cmd inPaths outPaths params).ParamPorts.keys) ∧
    (Piece.lit '{' ∉ pieces cmd →
      (∀ m ∈ FindAllStringSubmatch cmd, ∀ v,
        binding params inPaths outPaths m = some v → '{' ∉ v) →
      (∀ x, x ∈ (ShellExpand name cmd inPaths outPaths params).In.keys ↔
        Declares cmd ['i'] x ∧ lookupNil inPaths x = none) ∧
      (∀ x, x ∈ (ShellExpand name cmd inPaths outPaths params).Out.keys ↔
        (Declares cmd ['o'] x ∨ Declares cmd ['o', 's'] x) ∧ lookupNil outPaths x = none) ∧
      (∀ x, x ∈ (ShellExpand name cmd inPaths outPaths params).ParamPorts.keys ↔
        Declares cmd ['p'] x ∧ lookupNil params x = none)) := by
  obtain ⟨h1, h2⟩ := shellExpand_ports_matches name cmd inPaths outPaths params
  refine ⟨h1, fun hlit hval => ?_⟩
  obtain ⟨hI, hO, hP⟩ := h2 hlit hval
  refine ⟨fun x => ?_, fun x => ?_, fun x => ?_⟩
  · rw [hI, ← findAll_declares cmd ['i'] x (Or.inr (Or.inr (Or.inl rfl)))]
    constructor
    · rintro ⟨m, hm, ht, hn, hl⟩
      exact ⟨⟨m, hm, ht, hn⟩, hl⟩
    · rintro ⟨⟨m, hm, ht, hn⟩, hl⟩
      exact ⟨m, hm, ht, hn, hl⟩
  · rw [hO, ← findAll_declares_out]
    constructor
    · rintro ⟨m, hm, ht, hn, hl⟩
      exact ⟨⟨m, hm, ht, hn⟩, hl⟩
    · rintro ⟨⟨m, hm, ht, hn⟩, hl⟩
      exact ⟨m, hm, ht, hn, hl⟩
  · rw [hP, ← findAll_declares cmd ['p'] x (Or.inr (Or.inr (Or.inr rfl)))]
    constructor
    · rintro ⟨m, hm, ht, hn, hl⟩
      exact ⟨⟨m, hm, ht, hn⟩, hl⟩
    · rintro ⟨⟨m, hm, ht, hn⟩, hl⟩
      exact ⟨m, hm, ht, hn, hl⟩

/-- C3, amended, at the template of the test `TestParameterCommand` with
values for `a` and `c`: the parameter port `b` and the output port `out`
remain. -/
theorem shellExpand_ports_witness :
    (∀ x, x ∈ (ShellExpand "abc".toList "echo {p:a} {p:b} {p:c} > {o:out}".toList none none
        (some ((GoMap.empty.set "a".toList "a1".toList).set "c".toList "c1".toList))).In.keys ↔
      Declares "echo {p:a} {p:b} {p:c} > {o:out}".toList ['i'] x ∧
        lookupNil (none : Option (GoMap Str)) x = none) ∧
    (∀ x, x ∈ (ShellExpand "abc".toList "echo {p:a} {p:b} {p:c} > {o:out}".toList none none
        (some ((GoMap.empty.set "a".toList "a1".toList).set "c".toList "c1".toList))).Out.keys ↔
      (Declares "echo {p:a} {p:b} {p:c} > {o:out}".toList ['o'] x ∨
        Declares "echo {p:a} {p:b} {p:c} > {o:out}".toList ['o', 's'] x) ∧
        lookupNil (none : Option (GoMap Str)) x = none) ∧
    (∀ x, x ∈ (ShellExpand "abc".toList "echo {p:a} {p:b} {p:c} > {o:out}".toList none none
        (some ((GoMap.empty.set "a".toList "a1".toList).set "c".toList
          "c1".toList))).ParamPorts.keys ↔
      Declares "echo {p:a} {p:b} {p:c} > {o:out}".toList ['p'] x ∧
        lookupNil (some ((GoMap.empty.set "a".toList "a1".toList).set "c".toList
          "c1".toList)) x = none) :=
  (shellExpand_ports "abc".toList "echo {p:a} {p:b} {p:c} > {o:out}".toList none none
    (some ((GoMap.empty.set "a".toList "a1".toList).set "c".toList "c1".toList))).2
    (by decide) (by decide)

/-! ## C11: the streaming flags of `NewFromShell` -/

theorem initPortsStep_DoStream (params : Option (GoMap Str)) (p : SciProcess) (m : Submatch) :
    (initPortsStep params p m).OutPortsDoStream =
      if m.typ = ['o', 's'] then p.OutPortsDoStream.set m.name true else p.OutPortsDoStream := by
  by_cases h2 : m.typ = ['o', 's']
  · have h1 : m.typ = ['o'] ∨ m.typ = ['o', 's'] := Or.inr h2
    simp only [initPortsStep, if_pos h1, if_pos h2]
  · rw [if_neg h2]
    by_cases h1 : m.typ = ['o'] ∨ m.typ = ['o', 's']
    · simp only [initPortsStep, if_pos h1, if_neg h2]
    · by_cases h3 : m.typ = ['i']
      · simp only [initPortsStep, if_neg h1, if_pos h3]
      · by_cases h4 : m.typ = ['p']
        · by_cases h5 : params.isNone = true ∨ indexNil params m.name = []
          · simp only [initPortsStep, if_neg h1, if_neg h3, if_pos h4, if_pos h5]
          · simp only [initPortsStep, if_neg h1, if_neg h3, if_pos h4, if_neg h5]
        · simp only [initPortsStep, if_neg h1, if_neg h3, if_neg h4]

theorem initPorts_foldl_DoStream (params : Option (GoMap Str)) (ms : List Submatch)
    (p : SciProcess) (x : Str) :
    ((ms.foldl (initPortsStep params) p).OutPortsDoStream.get x = some true ↔
      p.OutPortsDoStream.get x = some true ∨ ∃ m ∈ ms, m.typ = ['o', 's'] ∧ m.name = x) ∧
    ((ms.foldl (initPortsStep params) p).OutPortsDoStream.get x = some false →
      p.OutPortsDoStream.get x = some false) := by
  induction ms generalizing p with
  | nil =>
    refine ⟨?_, fun h => h⟩
    simp
  | cons m rest ih =>
    rw [List.foldl_cons]
    obtain ⟨ih1, ih2⟩ := ih (initPortsStep params p m)
    rw [initPortsStep_DoStream] at ih1 ih2
    by_cases hos : m.typ = ['o', 's']
    · rw [if_pos hos] at ih1 ih2
      by_cases hx : x = m.name
      · rw [hx] at ih1 ih2 ⊢
        rw [GoMap.get_set_self] at ih1 ih2
        refine ⟨?_, ?_⟩
        · rw [ih1]
          constructor
          · intro _
            exact Or.inr ⟨m, List.mem_cons_self _ _, hos, rfl⟩
          · intro _
            exact Or.inl rfl
        · intro h
          have := ih2 h
          simp at this
      · rw [GoMap.get_set_ne _ _ _ _ hx] at ih1 ih2
        refine ⟨?_, ih2⟩
        rw [ih1]
        constructor
        · rintro (h | ⟨m', hm', h1, h2⟩)
          · exact Or.inl h
          · exact Or.inr ⟨m', List.mem_cons_of_mem _ hm', h1, h2⟩
        · rintro (h | ⟨m', hm', h1, h2⟩)
          · exact Or.inl h
          · rcases List.mem_cons.1 hm' with h | h
            · rw [h] at h2
              exact absurd h2.symm hx
            · exact Or.inr ⟨m', h, h1, h2⟩
    · rw [if_neg hos] at ih1 ih2
      refine ⟨?_, ih2⟩
      rw [ih1]
      constructor
      · rintro (h | ⟨m', hm', h1, h2⟩)
        · exact Or.inl h
        · exact Or.inr ⟨m', List.mem_cons_of_mem _ hm', h1, h2⟩
      · rintro (h | ⟨m', hm', h1, h2⟩)
        · exact Or.inl h
        · rcases List.mem_cons.1 hm' with h | h
          · rw [h] at h1
            exact absurd h1 hos
          · exact Or.inr ⟨m', h, h1, h2⟩

theorem newFromShell_doStream (name cmd x : Str) :
    ((NewFromShell name cmd).OutPortsDoStream.get x).getD false = true ↔
      Declares cmd ['o', 's'] x := by
  rw [← findAll_declares cmd ['o', 's'] x (Or.inr (Or.inl rfl))]
  obtain ⟨h1, -⟩ := initPorts_foldl_DoStream none (FindAllStringSubmatch cmd)
    (NewSciProcess name cmd) x
  have hget : ((NewFromShell name cmd).OutPortsDoStream.get x).getD false = true ↔
      (NewFromShell name cmd).OutPortsDoStream.get x = some true := by
    cases (NewFromShell name cmd).OutPortsDoStream.get x with
    | none => simp
    | some b => simp
  rw [hget]
  unfold NewFromShell initPortsFromCmdPattern
  rw [h1]
  constructor
  · rintro (h | h)
    · simp [NewSciProcess, get_empty] at h
    · exact h
  · exact Or.inr

/-- C11: in the process returned by `NewFromShell(name, cmd)` the output
port NAME is flagged as streaming (`OutPortsDoStream[NAME]` is true) exactly
when `cmd` contains a placeholder `{os:NAME}`; an output port declared only
by `{o:NAME}` is a key of `Out` and is not flagged. -/
theorem newFromShell_streaming_flag (name cmd : Str) :
    (∀ x, ((NewFromShell name cmd).OutPortsDoStream.get x).getD false = true ↔
      Declares cmd ['o', 's'] x) ∧
    (∀ x, Declares cmd ['o'] x → ¬ Declares cmd ['o', 's'] x →
      x ∈ (NewFromShell name cmd).Out.keys ∧
      ((NewFromShell name cmd).OutPortsDoStream.get x).getD false = false) := by
  refine ⟨fun x => newFromShell_doStream name cmd x, ?_⟩
  intro x ho hnos
  refine ⟨((newFromShell_keys name cmd).2.1 x).2 (Or.inl ho), ?_⟩
  cases hb : ((NewFromShell name cmd).OutPortsDoStream.get x).getD false with
  | false => rfl
  | true => exact absurd ((newFromShell_doStream name cmd x).1 hb) hnos

/-- C11 at the template of the test `TestStreaming` with a second, plain
output: `lsl` is declared by `{os:lsl}`, `log` only by `{o:log}`. -/
theorem newFromShell_streaming_flag_witness :
    "log".toList ∈ (NewFromShell "ls".toList "ls -l / > {os:lsl} 2> {o:log}".toList).Out.keys ∧
    ((NewFromShell "ls".toList "ls -l / > {os:lsl} 2> {o:log}".toList).OutPortsDoStream.get
      "log".toList).getD false = false :=
  (newFromShell_streaming_flag "ls".toList "ls -l / > {os:lsl} 2> {o:log}".toList).2
    "log".toList
    ⟨⟨⟨'l', "og".toList, rfl, by decide⟩, by decide⟩, "ls -l / > {os:lsl} 2> ".toList, [], by decide⟩
    (fun h => by
      have := (newFromShell_doStream "ls".toList "ls -l / > {os:lsl} 2> {o:log}".toList
        "log".toList).2 h
      revert this
      decide)

/-! ## C19 and C20: expansion without bindings -/

theorem foldl_expandStep_unbound (params inPaths outPaths : Option (GoMap Str))
    (ms : List Submatch) (h : ∀ m ∈ ms, binding params inPaths outPaths m = none)
    (cmdExpr : Str) : ms.foldl (expandStep params inPaths outPaths) cmdExpr = cmdExpr := by
  induction ms generalizing cmdExpr with
  | nil => rfl
  | cons m rest ih =>
    rw [List.foldl_cons, expandStep_eq, h m (List.mem_cons_self _ _)]
    exact ih (fun m' hm' => h m' (List.mem_cons_of_mem _ hm')) cmdExpr

theorem binding_none_of_declares (cmd : Str) (params inPaths outPaths : Option (GoMap Str))
    (hp : ∀ x, Declares cmd ['p'] x → lookupNil params x = none)
    (hi : ∀ x, Declares cmd ['i'] x → lookupNil inPaths x = none)
    (ho : ∀ x, Declares cmd ['o'] x ∨ Declares cmd ['o', 's'] x → lookupNil outPaths x = none) :
    ∀ m ∈ FindAllStringSubmatch cmd, binding params inPaths outPaths m = none := by
  intro m hm
  have hwf := findAll_wf cmd m hm
  have hb := binding_of_typ params inPaths outPaths m
  rcases hwf.kind with h | h | h | h
  · rw [hb.2.1 (Or.inl h)]
    exact ho _ (Or.inl ((findAll_declares cmd ['o'] m.name (Or.inl rfl)).1 ⟨m, hm, h, rfl⟩))
  · rw [hb.2.1 (Or.inr h)]
    exact ho _ (Or.inr ((findAll_declares cmd ['o', 's'] m.name (Or.inr (Or.inl rfl))).1
      ⟨m, hm, h, rfl⟩))
  · rw [hb.1 h]
    exact hi _ ((findAll_declares cmd ['i'] m.name (Or.inr (Or.inr (Or.inl rfl)))).1
      ⟨m, hm, h, rfl⟩)
  · rw [hb.2.2 h]
    exact hp _ ((findAll_declares cmd ['p'] m.name (Or.inr (Or.inr (Or.inr rfl)))).1
      ⟨m, hm, h, rfl⟩)

theorem expand_nil (cmd : Str) : expandCommandParamsAndPaths cmd none none none = cmd := by
  unfold expandCommandParamsAndPaths
  apply foldl_expandStep_unbound
  intro m _
  unfold binding lookupNil
  split
  · rfl
  · split
    · rfl
    · split <;> rfl

/-- C19: when no placeholder `{K:NAME}` that occurs in `cmd` has a value for
NAME in the map of its own kind, `expandCommandParamsAndPaths` returns `cmd`
unchanged; in particular when the three maps are nil, when they are empty,
and when the only bindings are in maps of another kind. -/
theorem expand_unchanged (cmd : Str) (params inPaths outPaths : Option (GoMap Str)) :
    ((∀ x, Declares cmd ['p'] x → lookupNil params x = none) →
      (∀ x, Declares cmd ['i'] x → lookupNil inPaths x = none) →
      (∀ x, Declares cmd ['o'] x ∨ Declares cmd ['o', 's'] x → lookupNil outPaths x = none) →
      expandCommandParamsAndPaths cmd params inPaths outPaths = cmd) ∧
    expandCommandParamsAndPaths cmd none none none = cmd ∧
    expandCommandParamsAndPaths cmd (some GoMap.empty) (some GoMap.empty) (some GoMap.empty)
      = cmd := by
  have key : (∀ x, Declares cmd ['p'] x → lookupNil params x = none) →
      (∀ x, Declares cmd ['i'] x → lookupNil inPaths x = none) →
      (∀ x, Declares cmd ['o'] x ∨ Declares cmd ['o', 's'] x → lookupNil outPaths x = none) →
      expandCommandParamsAndPaths cmd params inPaths outPaths = cmd := by
    intro hp hi ho
    unfold expandCommandParamsAndPaths
    exact foldl_expandStep_unbound params inPaths outPaths _
      (binding_none_of_declares cmd params inPaths outPaths hp hi ho) cmd
  refine ⟨key, expand_nil cmd, ?_⟩
  unfold expandCommandParamsAndPaths
  apply foldl_expandStep_unbound
  intro m _
  unfold binding lookupNil
  split
  · rfl
  · split
    · rfl
    · split <;> rfl

/-- C19 at the template `cat {i:in} > {o:out}` with a value for `in` in the
map of the parameters only. -/
theorem expand_unchanged_witness :
    expandCommandParamsAndPaths "cat {i:in} > {o:out}".toList
      (some (GoMap.empty.set "in".toList "x.txt".toList)) none none
      = "cat {i:in} > {o:out}".toList :=
  (expand_unchanged "cat {i:in} > {o:out}".toList
    (some (GoMap.empty.set "in".toList "x.txt".toList)) none none).1
    (fun x hx => by
      obtain ⟨m, hm, ht, -⟩ := (findAll_declares "cat {i:in} > {o:out}".toList ['p'] x
        (Or.inr (Or.inr (Or.inr rfl)))).2 hx
      exact absurd ht
        ((by decide : ∀ m ∈ FindAllStringSubmatch "cat {i:in} > {o:out}".toList,
          m.typ ≠ ['p']) m hm))
    (fun _ _ => rfl) (fun _ _ => rfl)

theorem initPorts_foldl_name (params : Option (GoMap Str)) (ms : List Submatch)
    (p : SciProcess) :
    (ms.foldl (initPortsStep params) p).Name = p.Name ∧
    (ms.foldl (initPortsStep params) p).CommandPattern = p.CommandPattern := by
  induction ms generalizing p with
  | nil => exact ⟨rfl, rfl⟩
  | cons m rest ih =>
    rw [List.foldl_cons]
    obtain ⟨h1, h2⟩ := ih (initPortsStep params p m)
    rw [h1, h2]
    unfold initPortsStep
    simp only
    split
    · split <;> exact ⟨rfl, rfl⟩
    · split
      · exact ⟨rfl, rfl⟩
      · split
        · split <;> exact ⟨rfl, rfl⟩
        · exact ⟨rfl, rfl⟩

/-- C20: `ShellExpand(name, cmd, nil, nil, nil)` and `NewFromShell(name, cmd)`
build the same process: the same `Name`, the same `CommandPattern`, which is
`cmd`, and the same keys of `In`, `Out`, `ParamPorts` and
`OutPortsDoStream`. -/
theorem shellExpand_nil_eq_newFromShell (name cmd : Str) :
    ShellExpand name cmd none none none = NewFromShell name cmd ∧
    (ShellExpand name cmd none none none).Name = (NewFromShell name cmd).Name ∧
    (NewFromShell name cmd).Name = name ∧
    (ShellExpand name cmd none none none).CommandPattern = cmd ∧
    (NewFromShell name cmd).CommandPattern = cmd ∧
    (ShellExpand name cmd none none none).In.keys = (NewFromShell name cmd).In.keys ∧
    (ShellExpand name cmd none none none).Out.keys = (NewFromShell name cmd).Out.keys ∧
    (ShellExpand name cmd none none none).ParamPorts.keys
      = (NewFromShell name cmd).ParamPorts.keys ∧
    (ShellExpand name cmd none none none).OutPortsDoStream.keys
      = (NewFromShell name cmd).OutPortsDoStream.keys := by
  have heq : ShellExpand name cmd none none none = NewFromShell name cmd := by
    unfold ShellExpand NewFromShell
    simp only [expand_nil]
  have hn := initPorts_foldl_name none (FindAllStringSubmatch cmd) (NewSciProcess name cmd)
  have hname : (NewFromShell name cmd).Name = name := hn.1
  have hcmd : (NewFromShell name cmd).CommandPattern = cmd := hn.2
  rw [heq]
  exact ⟨rfl, rfl, hname, hcmd, hcmd, rfl, rfl, rfl, rfl⟩

/-! ## C15: the names of the path formatters -/

theorem pathCall_apply_fields (p : SciProcess) (c : PathCall) :
    (c.apply p).Out = p.Out ∧
    ∀ x, x ∈ (c.apply p).PathFormatters.keys ↔ x = c.outPortName ∨ x ∈ p.PathFormatters.keys := by
  cases c with
  | static o path =>
    exact ⟨rfl, fun x => GoMap.mem_keys_set _ _ _ x⟩
  | extend i o ext =>
    exact ⟨rfl, fun x => GoMap.mem_keys_set _ _ _ x⟩
  | replace i o old new =>
    exact ⟨rfl, fun x => GoMap.mem_keys_set _ _ _ x⟩

theorem applyCalls_fields (p : SciProcess) (calls : List PathCall) :
    (applyCalls p calls).Out = p.Out ∧
    ∀ x, x ∈ (applyCalls p calls).PathFormatters.keys ↔
      x ∈ p.PathFormatters.keys ∨ ∃ c ∈ calls, c.outPortName = x := by
  induction calls generalizing p with
  | nil =>
    refine ⟨rfl, fun x => ?_⟩
    simp [applyCalls]
  | cons c rest ih =>
    obtain ⟨h1, h2⟩ := ih (c.apply p)
    obtain ⟨g1, g2⟩ := pathCall_apply_fields p c
    have hcons : applyCalls p (c :: rest) = applyCalls (c.apply p) rest := rfl
    rw [hcons]
    refine ⟨h1.trans g1, fun x => ?_⟩
    rw [h2, g2]
    constructor
    · rintro ((h | h) | ⟨c', hc', h⟩)
      · exact Or.inr ⟨c, List.mem_cons_self _ _, h.symm⟩
      · exact Or.inl h
      · exact Or.inr ⟨c', List.mem_cons_of_mem _ hc', h⟩
    · rintro (h | ⟨c', hc', h⟩)
      · exact Or.inl (Or.inr h)
      · rcases List.mem_cons.1 hc' with hh | hh
        · rw [hh] at h
          exact Or.inl (Or.inl h.symm)
        · exact Or.inr ⟨c', hh, h⟩

theorem initPorts_foldl_formatters (params : Option (GoMap Str)) (ms : List Submatch)
    (p : SciProcess) :
    (ms.foldl (initPortsStep params) p).PathFormatters.keys = p.PathFormatters.keys := by
  induction ms generalizing p with
  | nil => rfl
  | cons m rest ih =>
    rw [List.foldl_cons, ih]
    unfold initPortsStep
    simp only
    split
    · split <;> rfl
    · split
      · rfl
      · split
        · split <;> rfl
        · rfl

theorem fresh_formatters (name cmd : Str) (inPaths outPaths params : Option (GoMap Str)) :
    (NewFromShell name cmd).PathFormatters.keys = [] ∧
    (ShellExpand name cmd inPaths outPaths params).PathFormatters.keys = [] := by
  refine ⟨?_, ?_⟩
  · unfold NewFromShell initPortsFromCmdPattern
    rw [initPorts_foldl_formatters]
    rfl
  · unfold ShellExpand initPortsFromCmdPattern
    simp only
    rw [initPorts_foldl_formatters]
    rfl

/-- C15, the counterexample: after `SetPathStatic("stray", "s.txt")` on the
process of `echo > {o:out}` the name `stray` is a key of `PathFormatters` and
no key of `Out`. -/
theorem formatter_for_missing_port :
    "stray".toList ∈ (applyCalls (NewFromShell "t".toList "echo > {o:out}".toList)
      [PathCall.static "stray".toList "s.txt".toList]).PathFormatters.keys ∧
    "stray".toList ∉ (applyCalls (NewFromShell "t".toList "echo > {o:out}".toList)
      [PathCall.static "stray".toList "s.txt".toList]).Out.keys := by
  refine ⟨by decide, by decide⟩

/-- C15, amended: for a process obtained from `NewFromShell` or `ShellExpand`
followed by a sequence of `SetPathStatic`, `SetPathExtend` and
`SetPathReplace` calls, every key of `PathFormatters` is a key of `Out`
exactly when every call was made for the name of an output port of the
process; the keys of `PathFormatters` are the names the calls were made
for. -/
theorem formatters_name_ports_iff (p0 : SciProcess) (calls : List PathCall)
    (hp0 : (∃ name cmd, p0 = NewFromShell name cmd) ∨
      (∃ name cmd inPaths outPaths params, p0 = ShellExpand name cmd inPaths outPaths params)) :
    (∀ x, x ∈ (applyCalls p0 calls).PathFormatters.keys ↔ ∃ c ∈ calls, c.outPortName = x) ∧
    ((∀ k ∈ (applyCalls p0 calls).PathFormatters.keys, k ∈ (applyCalls p0 calls).Out.keys) ↔
      ∀ c ∈ calls, c.outPortName ∈ p0.Out.keys) := by
  have hfresh : p0.PathFormatters.keys = [] := by
    rcases hp0 with ⟨name, cmd, rfl⟩ | ⟨name, cmd, i, o, ps, rfl⟩
    · exact (fresh_formatters name cmd none none none).1
    · exact (fresh_formatters name cmd i o ps).2
  obtain ⟨hOut, hKeys⟩ := applyCalls_fields p0 calls
  have hk : ∀ x, x ∈ (applyCalls p0 calls).PathFormatters.keys ↔
      ∃ c ∈ calls, c.outPortName = x := by
    intro x
    rw [hKeys, hfresh]
    constructor
    · rintro (h | h)
      · exact absurd h (List.not_mem_nil _)
      · exact h
    · exact Or.inr
  refine ⟨hk, ?_⟩
  rw [hOut]
  constructor
  · intro h c hc
    exact h _ ((hk _).2 ⟨c, hc, rfl⟩)
  · intro h k hkmem
    obtain ⟨c, hc, rfl⟩ := (hk k).1 hkmem
    exact h c hc

/-- C15, amended, at the calls of the test `TestGlobOutputs` on the process
of `cp {i:in} {o:out}`. -/
theorem formatters_name_ports_iff_witness :
    (∀ x, x ∈ (applyCalls (NewFromShell "copy".toList "cp {i:in} {o:out}".toList)
        [PathCall.extend "in".toList "out".toList ".copy".toList]).PathFormatters.keys ↔
      ∃ c ∈ [PathCall.extend "in".toList "out".toList ".copy".toList], c.outPortName = x) ∧
    ((∀ k ∈ (applyCalls (NewFromShell "copy".toList "cp {i:in} {o:out}".toList)
        [PathCall.extend "in".toList "out".toList ".copy".toList]).PathFormatters.keys,
        k ∈ (applyCalls (NewFromShell "copy".toList "cp {i:in} {o:out}".toList)
          [PathCall.extend "in".toList "out".toList ".copy".toList]).Out.keys) ↔
      ∀ c ∈ [PathCall.extend "in".toList "out".toList ".copy".toList],
        c.outPortName ∈ (NewFromShell "copy".toList "cp {i:in} {o:out}".toList).Out.keys) :=
  formatters_name_ports_iff (NewFromShell "copy".toList "cp {i:in} {o:out}".toList)
    [PathCall.extend "in".toList "out".toList ".copy".toList]
    (Or.inl ⟨"copy".toList, "cp {i:in} {o:out}".toList, rfl⟩)

/-! ## C16 and C17: the formatters of `SetPathExtend` and `SetPathReplace` -/

theorem foldl_set_get_not_mem {V W : Type} (g : Str × W → V) (l : List (Str × W))
    (acc : GoMap V) (k : Str) (hk : k ∉ l.map Prod.fst) :
    (l.foldl (fun acc e => acc.set e.1 (g e)) acc).get k = acc.get k := by
  induction l generalizing acc with
  | nil => rfl
  | cons e rest ih =>
    rw [List.map_cons, List.mem_cons, not_or] at hk
    rw [List.foldl_cons, ih _ hk.2, GoMap.get_set_ne _ _ _ _ hk.1]

theorem foldl_set_get {V W : Type} (g : Str × W → V) (l : List (Str × W))
    (hnd : (l.map Prod.fst).Nodup) (acc : GoMap V) (k : Str) (w : W) (hk : (k, w) ∈ l) :
    (l.foldl (fun acc e => acc.set e.1 (g e)) acc).get k = some (g (k, w)) := by
  induction l generalizing acc with
  | nil => exact absurd hk (List.not_mem_nil _)
  | cons e rest ih =>
    rw [List.map_cons, List.nodup_cons] at hnd
    rw [List.foldl_cons]
    rcases List.mem_cons.1 hk with h | h
    · subst h
      rw [foldl_set_get_not_mem g rest _ k hnd.1]
      exact GoMap.get_set_self _ _ _
    · exact ih hnd.2 _ h

theorem taskOf_out_target (p : SciProcess) (ins : List (Str × List FileTarget))
    (prms : List (Str × List Str)) (o : Str) (fmt : SciTask → Option Str)
    (h : p.PathFormatters.get o = some fmt) (t : SciTask) (ht : taskOf p ins prms = some t) :
    ∃ (t0 : SciTask) (path : Str), t0.InTargets = (receiveInputs ins).1 ∧
      t0.Params = (receiveParams prms).1 ∧ fmt t0 = some path ∧
      t.OutTargets.get o = some ⟨path, (p.OutPortsDoStream.get o).getD false⟩ := by
  obtain ⟨-, -, hsome, hout⟩ := taskOf_fields p ins prms t ht
  have hmem := GoMap.mem_of_get _ _ _ h
  have hs := hsome (o, fmt) hmem
  obtain ⟨path, hpath⟩ := Option.isSome_iff_exists.1 hs
  refine ⟨⟨p.Name, p.CommandPattern, [], (receiveInputs ins).1, GoMap.empty,
    (receiveParams prms).1, none⟩, path, rfl, rfl, hpath, ?_⟩
  rw [hout, foldl_set_get _ p.PathFormatters.entries p.PathFormatters.nodup _ o fmt hmem]
  simp only at hpath
  simp only [hpath, Option.getD_some]

theorem inPath_of_get (t : SciTask) (i : Str) (ft : FileTarget)
    (h : t.InTargets.get i = some ft) : inPath t i = some ft.GetPath := by
  unfold inPath
  rw [h]

theorem inPath_of_get_none (t : SciTask) (i : Str) (h : t.InTargets.get i = none) :
    inPath t i = none := by
  unfold inPath
  rw [h]

/-- C16: after `SetPathExtend(inPortName, outPortName, extension)` the
formatter registered for `outPortName` returns, for every task whose
`InTargets` contains `inPortName`, the path of that input target followed by
`extension`, and the formatters registered for other output ports are
unchanged; a task that `createTasks` instantiates from an input target on
`inPortName` has that path for its output target on `outPortName`.  On a task
without the input the formatter panics. -/
theorem setPathExtend_formatter (p : SciProcess) (inPortName outPortName extension : Str) :
    (∀ (t : SciTask) (ft : FileTarget), t.InTargets.get inPortName = some ft →
      ∃ fmt, (SetPathExtend p inPortName outPortName extension).PathFormatters.get outPortName
          = some fmt ∧ fmt t = some (ft.GetPath ++ extension)) ∧
    (∀ x, x ≠ outPortName →
      (SetPathExtend p inPortName outPortName extension).PathFormatters.get x
        = p.PathFormatters.get x) ∧
    (∀ ins prms (ft : FileTarget) (t : SciTask),
      (receiveInputs ins).1.get inPortName = some ft →
      taskOf (SetPathExtend p inPortName outPortName extension) ins prms = some t →
      (t.OutTargets.get outPortName).map FileTarget.GetPath = some (ft.GetPath ++ extension)) ∧
    (∀ (t : SciTask), t.InTargets.get inPortName = none →
      ∃ fmt, (SetPathExtend p inPortName outPortName extension).PathFormatters.get outPortName
          = some fmt ∧ fmt t = none) := by
  have hget : (SetPathExtend p inPortName outPortName extension).PathFormatters.get outPortName
      = some (fun t =>
        match inPath t inPortName with
        | some path => some (path ++ extension)
        | none => none) := GoMap.get_set_self _ _ _
  refine ⟨?_, ?_, ?_, ?_⟩
  · intro t ft h
    refine ⟨_, hget, ?_⟩
    simp only [inPath_of_get t inPortName ft h]
  · intro x hx
    exact GoMap.get_set_ne _ _ _ _ hx
  · intro ins prms ft t h ht
    obtain ⟨t0, path, h1, -, h3, h4⟩ := taskOf_out_target
      (SetPathExtend p inPortName outPortName extension) ins prms outPortName _ hget t ht
    rw [h4]
    have := inPath_of_get t0 inPortName ft (by rw [h1]; exact h)
    simp only [this, Option.some.injEq] at h3
    simp only [Option.map_some', FileTarget.GetPath, Option.some.injEq]
    exact h3.symm
  · intro t h
    refine ⟨_, hget, ?_⟩
    simp only [inPath_of_get_none t inPortName h]

theorem replaceFrom_not_occ (old new : Str) (c : Char) (s : Str)
    (h : ¬ ∃ t, c :: s = old ++ t) :
    replaceFrom old new 0 (c :: s) = c :: replaceFrom old new 0 s := by
  have hp : ¬ old.isPrefixOf (c :: s) = true := by
    rw [List.isPrefixOf_iff_prefix]
    rintro ⟨t, ht⟩
    exact h ⟨t, ht.symm⟩
  rw [replaceFrom_zero_cons, if_neg hp]

theorem replaceFrom_spec (old new : Str) (hold : old ≠ []) (s : Str) :
    ReplacedAll old new s (replaceFrom old new 0 s) := by
  have key : ∀ n (s : Str), s.length ≤ n → ReplacedAll old new s (replaceFrom old new 0 s) := by
    intro n
    induction n with
    | zero =>
      intro s hs
      have : s = [] := List.length_eq_zero.1 (Nat.le_zero.1 hs)
      subst this
      exact ReplacedAll.done
    | succ n ih =>
      intro s hs
      cases s with
      | nil => exact ReplacedAll.done
      | cons c s' =>
        by_cases hocc : ∃ t, c :: s' = old ++ t
        · obtain ⟨t, ht⟩ := hocc
          rw [ht, replaceFrom_match old new t hold]
          refine ReplacedAll.occurrence t _ (ih t ?_)
          have hl := congrArg List.length ht
          have hpos : 0 < old.length := List.length_pos.2 hold
          simp only [List.length_cons, List.length_append] at hl hs
          omega
        · rw [replaceFrom_not_occ old new c s' hocc]
          refine ReplacedAll.other c s' _ hocc (ih s' ?_)
          simp only [List.length_cons] at hs
          omega
  exact key s.length s (Nat.le_refl _)

theorem replaceFrom_unique (old new : Str) (hold : old ≠ []) (s r : Str)
    (h : ReplacedAll old new s r) : r = replaceFrom old new 0 s := by
  induction h with
  | done => rfl
  | occurrence rest r _ ih => rw [replaceFrom_match old new rest hold, ih]
  | other c s r hocc _ ih => rw [replaceFrom_not_occ old new c s hocc, ih]

theorem replace_no_occurrence (old new s : Str)
    (h : ¬ ∃ pre post, s = pre ++ old ++ post) : Replace s old new = s := by
  have hold : old ≠ [] := by
    intro hc
    exact h ⟨s, [], by rw [hc]; simp⟩
  unfold Replace
  rw [if_neg hold]
  induction s with
  | nil => rfl
  | cons c s' ih =>
    have hocc : ¬ ∃ t, c :: s' = old ++ t := by
      rintro ⟨t, ht⟩
      exact h ⟨[], t, by rw [ht]; rfl⟩
    rw [replaceFrom_not_occ old new c s' hocc, ih]
    rintro ⟨pre, post, hs⟩
    exact h ⟨c :: pre, post, by rw [hs]; rfl⟩

/-- C17: after `SetPathReplace(inPortName, outPortName, old, new)` the
formatter registered for `outPortName` returns, for every task whose
`InTargets` contains `inPortName`, the value of `strings.Replace` on the path
of that input target: for a non-empty `old` the path with all
non-overlapping occurrences of `old`, scanned from the left, replaced by
`new`, and nothing else; the path itself when `old` does not occur in it; and
for the empty `old`, `new` before every character and at the end.  A task
that `createTasks` instantiates has that path for its output target.  On a
task without the input the formatter panics. -/
theorem setPathReplace_formatter (p : SciProcess) (inPortName outPortName old new : Str) :
    (∀ (t : SciTask) (ft : FileTarget), t.InTargets.get inPortName = some ft →
      ∃ fmt r, (SetPathReplace p inPortName outPortName old new).PathFormatters.get outPortName
          = some fmt ∧
        fmt t = some r ∧
        r = Replace ft.GetPath old new ∧
        (old ≠ [] → ReplacedAll old new ft.GetPath r) ∧
        (old ≠ [] → ∀ r', ReplacedAll old new ft.GetPath r' → r' = r) ∧
        ((¬ ∃ pre post, ft.GetPath = pre ++ old ++ post) → r = ft.GetPath) ∧
        (old = [] → r = new ++ (ft.GetPath.map (fun c => c :: new)).flatten)) ∧
    (∀ x, x ≠ outPortName →
      (SetPathReplace p inPortName outPortName old new).PathFormatters.get x
        = p.PathFormatters.get x) ∧
    (∀ ins prms (ft : FileTarget) (t : SciTask),
      (receiveInputs ins).1.get inPortName = some ft →
      taskOf (SetPathReplace p inPortName outPortName old new) ins prms = some t →
      (t.OutTargets.get outPortName).map FileTarget.GetPath
        = some (Replace ft.GetPath old new)) ∧
    (∀ (t : SciTask), t.InTargets.get inPortName = none →
      ∃ fmt, (SetPathReplace p inPortName outPortName old new).PathFormatters.get outPortName
          = some fmt ∧ fmt t = none) := by
  have hget : (SetPathReplace p inPortName outPortName old new).PathFormatters.get outPortName
      = some (fun t =>
        match inPath t inPortName with
        | some path => some (Replace path old new)
        | none => none) := GoMap.get_set_self _ _ _
  refine ⟨?_, ?_, ?_, ?_⟩
  · intro t ft h
    refine ⟨_, Replace ft.GetPath old new, hget, ?_, rfl, ?_, ?_, ?_, ?_⟩
    · simp only [inPath_of_get t inPortName ft h]
    · intro hold
      unfold Replace
      rw [if_neg hold]
      exact replaceFrom_spec old new hold _
    · intro hold r hr
      unfold Replace
      rw [if_neg hold]
      exact replaceFrom_unique old new hold _ r hr
    · intro hno
      exact replace_no_occurrence old new _ hno
    · intro hold
      unfold Replace
      rw [if_pos hold]
      congr 1
      induction ft.GetPath with
      | nil => rfl
      | cons c s ih => simp only [List.foldr_cons, List.map_cons, List.flatten_cons, ih,
          List.cons_append]
  · intro x hx
    exact GoMap.get_set_ne _ _ _ _ hx
  · intro ins prms ft t h ht
    obtain ⟨t0, path, h1, -, h3, h4⟩ := taskOf_out_target
      (SetPathReplace p inPortName outPortName old new) ins prms outPortName _ hget t ht
    rw [h4]
    have := inPath_of_get t0 inPortName ft (by rw [h1]; exact h)
    simp only [this, Option.some.injEq] at h3
    simp only [Option.map_some', FileTarget.GetPath, Option.some.injEq]
    exact h3.symm
  · intro t h
    refine ⟨_, hget, ?_⟩
    simp only [inPath_of_get_none t inPortName h]

/-- C16 at the call of the test `TestGlobOutputs`,
`SetPathExtend("in", "out", ".copy")`, and a task with the input target
`ls.txt.split_aa`. -/
theorem setPathExtend_formatter_witness :
    ∃ fmt, (SetPathExtend (NewFromShell "copy".toList "cp {i:in} {o:out}".toList)
        "in".toList "out".toList ".copy".toList).PathFormatters.get "out".toList = some fmt ∧
      fmt ⟨"copy".toList, "cp {i:in} {o:out}".toList, [],
          GoMap.empty.set "in".toList ⟨"ls.txt.split_aa".toList, false⟩,
          GoMap.empty, GoMap.empty, none⟩
        = some ("ls.txt.split_aa".toList ++ ".copy".toList) :=
  (setPathExtend_formatter (NewFromShell "copy".toList "cp {i:in} {o:out}".toList)
    "in".toList "out".toList ".copy".toList).1
    ⟨"copy".toList, "cp {i:in} {o:out}".toList, [],
      GoMap.empty.set "in".toList ⟨"ls.txt.split_aa".toList, false⟩,
      GoMap.empty, GoMap.empty, none⟩
    ⟨"ls.txt.split_aa".toList, false⟩ (by decide)

/-- C17 at `SetPathReplace("in", "out", ".txt", ".bar")` and a task with the
input target `foo.txt`: the formatter returns `foo.bar`. -/
theorem setPathReplace_formatter_witness :
    ∃ fmt, (SetPathReplace (NewFromShell "t".toList "cat {i:in} > {o:out}".toList)
        "in".toList "out".toList ".txt".toList ".bar".toList).PathFormatters.get "out".toList
          = some fmt ∧
      fmt ⟨"t".toList, "cat {i:in} > {o:out}".toList, [],
          GoMap.empty.set "in".toList ⟨"foo.txt".toList, false⟩,
          GoMap.empty, GoMap.empty, none⟩ = some "foo.bar".toList ∧
      ReplacedAll ".txt".toList ".bar".toList "foo.txt".toList "foo.bar".toList :=
  let ⟨fmt, r, h1, h2, h3, h4, _⟩ :=
    (setPathReplace_formatter (NewFromShell "t".toList "cat {i:in} > {o:out}".toList)
      "in".toList "out".toList ".txt".toList ".bar".toList).1
      ⟨"t".toList, "cat {i:in} > {o:out}".toList, [],
        GoMap.empty.set "in".toList ⟨"foo.txt".toList, false⟩,
        GoMap.empty, GoMap.empty, none⟩
      ⟨"foo.txt".toList, false⟩ (by decide)
  have hr : r = "foo.bar".toList := h3.trans (by decide)
  ⟨fmt, h1, hr ▸ h2, hr ▸ h4 (by decide)⟩

/-! ## C18: the number of tasks -/

/-- C18, the counterexample: `extendProcess` has the input port `in`, which
delivers one target, and the parameter port `v`, which delivers two strings,
so `max(a, b)` is two.  The second iteration comes to the instantiation
without a target for `in`, the instantiation fails, and `createTasks` has
emitted one task. -/
theorem createTasks_partial_iteration_fails :
    ∃ t, createTasks extendProcess = some ⟨[t], false⟩ ∧
      extendProcess.In.entries ≠ [] ∧ extendProcess.ParamPorts.entries ≠ [] ∧
      max (minPending (inChans extendProcess)) (minPending (paramChans extendProcess)) = 2 := by
  refine ⟨_, rfl, by decide, by decide, by decide⟩

/-- C18, amended: with `a` the number of values on the shortest input channel
and `b` the number on the shortest parameter channel, let `n` be one when the
process has no ports, `a` when it has input ports only, `b` when it has
parameter ports only, and `max(a, b)` when it has ports of both kinds.
`createTasks` emits one task per iteration up to the first iteration whose
instantiation fails: at most `n` tasks, and exactly `n` tasks, followed by
the closing of the task channel, exactly when no instantiation fails; when
one fails, it is that of the iteration after the last task emitted, and fewer
than `n` tasks were emitted. -/
theorem createTasks_count (p : SciProcess) :
    ∃ r n, createTasks p = some r ∧
      (p.In.entries = [] → p.ParamPorts.entries = [] → n = 1) ∧
      (p.In.entries ≠ [] → p.ParamPorts.entries = [] → n = minPending (inChans p)) ∧
      (p.In.entries = [] → p.ParamPorts.entries ≠ [] → n = minPending (paramChans p)) ∧
      (p.In.entries ≠ [] → p.ParamPorts.entries ≠ [] →
        n = max (minPending (inChans p)) (minPending (paramChans p))) ∧
      (∀ e ∈ p.In.entries, minPending (inChans p) ≤ e.2.Chan.length) ∧
      (p.In.entries ≠ [] → ∃ e ∈ p.In.entries, e.2.Chan.length = minPending (inChans p)) ∧
      (∀ e ∈ p.ParamPorts.entries, minPending (paramChans p) ≤ e.2.Chan.length) ∧
      (p.ParamPorts.entries ≠ [] →
        ∃ e ∈ p.ParamPorts.entries, e.2.Chan.length = minPending (paramChans p)) ∧
      r.tasks.length ≤ n ∧
      (r.closed = true ↔ r.tasks.length = n) ∧
      (r.closed = false →
        taskOf p (afterReceives r.tasks.length (inChans p))
          (afterReceives r.tasks.length (paramChans p)) = none) ∧
      ((∀ k, k < n →
          (taskOf p (afterReceives k (inChans p)) (afterReceives k (paramChans p))).isSome
            = true) →
        r.tasks.length = n ∧ r.closed = true) := by
  obtain ⟨r, hr, hle, hiff, hfail, hall, -⟩ := createTasks_shape p
  refine ⟨r, taskCount (inChans p) (paramChans p), hr, ?_, ?_, ?_, ?_, ?_, ?_, ?_, ?_,
    hle, hiff, hfail, hall⟩
  · intro hi hp
    rw [(inChans_eq_nil_iff p).2 hi, (paramChans_eq_nil_iff p).2 hp]
    rfl
  · intro hi hp
    rw [(paramChans_eq_nil_iff p).2 hp]
    cases hc : inChans p with
    | nil => exact absurd ((inChans_eq_nil_iff p).1 hc) hi
    | cons d rest => rfl
  · intro hi hp
    rw [(inChans_eq_nil_iff p).2 hi]
    cases hc : paramChans p with
    | nil => exact absurd ((paramChans_eq_nil_iff p).1 hc) hp
    | cons d rest => rfl
  · intro hi hp
    cases hc : inChans p with
    | nil => exact absurd ((inChans_eq_nil_iff p).1 hc) hi
    | cons d rest =>
      cases hc' : paramChans p with
      | nil => exact absurd ((paramChans_eq_nil_iff p).1 hc') hp
      | cons d' rest' => rfl
  · intro e he
    exact minPending_le (inChans p) (e.1, e.2.Chan) (by
      unfold inChans
      exact List.mem_map.2 ⟨e, he, rfl⟩)
  · intro hi
    obtain ⟨e, he, hl⟩ := minPending_attained (inChans p)
      (fun hc => hi ((inChans_eq_nil_iff p).1 hc))
    unfold inChans at he
    obtain ⟨e0, he0, rfl⟩ := List.mem_map.1 he
    exact ⟨e0, he0, hl⟩
  · intro e he
    exact minPending_le (paramChans p) (e.1, e.2.Chan) (by
      unfold paramChans
      exact List.mem_map.2 ⟨e, he, rfl⟩)
  · intro hp
    obtain ⟨e, he, hl⟩ := minPending_attained (paramChans p)
      (fun hc => hp ((paramChans_eq_nil_iff p).1 hc))
    unfold paramChans at he
    obtain ⟨e0, he0, rfl⟩ := List.mem_map.1 he
    exact ⟨e0, he0, hl⟩

/-- C18, amended, at `unevenProcess`, with two values on its input port and
one on its parameter port, whose command has no placeholder: both
instantiations succeed and two tasks are emitted. -/
theorem createTasks_count_witness :
    ∃ r, createTasks unevenProcess = some r ∧ r.tasks.length = 2 ∧ r.closed = true ∧
      max (minPending (inChans unevenProcess)) (minPending (paramChans unevenProcess)) = 2 :=
  let ⟨r, n, h, _, _, _, h4, _, _, _, _, _, _, _, hall⟩ := createTasks_count unevenProcess
  have hn : n = 2 := (h4 (by decide) (by decide)).trans (by decide)
  ⟨r, h, hn ▸ (hall (hn ▸ by decide)).1, (hall (hn ▸ by decide)).2, by decide⟩

/-! ## C12: the order of the actions of `Run` -/

theorem before_of_not_mem (a b : Action) (l : List Action) (h : b ∉ l) : Before a b l := by
  intro pre post hl
  exfalso
  apply h
  rw [hl]
  simp

theorem before_nil (a b : Action) : Before a b [] :=
  before_of_not_mem a b [] (List.not_mem_nil _)

theorem before_append (a b : Action) (l l' : List Action) (h : Before a b l)
    (h' : Before a b l') : Before a b (l ++ l') := by
  intro pre post hl
  rw [List.append_eq_append_iff] at hl
  rcases hl with ⟨a', hpre, hl'⟩ | ⟨c', hl1, hl2⟩
  · rw [hpre]
    exact List.mem_append_right _ (h' a' post hl')
  · cases c' with
    | nil =>
      rw [List.nil_append] at hl2
      exact absurd (h' [] post hl2.symm) (List.not_mem_nil _)
    | cons c c'' =>
      simp only [List.cons_append, List.cons.injEq] at hl2
      exact h pre c'' (by rw [hl1, hl2.1])

theorem before_append_of_mem (a b : Action) (l l' : List Action) (ha : a ∈ l) (hb : b ∉ l) :
    Before a b (l ++ l') := by
  intro pre post hl
  rw [List.append_eq_append_iff] at hl
  rcases hl with ⟨a', hpre, -⟩ | ⟨c', hl1, hl2⟩
  · rw [hpre]
    exact List.mem_append_left _ ha
  · cases c' with
    | nil =>
      rw [List.append_nil] at hl1
      rw [← hl1]
      exact ha
    | cons c c'' =>
      simp only [List.cons_append, List.cons.injEq] at hl2
      exfalso
      apply hb
      rw [hl1, hl2.1]
      simp

theorem sendTargets_mem (out : GoMap FilePort) (b : Bool) (i : Nat)
    (l : List (Str × FileTarget)) (a : Action) (ha : a ∈ (sendTargets out b i l).1) :
    ∃ x tg, a = Action.send i x tg ∧ (x, tg) ∈ l ∧ tg.doStream = b := by
  induction l with
  | nil => exact absurd ha (List.not_mem_nil _)
  | cons e rest ih =>
    rcases e with ⟨k, tg⟩
    unfold sendTargets at ha
    by_cases hb : tg.doStream = b
    · rw [if_pos hb] at ha
      cases hg : out.get k with
      | none =>
        rw [hg] at ha
        exact absurd ha (List.not_mem_nil _)
      | some v =>
        rw [hg] at ha
        simp only at ha
        rcases List.mem_cons.1 ha with h | h
        · exact ⟨k, tg, h, List.mem_cons_self _ _, hb⟩
        · obtain ⟨x, tg', h1, h2, h3⟩ := ih h
          exact ⟨x, tg', h1, List.mem_cons_of_mem _ h2, h3⟩
    · rw [if_neg hb] at ha
      obtain ⟨x, tg', h1, h2, h3⟩ := ih ha
      exact ⟨x, tg', h1, List.mem_cons_of_mem _ h2, h3⟩

theorem sendTargets_complete (out : GoMap FilePort) (b : Bool) (i : Nat)
    (l : List (Str × FileTarget)) (hok : (sendTargets out b i l).2 = true) (x : Str)
    (tg : FileTarget) (hx : (x, tg) ∈ l) (hb : tg.doStream = b) :
    Action.send i x tg ∈ (sendTargets out b i l).1 := by
  induction l with
  | nil => exact absurd hx (List.not_mem_nil _)
  | cons e rest ih =>
    rcases e with ⟨k, tg'⟩
    unfold sendTargets at hok ⊢
    by_cases hb' : tg'.doStream = b
    · rw [if_pos hb'] at hok ⊢
      cases hg : out.get k with
      | none =>
        rw [hg] at hok
        simp at hok
      | some v =>
        rw [hg] at hok
        simp only at hok ⊢
        rcases List.mem_cons.1 hx with h | h
        · cases h
          exact List.mem_cons_self _ _
        · exact List.mem_cons_of_mem _ (ih hok h)
    · rw [if_neg hb'] at hok ⊢
      rcases List.mem_cons.1 hx with h | h
      · cases h
        exact absurd hb hb'
      · exact ih hok h

theorem runOrder_nil (f : Nat → Bool) (ts : List SciTask) : RunOrder f ts [] :=
  ⟨fun _ _ _ _ _ _ _ => ⟨before_nil _ _, before_nil _ _⟩, fun _ _ _ _ _ => before_nil _ _,
    fun _ _ _ _ => before_nil _ _⟩

theorem runOrder_append (f : Nat → Bool) (ts : List SciTask) (l l' : List Action)
    (h : RunOrder f ts l) (h' : RunOrder f ts l') : RunOrder f ts (l ++ l') :=
  ⟨fun i t x tg h1 h2 h3 =>
      ⟨before_append _ _ l l' (h.streamFirst i t x tg h1 h2 h3).1
          (h'.streamFirst i t x tg h1 h2 h3).1,
        before_append _ _ l l' (h.streamFirst i t x tg h1 h2 h3).2
          (h'.streamFirst i t x tg h1 h2 h3).2⟩,
    fun i x tg h1 h2 => before_append _ _ l l' (h.fifosFirst i x tg h1 h2)
      (h'.fifosFirst i x tg h1 h2),
    fun i x tg h1 => before_append _ _ l l' (h.doneFirst i x tg h1) (h'.doneFirst i x tg h1)⟩

theorem runOrder_closeOutPorts (f : Nat → Bool) (ts : List SciTask) (p : SciProcess) :
    RunOrder f ts (closeOutPorts p) := by
  have hmem : ∀ a ∈ closeOutPorts p, ∃ x, a = Action.closePort x := by
    intro a ha
    unfold closeOutPorts at ha
    obtain ⟨e, -, rfl⟩ := List.mem_map.1 ha
    exact ⟨e.1, rfl⟩
  refine ⟨fun i t x tg _ _ _ => ⟨?_, ?_⟩, fun i x tg _ _ => ?_, fun i x tg _ => ?_⟩ <;>
  · apply before_of_not_mem
    intro hc
    obtain ⟨y, hy⟩ := hmem _ hc
    exact absurd hy (by simp)

theorem runOrder_firstLoop (p : SciProcess) (f : Nat → Bool) (ts : List SciTask) (i : Nat)
    (t : SciTask) (hi : ts[i]? = some t) (tail : List Action)
    (htail : tail = closeOutPorts p ∧ (sendTargets p.Out true i t.OutTargets.entries).2 = false ∨
      tail = [if f i = true then Action.goSendDone i else Action.goExecute i] ∧
        (sendTargets p.Out true i t.OutTargets.entries).2 = true) :
    RunOrder f ts ((if f i = true then [] else [Action.createFifos i])
      ++ (sendTargets p.Out true i t.OutTargets.entries).1 ++ tail) := by
  have hS := sendTargets_mem p.Out true i t.OutTargets.entries
  have hfifo : ∀ a ∈ (if f i = true then [] else [Action.createFifos i]),
      a = Action.createFifos i ∧ f i = false := by
    intro a ha
    by_cases hf : f i = true
    · rw [if_pos hf] at ha
      exact absurd ha (List.not_mem_nil _)
    · rw [if_neg hf] at ha
      exact ⟨List.mem_singleton.1 ha, by simpa using hf⟩
  have hhead : ∀ a ∈ (if f i = true then [] else [Action.createFifos i])
      ++ (sendTargets p.Out true i t.OutTargets.entries).1,
      a = Action.createFifos i ∨ ∃ x tg, a = Action.send i x tg ∧ tg.doStream = true := by
    intro a ha
    rcases List.mem_append.1 ha with h | h
    · exact Or.inl (hfifo a h).1
    · obtain ⟨x, tg, h1, -, h3⟩ := hS a h
      exact Or.inr ⟨x, tg, h1, h3⟩
  have hlaunch : ∀ a, (a = Action.goExecute i ∨ a = Action.goSendDone i) →
      a ∉ (if f i = true then [] else [Action.createFifos i])
        ++ (sendTargets p.Out true i t.OutTargets.entries).1 := by
    intro a ha hc
    rcases hhead a hc with h | ⟨x, tg, h, -⟩ <;> rcases ha with ha | ha <;>
      rw [ha] at h <;> exact absurd h (by simp)
  rcases htail with ⟨htl, -⟩ | ⟨htl, hok⟩
  · -- the send panicked: the block ends with the closing of the ports
    rw [htl]
    refine runOrder_append f ts _ _ ?_ (runOrder_closeOutPorts f ts p)
    refine ⟨fun j t' x tg _ _ _ => ⟨?_, ?_⟩, fun j x tg hst hfj => ?_, fun j x tg hst => ?_⟩
    · apply before_of_not_mem
      intro hc
      rcases hhead _ hc with h | ⟨_, _, h, -⟩ <;> exact absurd h (by simp)
    · apply before_of_not_mem
      intro hc
      rcases hhead _ hc with h | ⟨_, _, h, -⟩ <;> exact absurd h (by simp)
    · by_cases hji : j = i
      · subst hji
        rw [if_neg (by simp [hfj])]
        rw [List.singleton_append]
        intro pre post hl
        cases pre with
        | nil =>
          simp only [List.nil_append, List.cons.injEq] at hl
          exact absurd hl.1 (by simp)
        | cons c pre' =>
          simp only [List.cons_append, List.cons.injEq] at hl
          rw [← hl.1]
          exact List.mem_cons_self _ _
      · apply before_of_not_mem
        intro hc
        rcases hhead _ hc with h | ⟨_, _, h, -⟩
        · exact absurd h (by simp)
        · simp only [Action.send.injEq] at h
          exact hji h.1
    · apply before_of_not_mem
      intro hc
      rcases hhead _ hc with h | ⟨_, tg', h, h'⟩
      · exact absurd h (by simp)
      · simp only [Action.send.injEq] at h
        rw [h.2.2, h'] at hst
        exact absurd hst (by decide)
  · rw [htl]
    refine ⟨fun j t' x tg hj hx hst => ?_, fun j x tg hst hfj => ?_, fun j x tg hst => ?_⟩
    · by_cases hji : j = i
      · subst hji
        rw [hi] at hj
        simp only [Option.some.injEq] at hj
        subst hj
        have hsent := sendTargets_complete p.Out true j t.OutTargets.entries hok x tg hx hst
        have hin : Action.send j x tg ∈ (if f j = true then [] else [Action.createFifos j])
            ++ (sendTargets p.Out true j t.OutTargets.entries).1 :=
          List.mem_append_right _ hsent
        exact ⟨before_append_of_mem _ _ _ _ hin (hlaunch _ (Or.inl rfl)),
          before_append_of_mem _ _ _ _ hin (hlaunch _ (Or.inr rfl))⟩
      · refine ⟨?_, ?_⟩ <;>
        · apply before_of_not_mem
          intro hc
          rcases List.mem_append.1 hc with h | h
          · rcases hhead _ h with h' | ⟨_, _, h', -⟩ <;> exact absurd h' (by simp)
          · rw [List.mem_singleton] at h
            by_cases hf : f i = true
            · rw [if_pos hf] at h
              first
                | (simp at h; done)
                | (simp at h; exact hji h)
            · rw [if_neg hf] at h
              first
                | (simp at h; done)
                | (simp at h; exact hji h)
    · by_cases hji : j = i
      · subst hji
        rw [if_neg (by simp [hfj])]
        rw [List.singleton_append, List.cons_append]
        intro pre post hl
        cases pre with
        | nil =>
          simp only [List.nil_append, List.cons.injEq] at hl
          exact absurd hl.1 (by simp)
        | cons c pre' =>
          simp only [List.cons_append, List.cons.injEq] at hl
          rw [← hl.1]
          exact List.mem_cons_self _ _
      · apply before_of_not_mem
        intro hc
        rcases List.mem_append.1 hc with h | h
        · rcases hhead _ h with h' | ⟨_, _, h', -⟩
          · exact absurd h' (by simp)
          · simp only [Action.send.injEq] at h'
            exact hji h'.1
        · rw [List.mem_singleton] at h
          by_cases hf : f i = true
          · rw [if_pos hf] at h; exact absurd h (by simp)
          · rw [if_neg hf] at h; exact absurd h (by simp)
    · apply before_of_not_mem
      intro hc
      rcases List.mem_append.1 hc with h | h
      · rcases hhead _ h with h' | ⟨_, tg', h', h''⟩
        · exact absurd h' (by simp)
        · simp only [Action.send.injEq] at h'
          rw [h'.2.2, h''] at hst
          exact absurd hst (by decide)
      · rw [List.mem_singleton] at h
        by_cases hf : f i = true
        · rw [if_pos hf] at h; exact absurd h (by simp)
        · rw [if_neg hf] at h; exact absurd h (by simp)
theorem runOrder_secondLoop (p : SciProcess) (f : Nat → Bool) (ts : List SciTask) (r : Nat)
    (t : SciTask) :
    RunOrder f ts ([Action.receiveDone r] ++ (sendTargets p.Out false r t.OutTargets.entries).1) := by
  have hS := sendTargets_mem p.Out false r t.OutTargets.entries
  have hmem : ∀ a ∈ [Action.receiveDone r] ++ (sendTargets p.Out false r t.OutTargets.entries).1,
      a = Action.receiveDone r ∨ ∃ x tg, a = Action.send r x tg ∧ tg.doStream = false := by
    intro a ha
    rcases List.mem_append.1 ha with h | h
    · exact Or.inl (List.mem_singleton.1 h)
    · obtain ⟨x, tg, h1, -, h3⟩ := hS a h
      exact Or.inr ⟨x, tg, h1, h3⟩
  refine ⟨fun j t' x tg _ _ _ => ⟨?_, ?_⟩, fun j x tg hst _ => ?_, fun j x tg hst => ?_⟩
  · apply before_of_not_mem
    intro hc
    rcases hmem _ hc with h | ⟨_, _, h, -⟩ <;> exact absurd h (by simp)
  · apply before_of_not_mem
    intro hc
    rcases hmem _ hc with h | ⟨_, _, h, -⟩ <;> exact absurd h (by simp)
  · apply before_of_not_mem
    intro hc
    rcases hmem _ hc with h | ⟨_, tg', h, h'⟩
    · exact absurd h (by simp)
    · simp only [Action.send.injEq] at h
      rw [h.2.2, h'] at hst
      exact absurd hst (by decide)
  · by_cases hjr : j = r
    · subst hjr
      rw [List.singleton_append]
      intro pre post hl
      cases pre with
      | nil =>
        simp only [List.nil_append, List.cons.injEq] at hl
        exact absurd hl.1 (by simp)
      | cons c pre' =>
        simp only [List.cons_append, List.cons.injEq] at hl
        rw [← hl.1]
        exact List.mem_cons_self _ _
    · apply before_of_not_mem
      intro hc
      rcases hmem _ hc with h | ⟨_, _, h, -⟩
      · exact absurd h (by simp)
      · simp only [Action.send.injEq] at h
        exact hjr h.1

theorem getElem?_of_split (ts tasks rest : List SciTask) (t : SciTask)
    (h : tasks ++ t :: rest = ts) : ts[tasks.length]? = some t := by
  rw [← h, List.getElem?_append_right (Nat.le_refl _)]
  simp

theorem step_order (p : SciProcess) (f : Nat → Bool) (ts : List SciTask) (s s1 : RunState)
    (e : Event) (hsplit : s.tasks ++ s.pending = ts) (ho : RunOrder f ts s.actions)
    (hs : step p f s e = some s1) : RunOrder f ts s1.actions := by
  obtain ⟨pending, tasks, fired, done, received, actions, status⟩ := s
  simp only at hsplit ho
  cases e with
  | task =>
    cases status with
    | returned => simp [step] at hs
    | panicked => simp [step] at hs
    | running =>
      cases pending with
      | nil => simp [step] at hs
      | cons t rest =>
        have hi := getElem?_of_split ts tasks rest t hsplit
        simp only [step] at hs
        split at hs
        · rename_i hok
          simp only [Option.some.injEq] at hs
          subst hs
          simp only [List.append_assoc]
          refine runOrder_append f ts _ _ ho ?_
          have := runOrder_firstLoop p f ts tasks.length t hi _ (Or.inr ⟨rfl, hok⟩)
          simpa only [List.append_assoc] using this
        · rename_i hok
          simp only [Option.some.injEq] at hs
          subst hs
          simp only [List.append_assoc]
          refine runOrder_append f ts _ _ ho ?_
          have := runOrder_firstLoop p f ts tasks.length t hi _
            (Or.inl ⟨rfl, by simpa using hok⟩)
          simpa only [List.append_assoc] using this
  | finish i =>
    simp only [step] at hs
    split at hs
    · simp only [Option.some.injEq] at hs
      subst hs
      exact ho
    · exact absurd hs (by simp)
  | await =>
    cases status with
    | returned => simp [step] at hs
    | panicked => simp [step] at hs
    | running =>
      cases pending with
      | cons t rest => simp [step] at hs
      | nil =>
        cases hd : tasks.drop received with
        | nil => simp [step, hd] at hs
        | cons t rest =>
          simp only [step, hd] at hs
          split at hs
          · split at hs
            · simp only [Option.some.injEq] at hs
              subst hs
              simp only [List.append_assoc]
              refine runOrder_append f ts _ _ ho ?_
              exact runOrder_secondLoop p f ts received t
            · simp only [Option.some.injEq] at hs
              subst hs
              simp only [List.append_assoc]
              refine runOrder_append f ts _ _ ho ?_
              have := runOrder_append f ts _ _ (runOrder_secondLoop p f ts received t)
                (runOrder_closeOutPorts f ts p)
              simpa only [List.append_assoc] using this
          · exact absurd hs (by simp)
  | ret =>
    cases status with
    | returned => simp [step] at hs
    | panicked => simp [step] at hs
    | running =>
      cases pending with
      | cons t rest => simp [step] at hs
      | nil =>
        cases hd : tasks.drop received with
        | cons t rest => simp [step, hd] at hs
        | nil =>
          simp only [step, hd, Option.some.injEq] at hs
          subst hs
          exact runOrder_append f ts _ _ ho (runOrder_closeOutPorts f ts p)

theorem exec_order (p : SciProcess) (f : Nat → Bool) (ts : List SciTask) (es : List Event)
    (s s1 : RunState) (hsplit : s.tasks ++ s.pending = ts) (ho : RunOrder f ts s.actions)
    (hs : exec p f s es = some s1) : RunOrder f ts s1.actions := by
  induction es generalizing s with
  | nil =>
    simp only [exec, Option.some.injEq] at hs
    subst hs
    exact ho
  | cons e rest ih =>
    simp only [exec] at hs
    cases hstep : step p f s e with
    | none => rw [hstep] at hs; exact absurd hs (by simp)
    | some s2 =>
      rw [hstep] at hs
      exact ih s2 (step_split p f ts s s2 e hsplit hstep)
        (step_order p f ts s s2 e hsplit ho hstep) hs

/-- C12: in every run of `Run`, for every task: each streaming output target
of the task is sent on its output port before the execution of the task is
launched (and before the completion signal is sent in its place), when no
FIFO pre-existed the FIFOs of the task are created before any of its
streaming targets is sent, and no non-streaming target of the task is sent
before the completion signal of the task has been received. -/
theorem run_order_of_actions (p : SciProcess) (anyFifosExist : Nat → Bool)
    (ts : List SciTask) (es : List Event) (s : RunState)
    (hs : exec p anyFifosExist (startRun ts) es = some s) :
    (∀ i t x tg, ts[i]? = some t → (x, tg) ∈ t.OutTargets.entries → tg.doStream = true →
      Before (Action.send i x tg) (Action.goExecute i) s.actions ∧
        Before (Action.send i x tg) (Action.goSendDone i) s.actions) ∧
    (∀ i x tg, tg.doStream = true → anyFifosExist i = false →
      Before (Action.createFifos i) (Action.send i x tg) s.actions) ∧
    (∀ i x tg, tg.doStream = false →
      Before (Action.receiveDone i) (Action.send i x tg) s.actions) := by
  have h := exec_order p anyFifosExist ts es (startRun ts) s rfl
    (runOrder_nil anyFifosExist ts) hs
  exact ⟨h.streamFirst, h.fifosFirst, h.doneFirst⟩

/-- C12, at `streamProcess`, whose one task streams its only target: the
FIFOs are created, then the target is sent, then the execution is launched,
then the completion signal is received and the port is closed. -/
theorem run_order_of_actions_witness :
    ∃ s, exec streamProcess (fun _ => false) (startRun (((createTasks streamProcess).getD ⟨[], false⟩).tasks))
        [Event.task, Event.finish 0, Event.await, Event.ret] = some s ∧
      s.actions = [Action.createFifos 0,
        Action.send 0 "lsl".toList ⟨"/tmp/lsl.txt".toList, true⟩,
        Action.goExecute 0, Action.receiveDone 0, Action.closePort "lsl".toList] ∧
      ((∀ i t x tg, (((createTasks streamProcess).getD ⟨[], false⟩).tasks)[i]? = some t →
          (x, tg) ∈ t.OutTargets.entries → tg.doStream = true →
          Before (Action.send i x tg) (Action.goExecute i) s.actions ∧
            Before (Action.send i x tg) (Action.goSendDone i) s.actions) ∧
        (∀ i x tg, tg.doStream = true → (fun _ => false : Nat → Bool) i = false →
          Before (Action.createFifos i) (Action.send i x tg) s.actions) ∧
        (∀ i x tg, tg.doStream = false →
          Before (Action.receiveDone i) (Action.send i x tg) s.actions)) :=
  ⟨_, rfl, by decide,
    run_order_of_actions streamProcess (fun _ => false)
      (((createTasks streamProcess).getD ⟨[], false⟩).tasks)
      [Event.task, Event.finish 0, Event.await, Event.ret] _ rfl⟩

/-! ## C13: the completion signal of a task whose FIFOs exist -/

theorem mem_closeOutPorts (p : SciProcess) (a : Action) (ha : a ∈ closeOutPorts p) :
    ∃ x, x ∈ p.Out.keys ∧ a = Action.closePort x := by
  unfold closeOutPorts at ha
  obtain ⟨e, he, rfl⟩ := List.mem_map.1 ha
  exact ⟨e.1, List.mem_map.2 ⟨e, he, rfl⟩, rfl⟩

theorem step_none_of_blocked (p : SciProcess) (f : Nat → Bool) (s : RunState)
    (hp : s.pending = []) (hfired : ∀ i, i < s.tasks.length → i ∈ s.fired)
    (hlt : s.received < s.tasks.length) (hdone : s.received ∉ s.done) :
    ∀ e, step p f s e = none := by
  obtain ⟨pending, tasks, fired, done, received, actions, status⟩ := s
  simp only at hp hfired hlt hdone
  subst hp
  intro e
  cases e with
  | task => cases status <;> rfl
  | finish i =>
    simp only [step]
    rw [if_neg]
    rintro ⟨-, h1, h2⟩
    exact h2 (hfired i h1)
  | await =>
    have hd : tasks.drop received = tasks[received] :: tasks.drop (received + 1) :=
      List.drop_eq_getElem_cons hlt
    cases status with
    | running => simp only [step, hd, if_neg hdone]
    | returned => simp only [step]
    | panicked => simp only [step]
  | ret =>
    have hd : tasks.drop received = tasks[received] :: tasks.drop (received + 1) :=
      List.drop_eq_getElem_cons hlt
    cases status with
    | running => simp only [step, hd]
    | returned => simp only [step]
    | panicked => simp only [step]

/-- C13, the code at the failing input: `copyProcess` creates two tasks, and
FIFOs exist for the first one only.  `Run` invokes neither `createFifos` nor
`Execute` for the first task and starts the goroutine that sends its
completion signal, once.  When that goroutine runs after the second task was
collected, the variable `t` that it reads holds the second task: both signals
are sent on the `Done` channel of the second task and none on that of the
first.  `Run` is then blocked in its second loop for good, and no target of
the two tasks is forwarded on the port `out`. -/
theorem run_fifo_signal_misdirected :
    ∃ ts s, createTasks copyProcess = some ⟨ts, true⟩ ∧ ts.length = 2 ∧
      exec copyProcess (fun i => decide (i = 0)) (startRun ts)
        [Event.task, Event.task, Event.finish 0, Event.finish 1] = some s ∧
      s.status = Status.running ∧ s.tasks = ts ∧ s.received = 0 ∧
      s.fired = [1, 0] ∧ s.done = [1, 1] ∧
      List.count (Action.createFifos 0) s.actions = 0 ∧
      List.count (Action.goExecute 0) s.actions = 0 ∧
      List.count (Action.goSendDone 0) s.actions = 1 ∧
      sentOn "out".toList s.actions = [] ∧
      targetsFor "out".toList ts = [⟨"o.txt".toList, false⟩, ⟨"o.txt".toList, false⟩] ∧
      (∀ e, step copyProcess (fun i => decide (i = 0)) s e = none) := by
  refine ⟨_, _, rfl, rfl, rfl, rfl, rfl, rfl, rfl, rfl, ?_, ?_, ?_, ?_, ?_, ?_⟩
  · decide
  · decide
  · decide
  · decide
  · decide
  · exact step_none_of_blocked _ _ _ rfl (by decide) (by decide) (by decide)

/-! ## C14: the closing of the output ports -/

theorem not_close_sendTargets (out : GoMap FilePort) (b : Bool) (i : Nat)
    (l : List (Str × FileTarget)) (x : Str) :
    Action.closePort x ∉ (sendTargets out b i l).1 := by
  intro hc
  obtain ⟨_, _, h, -, -⟩ := sendTargets_mem out b i l _ hc
  exact absurd h (by simp)

theorem startRun_close (p : SciProcess) (ts : List SciTask) : RunClose p (startRun ts) where
  running := fun _ _ h => absurd h (List.not_mem_nil _)
  ended := fun h => absurd rfl h

theorem step_close (p : SciProcess) (f : Nat → Bool) (s s1 : RunState) (e : Event)
    (hc : RunClose p s) (hs : step p f s e = some s1) : RunClose p s1 := by
  obtain ⟨pending, tasks, fired, done, received, actions, status⟩ := s
  cases e with
  | task =>
    cases status with
    | returned => simp [step] at hs
    | panicked => simp [step] at hs
    | running =>
      have hrun := hc.running rfl
      simp only at hrun
      cases pending with
      | nil => simp [step] at hs
      | cons t rest =>
        have hbody : ∀ x, Action.closePort x ∉ actions
            ++ (if f tasks.length = true then [] else [Action.createFifos tasks.length])
            ++ (sendTargets p.Out true tasks.length t.OutTargets.entries).1 := by
          intro x hx
          rcases List.mem_append.1 hx with h | h
          · rcases List.mem_append.1 h with h | h
            · exact hrun x h
            · cases hf : f tasks.length <;> simp [hf] at h
          · exact not_close_sendTargets _ _ _ _ x h
        simp only [step] at hs
        split at hs
        · simp only [Option.some.injEq] at hs
          subst hs
          refine ⟨fun _ x hx => ?_, fun h => absurd rfl h⟩
          rcases List.mem_append.1 hx with h | h
          · exact hbody x h
          · cases hf : f tasks.length <;> simp [hf] at h
        · simp only [Option.some.injEq] at hs
          subst hs
          exact ⟨fun h => absurd h (by simp), fun _ => ⟨_, rfl, hbody⟩⟩
  | finish i =>
    simp only [step] at hs
    split at hs
    · simp only [Option.some.injEq] at hs
      subst hs
      exact ⟨hc.running, hc.ended⟩
    · exact absurd hs (by simp)
  | await =>
    cases status with
    | returned => simp [step] at hs
    | panicked => simp [step] at hs
    | running =>
      have hrun := hc.running rfl
      simp only at hrun
      cases pending with
      | cons t rest => simp [step] at hs
      | nil =>
        cases hd : tasks.drop received with
        | nil => simp [step, hd] at hs
        | cons t rest =>
          have hbody : ∀ x, Action.closePort x ∉ actions ++ [Action.receiveDone received]
              ++ (sendTargets p.Out false received t.OutTargets.entries).1 := by
            intro x hx
            rcases List.mem_append.1 hx with h | h
            · rcases List.mem_append.1 h with h | h
              · exact hrun x h
              · simp at h
            · exact not_close_sendTargets _ _ _ _ x h
          simp only [step, hd] at hs
          split at hs
          · split at hs
            · simp only [Option.some.injEq] at hs
              subst hs
              exact ⟨fun _ => hbody, fun h => absurd rfl h⟩
            · simp only [Option.some.injEq] at hs
              subst hs
              exact ⟨fun h => absurd h (by simp), fun _ => ⟨_, rfl, hbody⟩⟩
          · exact absurd hs (by simp)
  | ret =>
    cases status with
    | returned => simp [step] at hs
    | panicked => simp [step] at hs
    | running =>
      have hrun := hc.running rfl
      simp only at hrun
      cases pending with
      | cons t rest => simp [step] at hs
      | nil =>
        cases hd : tasks.drop received with
        | cons t rest => simp [step, hd] at hs
        | nil =>
          simp only [step, hd, Option.some.injEq] at hs
          subst hs
          exact ⟨fun h => absurd h (by simp), fun _ => ⟨_, rfl, hrun⟩⟩

theorem exec_close (p : SciProcess) (f : Nat → Bool) (es : List Event) (s s1 : RunState)
    (hc : RunClose p s) (hs : exec p f s es = some s1) : RunClose p s1 := by
  induction es generalizing s with
  | nil =>
    simp only [exec, Option.some.injEq] at hs
    subst hs
    exact hc
  | cons e rest ih =>
    simp only [exec] at hs
    cases hstep : step p f s e with
    | none => rw [hstep] at hs; exact absurd hs (by simp)
    | some s2 =>
      rw [hstep] at hs
      exact ih s2 (step_close p f s s2 e hc hstep) hs

theorem count_closeOutPorts_key (p : SciProcess) (x : Str) (hx : x ∈ p.Out.keys) :
    List.count (Action.closePort x) (closeOutPorts p) = 1 := by
  have hnd : (closeOutPorts p).Nodup := by
    have h : closeOutPorts p = p.Out.keys.map Action.closePort := by
      simp [closeOutPorts, GoMap.keys, List.map_map, Function.comp_def]
    rw [h]
    exact List.Nodup.map (fun a b hab => by simpa using hab) p.Out.nodup
  apply List.count_eq_one_of_mem hnd
  unfold closeOutPorts
  obtain ⟨e, he, rfl⟩ := List.mem_map.1 hx
  exact List.mem_map.2 ⟨e, he, rfl⟩

/-- C14: for every process and every run of `Run` that has ended, by
returning or by a panic (the closing is deferred): every port of `Out` has
been closed exactly once and no other port has been closed, and wherever a
port is closed in the sequence of actions, every send that `Run` performs on
that port comes before the close and no target is sent on any port after
it. -/
theorem run_closes_ports_once (p : SciProcess) (anyFifosExist : Nat → Bool)
    (ts : List SciTask) (es : List Event) (s : RunState)
    (hs : exec p anyFifosExist (startRun ts) es = some s)
    (hend : s.status ≠ Status.running) :
    (∀ x ∈ p.Out.keys, List.count (Action.closePort x) s.actions = 1) ∧
    (∀ x, x ∉ p.Out.keys → Action.closePort x ∉ s.actions) ∧
    (∀ x pre post, s.actions = pre ++ Action.closePort x :: post →
      (∀ i tg, Action.send i x tg ∈ s.actions → Action.send i x tg ∈ pre) ∧
      (∀ i y tg, Action.send i y tg ∉ post)) := by
  obtain ⟨body, hact, hbody⟩ :=
    (exec_close p anyFifosExist es (startRun ts) s (startRun_close p ts) hs).ended hend
  have hnosend : ∀ l, (∃ l', closeOutPorts p = l' ++ l) → ∀ i y tg, Action.send i y tg ∉ l := by
    rintro l ⟨l', hl⟩ i y tg hc
    have : Action.send i y tg ∈ closeOutPorts p := by
      rw [hl]
      exact List.mem_append_right _ hc
    obtain ⟨_, -, h⟩ := mem_closeOutPorts p _ this
    exact absurd h (by simp)
  refine ⟨fun x hx => ?_, fun x hx hc => ?_, fun x pre post hsplit => ?_⟩
  · rw [hact, List.count_append, List.count_eq_zero.2 (hbody x), Nat.zero_add]
    exact count_closeOutPorts_key p x hx
  · rw [hact] at hc
    rcases List.mem_append.1 hc with h | h
    · exact hbody x h
    · obtain ⟨y, hy, h⟩ := mem_closeOutPorts p _ h
      simp only [Action.closePort.injEq] at h
      exact hx (h ▸ hy)
  · rw [hact] at hsplit
    have hpost : (∃ l', closeOutPorts p = l' ++ post) ∧ ∃ m, pre = body ++ m := by
      rw [List.append_eq_append_iff] at hsplit
      rcases hsplit with ⟨a', hpre, hcl⟩ | ⟨c', hb, hcl⟩
      · exact ⟨⟨a' ++ [Action.closePort x], by rw [hcl]; simp⟩, a', hpre⟩
      · cases c' with
        | nil =>
          simp only [List.nil_append] at hcl
          simp only [List.append_nil] at hb
          exact ⟨⟨[Action.closePort x], by rw [← hcl]; simp⟩, [], by rw [hb]; simp⟩
        | cons c c'' =>
          simp only [List.cons_append, List.cons.injEq] at hcl
          exfalso
          apply hbody x
          rw [hb, ← hcl.1]
          simp
    obtain ⟨hp1, m, hm⟩ := hpost
    refine ⟨fun i tg hmem => ?_, hnosend post hp1⟩
    rw [hact] at hmem
    rcases List.mem_append.1 hmem with h | h
    · rw [hm]
      exact List.mem_append_left _ h
    · exact absurd h (hnosend _ ⟨[], rfl⟩ i x tg)

/-- C14, at `copyProcess` and the run in which its two tasks are collected,
complete in turn and have their targets sent before `Run` returns. -/
theorem run_closes_ports_once_witness :
    ∃ s, exec copyProcess (fun _ => false) (startRun (((createTasks copyProcess).getD ⟨[], false⟩).tasks))
        [Event.task, Event.task, Event.finish 0, Event.finish 1, Event.await, Event.await,
          Event.ret] = some s ∧
      s.status = Status.returned ∧
      ((∀ x ∈ copyProcess.Out.keys, List.count (Action.closePort x) s.actions = 1) ∧
        (∀ x, x ∉ copyProcess.Out.keys → Action.closePort x ∉ s.actions) ∧
        (∀ x pre post, s.actions = pre ++ Action.closePort x :: post →
          (∀ i tg, Action.send i x tg ∈ s.actions → Action.send i x tg ∈ pre) ∧
          (∀ i y tg, Action.send i y tg ∉ post))) :=
  ⟨_, rfl, by decide,
    run_closes_ports_once copyProcess (fun _ => false) (((createTasks copyProcess).getD ⟨[], false⟩).tasks)
      [Event.task, Event.task, Event.finish 0, Event.finish 1, Event.await, Event.await,
        Event.ret] _ rfl (by decide)⟩

end Scipipe
